import Mathlib

/-!
Verification of the eir compiler IR core against its specification.

The development shallowly embeds the relevant Rust code:
entity arenas become Lean lists indexed by position, typed handles
(Block, Value, FunctionIndex) become natural numbers, hash maps and
btree maps become association lists with first-match lookup, and
operations that can panic (assert, unwrap, unimplemented) return
Option, with none standing for an abort.  Iteration order of Rust
hash containers is unspecified; the embedding fixes a deterministic
order, which is one of the schedules the Rust code may exhibit.
-/

/-- Association list lookup with first-match semantics, mirroring map
lookup in the Rust code. -/
def alistGet {α β : Type} [DecidableEq α] : List (α × β) → α → Option β
  | [], _ => none
  | (k, v) :: l, a => if k = a then some v else alistGet l a

/-- Removes every entry with the given key. -/
def alistErase {α β : Type} [DecidableEq α] : List (α × β) → α → List (α × β)
  | [], _ => []
  | (k, v) :: l, a => if k = a then alistErase l a else (k, v) :: alistErase l a

/-- Insert with overwrite, mirroring map insert in the Rust code. -/
def alistInsert {α β : Type} [DecidableEq α] (l : List (α × β)) (a : α) (b : β) :
    List (α × β) :=
  (a, b) :: alistErase l a

@[simp]
theorem alistGet_nil {α β : Type} [DecidableEq α] (a : α) :
    alistGet ([] : List (α × β)) a = none := rfl

@[simp]
theorem alistGet_cons {α β : Type} [DecidableEq α] (k a : α) (v : β) (l : List (α × β)) :
    alistGet ((k, v) :: l) a = if k = a then some v else alistGet l a := rfl

theorem alistGet_erase {α β : Type} [DecidableEq α] (l : List (α × β)) (k a : α) :
    alistGet (alistErase l k) a = if k = a then none else alistGet l a := by
  induction l with
  | nil => simp [alistErase]
  | cons p l ih =>
    obtain ⟨k1, v1⟩ := p
    by_cases h1 : k1 = k
    · subst h1
      by_cases h2 : k1 = a
      · subst h2; simp [alistErase, ih]
      · simp [alistErase, ih, h2]
    · by_cases h2 : k1 = a
      · subst h2
        have : ¬ k = k1 := fun h => h1 h.symm
        simp [alistErase, h1, this]
      · simp [alistErase, h1, h2, ih]

theorem alistGet_insert_self {α β : Type} [DecidableEq α] (l : List (α × β)) (a : α) (b : β) :
    alistGet (alistInsert l a b) a = some b := by
  simp [alistInsert]

theorem alistGet_insert_ne {α β : Type} [DecidableEq α] (l : List (α × β)) (a k : α) (b : β)
    (h : a ≠ k) : alistGet (alistInsert l a b) k = alistGet l k := by
  simp [alistInsert, h, alistGet_erase, fun hh : a = k => h hh]

/-- Pointwise update of a list at an index, used for writing one arena
slot while leaving the rest untouched. -/
def listModify {α : Type} : List α → Nat → (α → α) → List α
  | [], _, _ => []
  | a :: l, 0, g => g a :: l
  | a :: l, i + 1, g => a :: listModify l i g

@[simp]
theorem listModify_nil {α : Type} (i : Nat) (g : α → α) : listModify ([] : List α) i g = [] := rfl

theorem listModify_length {α : Type} (l : List α) (i : Nat) (g : α → α) :
    (listModify l i g).length = l.length := by
  induction l generalizing i with
  | nil => rfl
  | cons a l ih =>
    cases i with
    | zero => simp [listModify]
    | succ i => simp [listModify, ih]

theorem listModify_getD_ne {α : Type} (l : List α) (i j : Nat) (g : α → α) (d : α)
    (h : i ≠ j) : (listModify l i g).getD j d = l.getD j d := by
  induction l generalizing i j with
  | nil => rfl
  | cons a l ih =>
    cases i with
    | zero =>
      cases j with
      | zero => exact absurd rfl h
      | succ j => simp [listModify]
    | succ i =>
      cases j with
      | zero => simp [listModify]
      | succ j =>
        simp only [listModify, List.getD_cons_succ]
        exact ih i j (fun hh => h (by omega))

theorem listModify_getD_self {α : Type} (l : List α) (i : Nat) (g : α → α) (d : α)
    (h : i < l.length) : (listModify l i g).getD i d = g (l.getD i d) := by
  induction l generalizing i with
  | nil => simp at h
  | cons a l ih =>
    cases i with
    | zero => simp [listModify]
    | succ i =>
      simp only [listModify, List.getD_cons_succ]
      exact ih i (by simpa using h)

theorem listModify_getD_oob {α : Type} (l : List α) (i : Nat) (g : α → α)
    (h : l.length ≤ i) : listModify l i g = l := by
  induction l generalizing i with
  | nil => rfl
  | cons a l ih =>
    cases i with
    | zero => simp at h
    | succ i => simp [listModify, ih i (by simpa using h)]

namespace Eir

/-- Block handle: an index into the block arena of a function. -/
abbrev Block := Nat

/-- Value handle: an index into the value arena of a function. -/
abbrev Value := Nat

/-- Operation kind terminating a block.  The mangler treats op kinds as
opaque data that is cloned, so the embedding only distinguishes the
constructors the modelled code itself distinguishes. -/
inductive OpKind
  | call
  | unreach
  | intrinsic (name : Nat)
  | other (tag : Nat)
deriving DecidableEq

/-- Kind of a value, translated from the ValueType enum. -/
inductive ValueType
  | arg (owner : Block)
  | const (term : Nat)
  | block (target : Block)
  | alias (forward : Value)
deriving DecidableEq

/-- Data of one block: argument list, optional terminating op, read
operands and a source span. -/
structure BlockData where
  arguments : List Value
  op : Option OpKind
  reads : List Value
  span : Nat
deriving DecidableEq

/-- Fresh block data as created by block_insert. -/
def emptyBlockData : BlockData := ⟨[], none, [], 0⟩

/-- Interned identifier with a source span, from libeir_intern. -/
structure Ident where
  name : Nat
  span : Nat
deriving DecidableEq

/-- Function identity: module, name, arity; equality by component. -/
structure FunctionIdent where
  module : Ident
  name : Ident
  arity : Nat
deriving DecidableEq

/-- Function container: block arena, value arena and the entry block.
Modelled from the spec: the libeir_ir Function definition is not under
src/, so the arena layout follows spec section 3 and the sibling
src/eir/src/fun/mod.rs definition; list pools are inlined into the
per-block lists. -/
structure Function where
  ident : FunctionIdent
  span : Nat
  blocks : List BlockData
  values : List ValueType
  entry_block : Option Block
deriving DecidableEq

/-- Creates an empty function, from Function::new. -/
def Function.new (span : Nat) (ident : FunctionIdent) : Function :=
  ⟨ident, span, [], [], none⟩

/-- Raw read of one block arena slot. -/
def Function.blockData (f : Function) (b : Block) : BlockData :=
  f.blocks.getD b emptyBlockData

def Function.block_args (f : Function) (b : Block) : List Value :=
  (f.blockData b).arguments

def Function.block_reads (f : Function) (b : Block) : List Value :=
  (f.blockData b).reads

def Function.block_kind (f : Function) (b : Block) : Option OpKind :=
  (f.blockData b).op

def Function.block_span (f : Function) (b : Block) : Nat :=
  (f.blockData b).span

/-- Raw read of one value arena slot. -/
def Function.valueGet (f : Function) (v : Value) : ValueType :=
  f.values.getD v (ValueType.const 0)

/-- Alias chasing with fuel bounded by the arena size.  Modelled from
the spec: value_kind resolves aliases transparently. -/
def resolveAlias (f : Function) : Nat → Value → ValueType
  | 0, v => f.valueGet v
  | fuel + 1, v =>
    match f.valueGet v with
    | ValueType.alias v2 => resolveAlias f fuel v2
    | k => k

def Function.value_kind (f : Function) (v : Value) : ValueType :=
  resolveAlias f f.values.length v

def Function.value_block (f : Function) (v : Value) : Option Block :=
  match f.value_kind v with
  | ValueType.block b => some b
  | _ => none

/-- Inserts a fresh block with no args, no op and no reads, returning
the new handle.  Modelled from the spec builder contract and the
sibling src/eir implementation of block_insert. -/
def Function.block_insert (f : Function) : Function × Block :=
  ({ f with blocks := f.blocks ++ [emptyBlockData] }, f.blocks.length)

/-- Appends a fresh argument value to the given block. -/
def Function.block_arg_insert (f : Function) (b : Block) : Function × Value :=
  let v := f.values.length
  ({ f with
      values := f.values ++ [ValueType.arg b],
      blocks := listModify f.blocks b
        (fun bd => { bd with arguments := bd.arguments ++ [v] }) }, v)

/-- First index holding the given kind, used for value interning. -/
def findValueIdx (l : List ValueType) (k : ValueType) : Option Nat :=
  match l with
  | [] => none
  | a :: rest => if a = k then some 0 else (findValueIdx rest k).map (· + 1)

/-- Interned block value: same block yields the same handle.  Modelled
from the spec: value(block) is interned. -/
def Function.valueOfBlock (f : Function) (b : Block) : Function × Value :=
  match findValueIdx f.values (ValueType.block b) with
  | some v => (f, v)
  | none => ({ f with values := f.values ++ [ValueType.block b] }, f.values.length)

/-- Interned constant value.  Modelled from the spec: constants are
deduplicated by structural equality. -/
def Function.valueConst (f : Function) (c : Nat) : Function × Value :=
  match findValueIdx f.values (ValueType.const c) with
  | some v => (f, v)
  | none => ({ f with values := f.values ++ [ValueType.const c] }, f.values.length)

/-- Writes the call op: op = Call, reads = target followed by args. -/
def Function.op_call (f : Function) (src : Block) (target : Value) (args : List Value) :
    Function :=
  { f with blocks :=
      (listModify f.blocks src
        (fun bd => { bd with op := some OpKind.call, reads := target :: args })) }

/-- Outgoing edges of the block graph: the blocks referenced by the
read operands.  Modelled from the spec: the graph view exposes the
successors of each block. -/
def Function.successors (f : Function) (b : Block) : List Block :=
  (f.block_reads b).filterMap f.value_block

/-- Well-formedness maintained by the builder: every value kind points
into the arenas, no aliases are present (aliases arise only in rewrite
passes outside the modelled code), and all reads and argument entries
are in range. -/
def ValueType.wfIn (k : ValueType) (nb : Nat) : Bool :=
  match k with
  | ValueType.arg b => b < nb
  | ValueType.block b => b < nb
  | ValueType.const _ => true
  | ValueType.alias _ => false

def Function.wf (f : Function) : Bool :=
  f.values.all (fun k => k.wfIn f.blocks.length) &&
  f.blocks.all (fun bd =>
    bd.reads.all (fun v => v < f.values.length) &&
    bd.arguments.all (fun v => v < f.values.length))

end Eir

namespace Eir

/-- One entry of the module container, from module.rs. -/
structure FunctionDefinition where
  index : Nat
  fn : Function
deriving DecidableEq

/-- Module container, from module.rs: a primary map of definitions
(embedded as a list indexed by position) plus the (name, arity) to
index btree map (embedded as an association list). -/
structure Module where
  name : Ident
  span : Nat
  functions : List FunctionDefinition
  name_map : List ((Nat × Nat) × Nat)
deriving DecidableEq

def Module.new (name : Ident) : Module := ⟨name, 0, [], []⟩

/-- Translated from Module::add_function: asserts that no function with
the same (name, arity) exists, pushes a definition with index 0, then
fixes the stored index to the handle returned by the push. -/
def Module.add_function (m : Module) (span : Nat) (name : Ident) (arity : Nat) :
    Option (Module × Nat) :=
  if (alistGet m.name_map (name.name, arity)).isSome then none
  else
    let ident : FunctionIdent := ⟨m.name, name, arity⟩
    let f := Function.new span ident
    let index := m.functions.length
    let fs1 := m.functions ++ [⟨0, f⟩]
    let fs2 := listModify fs1 index (fun d => { d with index := index })
    let nm := alistInsert m.name_map (name.name, arity) index
    some ({ m with functions := fs2, name_map := nm }, index)

/-- Translated from Module::ident_index: looks up by the symbol of the
name and the arity only; the module component is not consulted. -/
def Module.ident_index (m : Module) (ident : FunctionIdent) : Option Nat :=
  alistGet m.name_map (ident.name.name, ident.arity)

def Module.name_arity_index (m : Module) (name : Nat) (arity : Nat) : Option Nat :=
  alistGet m.name_map (name, arity)

/-- Translated from the Clone impl for Module: each definition is
pushed with index 0 and, unlike add_function, the stored index is
never fixed up afterwards. -/
def Module.clone (m : Module) : Module :=
  let res := m.functions.foldl
    (fun (acc : List FunctionDefinition × List ((Nat × Nat) × Nat)) (d : FunctionDefinition) =>
      let ident := d.fn.ident
      let index := acc.1.length
      (acc.1 ++ [⟨0, d.fn⟩], alistInsert acc.2 (ident.name.name, ident.arity) index))
    ([], [])
  ⟨m.name, m.span, res.1, res.2⟩

end Eir

namespace EirOldCore

/-- Block data of the older eir crate Function, reduced to the fields
relevant to entry handling; from src/eir/src/fun/mod.rs. -/
structure BlockData where
  arguments : List Nat
  op : Option Nat
  reads : List Nat
deriving DecidableEq

/-- Function of the older eir crate, reduced to the block arena and
the entry block; the omitted arenas and pools play no role in the
entry-setting contract.  From src/eir/src/fun/mod.rs. -/
structure Function where
  ident : Nat
  blocks : List BlockData
  entry_block : Option Nat
deriving DecidableEq

def Function.new (ident : Nat) : Function := ⟨ident, [], none⟩

def Function.block_insert (f : Function) : Function × Nat :=
  ({ f with blocks := f.blocks ++ [⟨[], none, []⟩] }, f.blocks.length)

/-- Translated from Function::block_set_entry: the field is assigned
unconditionally; there is no check that the entry was unset. -/
def Function.block_set_entry (f : Function) (block : Nat) : Function :=
  { f with entry_block := some block }

/-- Concrete function with two inserted blocks, for the entry claim. -/
def twoBlockFun : Function := ((Function.new 7).block_insert).1.block_insert.1

end EirOldCore

namespace Eir

/-- Concrete module named 1 with two functions, 2/1 and 3/1, used to
exercise the module container claims. -/
def moduleTwoFuns : Module :=
  let m0 := Module.new ⟨1, 0⟩
  let m1 := ((m0.add_function 0 ⟨2, 0⟩ 1).getD (m0, 0)).1
  ((m1.add_function 0 ⟨3, 0⟩ 1).getD (m1, 0)).1

/-- Placeholder definition used as a getD default for definitions. -/
def defaultDef : FunctionDefinition := ⟨0, Function.new 0 ⟨⟨0, 0⟩, ⟨0, 0⟩, 0⟩⟩

end Eir

/-- C10: module lookup by FunctionIdent ignores the module component:
for any module and any two idents with equal name and equal arity,
ident_index returns the same result, and it equals name_arity_index
applied to the name symbol and the arity. -/
theorem module_ident_index_ignores_module (m : Eir.Module) (i1 i2 : Eir.FunctionIdent)
    (hname : i1.name = i2.name) (harity : i1.arity = i2.arity) :
    m.ident_index i1 = m.ident_index i2 ∧
    m.ident_index i1 = m.name_arity_index i1.name.name i1.arity := by
  unfold Eir.Module.ident_index Eir.Module.name_arity_index
  rw [hname, harity]
  exact ⟨rfl, rfl⟩

/-- Witness for C10 at a concrete module and two idents that differ in
their module component. -/
theorem module_ident_index_ignores_module_witness :
    Eir.moduleTwoFuns.ident_index ⟨⟨9, 9⟩, ⟨2, 0⟩, 1⟩ =
      Eir.moduleTwoFuns.ident_index ⟨⟨1, 0⟩, ⟨2, 0⟩, 1⟩ ∧
    Eir.moduleTwoFuns.ident_index ⟨⟨9, 9⟩, ⟨2, 0⟩, 1⟩ =
      Eir.moduleTwoFuns.name_arity_index 2 1 :=
  module_ident_index_ignores_module Eir.moduleTwoFuns ⟨⟨9, 9⟩, ⟨2, 0⟩, 1⟩ ⟨⟨1, 0⟩, ⟨2, 0⟩, 1⟩
    rfl rfl

/-- C8: evaluation of Module clone at a two-function module.  The
clone stores an equal function under each index, but the stored index
of the definition kept under handle 1 is 0 in the clone, where
add_function had established index 1 in the original: the Clone impl
pushes definitions with index 0 and never fixes them up. -/
theorem module_clone_index_bug :
    Eir.moduleTwoFuns.clone.functions.length = Eir.moduleTwoFuns.functions.length ∧
    (Eir.moduleTwoFuns.clone.functions.getD 1 Eir.defaultDef).fn =
      (Eir.moduleTwoFuns.functions.getD 1 Eir.defaultDef).fn ∧
    (Eir.moduleTwoFuns.functions.getD 1 Eir.defaultDef).index = 1 ∧
    (Eir.moduleTwoFuns.clone.functions.getD 1 Eir.defaultDef).index = 0 :=
  ⟨rfl, rfl, rfl, rfl⟩

/-- C7 (counterexample to the claim as stated): setting the entry a
second time does not abort; it returns a normal function whose entry
is the second block, so the entry block is not set exactly once. -/
theorem block_set_entry_second_call_succeeds :
    ((EirOldCore.twoBlockFun.block_set_entry 0).block_set_entry 1).entry_block = some 1 ∧
    (0 : Nat) ≠ 1 :=
  ⟨rfl, by decide⟩

/-- C7 (amended): block_set_entry assigns the entry unconditionally;
calling it a second time silently overwrites the previous entry with
the new block. -/
theorem block_set_entry_overwrites (f : EirOldCore.Function) (b1 b2 : Nat) :
    ((f.block_set_entry b1).block_set_entry b2).entry_block = some b2 := rfl

namespace Eir

/-- Symbolic handle for an argument of the yet-to-be-created new entry
block, from EntryArg(usize). -/
abbrev EntryArg := Nat

/-- Source of a rename: either a value or a block. -/
inductive RenameSource
  | value (v : Value)
  | block (b : Block)
deriving DecidableEq

/-- Destination of a rename: a value, a block, or an entry argument. -/
inductive RenameDest
  | value (v : Value)
  | block (b : Block)
  | entryArg (idx : EntryArg)
deriving DecidableEq

/-- The rename map of the mangler.  The Rust HashMap becomes an
association list with unique keys; iteration order is fixed by the
list where the Rust iteration order is unspecified. -/
abbrev RenameMap := List (RenameSource × RenameDest)

/-- Mangler state: the recorded entry, the number of pre-allocated
entry arguments, and the rename map. -/
structure Mangler where
  entry : Option Block
  num_args : Nat
  map : RenameMap
deriving DecidableEq

def Mangler.new : Mangler := ⟨none, 0, []⟩

/-- Clears the mangler and starts a transaction for the given entry. -/
def Mangler.start (_mg : Mangler) (block : Block) : Mangler :=
  ⟨some block, 0, []⟩

/-- Adds an argument on the new entry block, returning its handle. -/
def Mangler.add_argument (mg : Mangler) : Mangler × EntryArg :=
  ({ mg with num_args := mg.num_args + 1 }, mg.num_args)

def Mangler.add_rename (mg : Mangler) (old : RenameSource) (new : RenameDest) : Mangler :=
  { mg with map := alistInsert mg.map old new }

/-- Receiver selection: run uses the single receiver, where the source
and destination are one function container; run_across reads from a
fixed source function and writes to the destination builder. -/
inductive MangleMode
  | single
  | copyAcross (src : Function)
deriving DecidableEq

/-- The from function of the receiver: the current builder function in
single mode, the fixed source in copy mode. -/
def modeFrom (mode : MangleMode) (cur : Function) : Function :=
  match mode with
  | MangleMode.single => cur
  | MangleMode.copyAcross src => src

/-- map_const of the receiver: identity for the single receiver; the
copy receiver is unimplemented and panics. -/
def modeMapConst (mode : MangleMode) (v : Value) : Option Value :=
  match mode with
  | MangleMode.single => some v
  | MangleMode.copyAcross _ => none

/-- map_free_value of the receiver: identity for the single receiver;
the copy receiver panics. -/
def modeMapFree (mode : MangleMode) (v : Value) : Option Value :=
  match mode with
  | MangleMode.single => some v
  | MangleMode.copyAcross _ => none

/-- map_block_op of the receiver: the single receiver clones the op
kind of the block, unwrapping (abort when the block has no op); the
copy receiver is unimplemented and panics. -/
def modeMapBlockOp (mode : MangleMode) (cur : Function) (b : Block) : Option OpKind :=
  match mode with
  | MangleMode.single => cur.block_kind b
  | MangleMode.copyAcross _ => none

/-- Source normalization loop body: for every snapshot key that is a
value-keyed rename whose value is of block kind, re-key it to a
block-keyed rename; an existing block-keyed rename must agree with
the destination, otherwise the assert aborts. -/
def normalizeGo (f : Function) : List RenameSource → RenameMap → Option RenameMap
  | [], m => some m
  | RenameSource.block bb :: rest, m =>
    match alistGet m (RenameSource.block bb) with
    | none => none
    | some _ => normalizeGo f rest m
  | RenameSource.value val :: rest, m =>
    match alistGet m (RenameSource.value val) with
    | none => none
    | some dest =>
      match f.value_block val with
      | some block =>
        match alistGet m (RenameSource.block block) with
        | some existing =>
          if existing = dest then
            normalizeGo f rest
              (alistErase (alistInsert m (RenameSource.block block) dest)
                (RenameSource.value val))
          else none
        | none =>
          normalizeGo f rest
            (alistErase (alistInsert m (RenameSource.block block) dest)
              (RenameSource.value val))
      | none => normalizeGo f rest m

/-- Source normalization: iterates over a snapshot of the keys. -/
def normalizeSources (f : Function) (m : RenameMap) : Option RenameMap :=
  normalizeGo f (m.map Prod.fst) m

/-- Scope walk: worklist traversal from the entry that skips blocks
already in scope and blocks named as rename sources, and pushes the
successors of each newly scoped block.  The Rust loop terminates
because the scope only grows; the embedding makes this explicit with
fuel and returns none when the fuel runs out. -/
def walkAux (f : Function) (m : RenameMap) : Nat → List Block → List Block → Option (List Block)
  | _, [], scope => some scope
  | 0, _ :: _, _ => none
  | fuel + 1, b :: rest, scope =>
    if b ∈ scope then walkAux f m fuel rest scope
    else if (alistGet m (RenameSource.block b)).isSome then walkAux f m fuel rest scope
    else walkAux f m fuel (f.successors b ++ rest) (b :: scope)

/-- Inserts the pre-allocated arguments of the new entry block. -/
def insertArgsN : Nat → Block → Function → Function
  | 0, _, f => f
  | n + 1, b, f => insertArgsN n b (f.block_arg_insert b).1

/-- Argument allocation for one new block: a fresh destination argument
per source argument; a rename is added only when the source argument
has no rename yet, so existing renames take precedence. -/
def allocArgs : List Value → Block → RenameMap → Function → RenameMap × Function
  | [], _, m, dst => (m, dst)
  | a :: rest, nb, m, dst =>
    let p := dst.block_arg_insert nb
    let m1 :=
      if (alistGet m (RenameSource.value a)).isSome then m
      else alistInsert m (RenameSource.value a) (RenameDest.value p.2)
    allocArgs rest nb m1 p.1

/-- Destination allocation: for each scoped block, assert it carries no
rename, insert a fresh destination block, record the block rename and
allocate its arguments. -/
def allocBlocks (mode : MangleMode) :
    List Block → RenameMap → Function → Option (RenameMap × Function)
  | [], m, dst => some (m, dst)
  | b :: rest, m, dst =>
    if (alistGet m (RenameSource.block b)).isSome then none
    else
      let p := dst.block_insert
      let m1 := alistInsert m (RenameSource.block b) (RenameDest.block p.2)
      let args := (modeFrom mode p.1).block_args b
      let q := allocArgs args p.2 m1 p.1
      allocBlocks mode rest q.1 q.2

/-- Conversion of a rename destination to a read value: a value stands
for itself, an entry argument indexes the arguments of the new entry
block (abort when out of range), and a block is converted to its
interned value form. -/
def destToValue (dst : Function) (newEntry : Block) (d : RenameDest) :
    Option (Function × Value) :=
  match d with
  | RenameDest.value v => some (dst, v)
  | RenameDest.entryArg i =>
    match (dst.block_args newEntry)[i]? with
    | some v => some (dst, v)
    | none => none
  | RenameDest.block b => some (dst.valueOfBlock b)

/-- Translated from the map_value closure: an argument uses its rename
when present and is otherwise mapped as a free value; a constant is
mapped by the receiver; a block must carry a rename (unwrap); any
other kind is unreachable. -/
def mapValue (mode : MangleMode) (m : RenameMap) (newEntry : Block) (dst : Function)
    (v : Value) : Option (Function × Value) :=
  match (modeFrom mode dst).value_kind v with
  | ValueType.arg _ =>
    match alistGet m (RenameSource.value v) with
    | some d => destToValue dst newEntry d
    | none =>
      match modeMapFree mode v with
      | some w => some (dst, w)
      | none => none
  | ValueType.const _ =>
    match modeMapConst mode v with
    | some w => some (dst, w)
    | none => none
  | ValueType.block b =>
    match alistGet m (RenameSource.block b) with
    | some d => destToValue dst newEntry d
    | none => none
  | ValueType.alias _ => none

/-- Maps the snapshot of the read operands left to right, threading the
destination function through (interning may add values). -/
def mapReads (mode : MangleMode) (m : RenameMap) (newEntry : Block) :
    List Value → Function → Option (Function × List Value)
  | [], dst => some (dst, [])
  | v :: rest, dst =>
    match mapValue mode m newEntry dst v with
    | none => none
    | some p =>
      match mapReads mode m newEntry rest p.1 with
      | none => none
      | some q => some (q.1, p.2 :: q.2)

/-- Writes kind, span and mapped reads onto the destination block,
pushing the reads onto the read list of the block. -/
def Function.setBlockBody (f : Function) (b : Block) (op : OpKind) (span : Nat)
    (reads : List Value) : Function :=
  { f with blocks :=
      (listModify f.blocks b
        (fun bd => { bd with op := some op, span := span, reads := bd.reads ++ reads })) }

/-- Translated from the copy_body closure: fetch the op kind via the
receiver, fetch the span and the reads snapshot, map every read, and
write the result onto the destination block. -/
def copyBody (mode : MangleMode) (m : RenameMap) (newEntry : Block) (fromB toB : Block)
    (dst : Function) : Option Function :=
  match modeMapBlockOp mode (modeFrom mode dst) fromB with
  | none => none
  | some op =>
    let span := (modeFrom mode dst).block_span fromB
    let reads := (modeFrom mode dst).block_reads fromB
    match mapReads mode m newEntry reads dst with
    | none => none
    | some p => some (p.1.setBlockBody toB op span p.2)

/-- Body copying for every scoped block: the rename destination of a
scoped block must be a block handle (unwrap and the block() accessor
panic otherwise). -/
def copyScopeBlocks (mode : MangleMode) (m : RenameMap) (newEntry : Block) :
    List Block → Function → Option Function
  | [], dst => some dst
  | b :: rest, dst =>
    match alistGet m (RenameSource.block b) with
    | some (RenameDest.block nb) =>
      match copyBody mode m newEntry b nb dst with
      | none => none
      | some to1 => copyScopeBlocks mode m newEntry rest to1
    | some _ => none
    | none => none

/-- Result of one mangler run.  The Rust code clears the mangler before
returning just the new entry; the embedding additionally returns the
final destination function and, for observation in theorems, the
normalized map, the computed scope and the final rename map. -/
structure RunResult where
  fn : Function
  newEntry : Block
  normMap : RenameMap
  scope : List Block
  finalMap : RenameMap
deriving DecidableEq

/-- Translated from Mangler::run_inner: insert the new entry block and
its pre-allocated arguments, normalize the rename sources, walk the
scope, allocate destination blocks, then copy the entry body and every
scoped body. -/
def Mangler.runInner (mg : Mangler) (mode : MangleMode) (fuel : Nat) (to0 : Function) :
    Option RunResult :=
  mg.entry.bind (fun entry =>
    let p1 := to0.block_insert
    let newEntry := p1.2
    let to2 := insertArgsN mg.num_args newEntry p1.1
    (normalizeSources (modeFrom mode to2) mg.map).bind (fun m1 =>
      (walkAux (modeFrom mode to2) m1 fuel [entry] []).bind (fun scope =>
        (allocBlocks mode scope m1 to2).bind (fun q =>
          (copyBody mode q.1 newEntry entry newEntry q.2).bind (fun to4 =>
            (copyScopeBlocks mode q.1 newEntry scope to4).map (fun to5 =>
              ⟨to5, newEntry, m1, scope, q.1⟩))))))

/-- Runs lambda mangling on a single function container. -/
def Mangler.run (mg : Mangler) (fuel : Nat) (b : Function) : Option (Function × Block) :=
  (mg.runInner MangleMode.single fuel b).map (fun r => (r.fn, r.newEntry))

/-- Runs lambda mangling while copying across function containers. -/
def Mangler.run_across (mg : Mangler) (fuel : Nat) (src dst : Function) :
    Option (Function × Block) :=
  (mg.runInner (MangleMode.copyAcross src) fuel dst).map (fun r => (r.fn, r.newEntry))

theorem copyBody_copyAcross_none (src : Function) (m : RenameMap) (ne fb tb : Block)
    (dst : Function) : copyBody (MangleMode.copyAcross src) m ne fb tb dst = none := rfl

end Eir

/-- C5: run_across never succeeds on any input.  The copy receiver
implements map_block_op (as well as map_const and map_free_value) with
unimplemented, and map_block_op is invoked unconditionally as soon as
the body of the entry block is copied, so every call aborts before a
cross-function copy can be produced. -/
theorem optionBindConstNone {α β : Type} (o : Option α) :
    o.bind (fun _ => (none : Option β)) = none := by
  cases o <;> rfl

theorem run_across_always_aborts (mg : Eir.Mangler) (fuel : Nat) (src dst : Eir.Function) :
    mg.run_across fuel src dst = none := by
  unfold Eir.Mangler.run_across Eir.Mangler.runInner
  simp [Eir.modeFrom, Eir.copyBody_copyAcross_none, optionBindConstNone]

namespace Eir

theorem block_insert_values (f : Function) : (f.block_insert).1.values = f.values := rfl

theorem block_insert_blocks (f : Function) :
    (f.block_insert).1.blocks = f.blocks ++ [emptyBlockData] := rfl

theorem block_insert_idx (f : Function) : (f.block_insert).2 = f.blocks.length := rfl

theorem block_arg_insert_values (f : Function) (b : Block) :
    (f.block_arg_insert b).1.values = f.values ++ [ValueType.arg b] := rfl

theorem block_arg_insert_blocks (f : Function) (b : Block) :
    (f.block_arg_insert b).1.blocks =
      listModify f.blocks b (fun bd => { bd with arguments := bd.arguments ++ [f.values.length] }) :=
  rfl

theorem block_arg_insert_val (f : Function) (b : Block) :
    (f.block_arg_insert b).2 = f.values.length := rfl

/-- Absence of alias values in a value arena. -/
def valuesNoAlias (l : List ValueType) : Prop :=
  ∀ k ∈ l, ∀ w, k ≠ ValueType.alias w

/-- The raw slot read never yields an alias when the arena holds none. -/
theorem valueGet_not_alias (f : Function) (h : valuesNoAlias f.values) (v : Value) (w : Value) :
    f.valueGet v ≠ ValueType.alias w := by
  unfold Function.valueGet
  by_cases hv : v < f.values.length
  · rw [List.getD_eq_getElem f.values _ hv]
    exact h _ (List.getElem_mem hv) w
  · have hge : f.values.length ≤ v := Nat.le_of_not_lt hv
    rw [List.getD_eq_default f.values _ hge]
    intro hk
    exact ValueType.noConfusion hk

theorem resolveAlias_of_not_alias (f : Function) (fuel : Nat) (v : Value)
    (h : ∀ w, f.valueGet v ≠ ValueType.alias w) : resolveAlias f fuel v = f.valueGet v := by
  cases fuel with
  | zero => rfl
  | succ n =>
    unfold resolveAlias
    split
    · rename_i v2 hk
      exact absurd hk (h v2)
    · rfl

/-- With an alias-free arena, value_kind is the raw slot read. -/
theorem value_kind_eq_valueGet (f : Function) (h : valuesNoAlias f.values) (v : Value) :
    f.value_kind v = f.valueGet v :=
  resolveAlias_of_not_alias f _ v (valueGet_not_alias f h v)

/-- Well-formed functions have alias-free arenas. -/
theorem valuesNoAlias_of_wf (f : Function) (hwf : f.wf = true) : valuesNoAlias f.values := by
  intro k hk w
  unfold Function.wf at hwf
  have h1 := ((Bool.and_eq_true _ _).mp hwf).1
  have h2 := (List.all_eq_true.mp h1) k hk
  intro he
  subst he
  simp [ValueType.wfIn] at h2

theorem valuesNoAlias_append (l1 l2 : List ValueType) (h1 : valuesNoAlias l1)
    (h2 : valuesNoAlias l2) : valuesNoAlias (l1 ++ l2) := by
  intro k hk w
  rcases List.mem_append.mp hk with h | h
  · exact h1 k h w
  · exact h2 k h w

theorem valuesNoAlias_replicate_arg (n : Nat) (b : Block) :
    valuesNoAlias (List.replicate n (ValueType.arg b)) := by
  intro k hk w
  rw [List.eq_of_mem_replicate hk]
  intro he
  exact ValueType.noConfusion he

/-- The values of the function after pre-allocating n entry arguments:
a replicate of arg kinds appended to the original arena. -/
theorem insertArgsN_values (n : Nat) (b : Block) (f : Function) :
    (insertArgsN n b f).values = f.values ++ List.replicate n (ValueType.arg b) := by
  induction n generalizing f with
  | zero => simp [insertArgsN]
  | succ n ih =>
    rw [insertArgsN, ih, block_arg_insert_values, List.append_assoc, List.replicate_succ]
    rfl

theorem insertArgsN_blocks_length (n : Nat) (b : Block) (f : Function) :
    (insertArgsN n b f).blocks.length = f.blocks.length := by
  induction n generalizing f with
  | zero => rfl
  | succ n ih =>
    rw [insertArgsN, ih, block_arg_insert_blocks, listModify_length]

theorem insertArgsN_blockData_ne (n : Nat) (b : Block) (f : Function) (i : Block) (h : i ≠ b) :
    (insertArgsN n b f).blockData i = f.blockData i := by
  induction n generalizing f with
  | zero => rfl
  | succ n ih =>
    rw [insertArgsN, ih]
    unfold Function.blockData
    rw [block_arg_insert_blocks]
    exact listModify_getD_ne _ _ _ _ _ (fun hh => h hh.symm)

theorem block_arg_insert_blockData_op (f : Function) (b i : Block) :
    (((f.block_arg_insert b).1.blockData i).op = (f.blockData i).op) ∧
    (((f.block_arg_insert b).1.blockData i).reads = (f.blockData i).reads) ∧
    (((f.block_arg_insert b).1.blockData i).span = (f.blockData i).span) := by
  unfold Function.blockData
  rw [block_arg_insert_blocks]
  by_cases hib : b = i
  · subst hib
    by_cases hlen : b < f.blocks.length
    · rw [listModify_getD_self _ _ _ _ hlen]
      exact ⟨rfl, rfl, rfl⟩
    · rw [listModify_getD_oob _ _ _ (Nat.le_of_not_lt hlen)]
      exact ⟨rfl, rfl, rfl⟩
  · rw [listModify_getD_ne _ _ _ _ _ hib]
    exact ⟨rfl, rfl, rfl⟩

theorem insertArgsN_blockData_op (n : Nat) (b : Block) (f : Function) (i : Block) :
    (((insertArgsN n b f).blockData i).op = (f.blockData i).op) ∧
    (((insertArgsN n b f).blockData i).reads = (f.blockData i).reads) ∧
    (((insertArgsN n b f).blockData i).span = (f.blockData i).span) := by
  induction n generalizing f with
  | zero => exact ⟨rfl, rfl, rfl⟩
  | succ n ih =>
    rw [insertArgsN]
    obtain ⟨h1, h2, h3⟩ := ih (f.block_arg_insert b).1
    obtain ⟨g1, g2, g3⟩ := block_arg_insert_blockData_op f b i
    exact ⟨h1.trans g1, h2.trans g2, h3.trans g3⟩

end Eir

theorem alistGet_mem_keys {α β : Type} [DecidableEq α] (l : List (α × β)) (k : α) (x : β)
    (h : alistGet l k = some x) : k ∈ l.map Prod.fst := by
  induction l with
  | nil => simp at h
  | cons p rest ih =>
    obtain ⟨k1, v1⟩ := p
    by_cases hk : k1 = k
    · subst hk
      exact List.mem_cons_self _ _
    · simp only [alistGet_cons, if_neg hk] at h
      exact List.mem_cons_of_mem _ (ih h)

namespace Eir

theorem value_block_of_valueGet_block (g : Function) (v : Value) (b : Block)
    (h : g.valueGet v = ValueType.block b) : g.value_block v = some b := by
  unfold Function.value_block Function.value_kind
  rw [resolveAlias_of_not_alias g _ v (fun w => by rw [h]; intro he; exact ValueType.noConfusion he)]
  rw [h]

/-- Normalization aborts when the snapshot contains a value-keyed
rename of block kind whose destination disagrees with an existing
block-keyed rename of the same block. -/
theorem normalizeGo_conflict (f : Function) (v : Value) (b : Block) (d d' : RenameDest)
    (hne : d ≠ d') (keys : List RenameSource) :
    ∀ m : RenameMap,
      RenameSource.value v ∈ keys →
      alistGet m (RenameSource.value v) = some d →
      alistGet m (RenameSource.block b) = some d' →
      f.value_block v = some b →
      normalizeGo f keys m = none := by
  induction keys with
  | nil =>
    intro m hk
    simp at hk
  | cons k rest ih =>
    intro m hk hv hb hvb
    cases k with
    | block bb =>
      have hkrest : RenameSource.value v ∈ rest := by
        rcases List.mem_cons.mp hk with h | h
        · exact absurd h (fun hh => RenameSource.noConfusion hh)
        · exact h
      simp only [normalizeGo]
      cases hgk : alistGet m (RenameSource.block bb) with
      | none => rfl
      | some dest => exact ih m hkrest hv hb hvb
    | value val =>
      by_cases hkv : val = v
      · subst hkv
        simp only [normalizeGo, hv, hvb, hb]
        rw [if_neg (fun hh : d' = d => hne hh.symm)]
      · have hkrest : RenameSource.value v ∈ rest := by
          rcases List.mem_cons.mp hk with h | h
          · injection h with h2
            exact absurd h2.symm hkv
          · exact h
        have hvalne : (RenameSource.value val : RenameSource) ≠ RenameSource.value v := by
          intro hh
          injection hh with h2
          exact hkv h2
        simp only [normalizeGo]
        cases hgk : alistGet m (RenameSource.value val) with
        | none => rfl
        | some dest =>
          cases hvb2 : f.value_block val with
          | none => exact ih m hkrest hv hb hvb
          | some blk =>
            show (match alistGet m (RenameSource.block blk) with
              | some existing =>
                if existing = dest then
                  normalizeGo f rest
                    (alistErase (alistInsert m (RenameSource.block blk) dest)
                      (RenameSource.value val))
                else none
              | none =>
                normalizeGo f rest
                  (alistErase (alistInsert m (RenameSource.block blk) dest)
                    (RenameSource.value val))) = none
            have hv2 : alistGet (alistErase
                (alistInsert m (RenameSource.block blk) dest) (RenameSource.value val))
                (RenameSource.value v) = some d := by
              rw [alistGet_erase, if_neg hvalne, alistGet_insert_ne]
              · exact hv
              · intro hh
                exact RenameSource.noConfusion hh
            cases hblk : alistGet m (RenameSource.block blk) with
            | none =>
              have hbne : blk ≠ b := by
                intro hh
                rw [hh, hb] at hblk
                exact Option.noConfusion hblk
              have hb2 : alistGet (alistErase
                  (alistInsert m (RenameSource.block blk) dest) (RenameSource.value val))
                  (RenameSource.block b) = some d' := by
                rw [alistGet_erase, if_neg (fun hh => RenameSource.noConfusion hh),
                  alistGet_insert_ne]
                · exact hb
                · intro hh
                  injection hh with hh2
                  exact hbne hh2
              exact ih _ hkrest hv2 hb2 hvb
            | some existing =>
              show (if existing = dest then
                  normalizeGo f rest
                    (alistErase (alistInsert m (RenameSource.block blk) dest)
                      (RenameSource.value val))
                else none) = none
              by_cases he : existing = dest
              · rw [if_pos he]
                subst he
                have hb2 : alistGet (alistErase
                    (alistInsert m (RenameSource.block blk) existing) (RenameSource.value val))
                    (RenameSource.block b) = some d' := by
                  rw [alistGet_erase, if_neg (fun hh => RenameSource.noConfusion hh)]
                  by_cases hbb : blk = b
                  · subst hbb
                    rw [alistGet_insert_self]
                    rw [hblk] at hb
                    injection hb with hb3
                    rw [hb3]
                  · rw [alistGet_insert_ne]
                    · exact hb
                    · intro hh
                      injection hh with hh2
                      exact hbb hh2
                exact ih _ hkrest hv2 hb2 hvb
              · rw [if_neg he]

end Eir

namespace Eir

theorem valueGet_insertArgs_entry (f : Function) (n : Nat) (v : Value) (b : Block)
    (h : f.valueGet v = ValueType.block b) :
    (insertArgsN n (f.block_insert).2 (f.block_insert).1).valueGet v = ValueType.block b := by
  have hlt : v < f.values.length := by
    by_contra hge
    unfold Function.valueGet at h
    rw [List.getD_eq_default _ _ (Nat.le_of_not_lt hge)] at h
    exact ValueType.noConfusion h
  unfold Function.valueGet
  rw [insertArgsN_values, block_insert_values, List.getD_append _ _ _ _ hlt]
  exact h

theorem normalizeSources_conflict (g : Function) (m : RenameMap) (v : Value) (b : Block)
    (d d' : RenameDest) (hne : d ≠ d')
    (hv : alistGet m (RenameSource.value v) = some d)
    (hb : alistGet m (RenameSource.block b) = some d')
    (hvb : g.value_block v = some b) : normalizeSources g m = none :=
  normalizeGo_conflict g v b d d' hne (m.map Prod.fst) m
    (alistGet_mem_keys m _ d hv) hv hb hvb

/-- Concrete one-block function whose value 0 is a block reference,
used to exercise the normalization conflict. -/
def conflictFun : Function :=
  ⟨⟨⟨0, 0⟩, ⟨0, 0⟩, 0⟩, 0, [emptyBlockData], [ValueType.block 0], some 0⟩

/-- Concrete mangler carrying the conflicting renames value 0 to value
5 and block 0 to value 6, where value 0 is of kind block 0. -/
def conflictMangler : Mangler :=
  ⟨some 0, 0, [(RenameSource.value 0, RenameDest.value 5),
    (RenameSource.block 0, RenameDest.value 6)]⟩

end Eir

/-- C4: during source normalization, a value-keyed rename whose source
value is of block kind is re-keyed to a block-keyed rename; when a
block-keyed rename for the same block is already present with a
different destination, the mangler aborts, and when the present
destination is equal, normalization succeeds. -/
theorem mangler_normalize_conflict (f : Eir.Function) (mg : Eir.Mangler) (e : Eir.Block)
    (fuel : Nat) (v : Eir.Value) (b : Eir.Block) (d d' : Eir.RenameDest)
    (hentry : mg.entry = some e)
    (hvb : f.valueGet v = Eir.ValueType.block b)
    (hv : alistGet mg.map (Eir.RenameSource.value v) = some d)
    (hb : alistGet mg.map (Eir.RenameSource.block b) = some d') :
    (d ≠ d' → mg.runInner Eir.MangleMode.single fuel f = none) ∧
    (∀ dd : Eir.RenameDest,
      (Eir.normalizeSources f [(Eir.RenameSource.value v, dd),
        (Eir.RenameSource.block b, dd)]).isSome = true) := by
  constructor
  · intro hne
    unfold Eir.Mangler.runInner
    rw [hentry]
    simp only [Option.some_bind, Eir.modeFrom]
    rw [Eir.normalizeSources_conflict _ mg.map v b d d' hne hv hb
      (Eir.value_block_of_valueGet_block _ v b (Eir.valueGet_insertArgs_entry f mg.num_args v b hvb))]
    rfl
  · intro dd
    have hvb2 : f.value_block v = some b :=
      Eir.value_block_of_valueGet_block f v b hvb
    simp [Eir.normalizeSources, Eir.normalizeGo, hvb2, alistInsert, alistErase]

/-- Witness for C4 at a concrete function and mangler: the conflicting
map aborts the run, and the agreeing two-entry map normalizes. -/
theorem mangler_normalize_conflict_witness :
    Eir.conflictMangler.runInner Eir.MangleMode.single 10 Eir.conflictFun = none ∧
    (Eir.normalizeSources Eir.conflictFun
      [(Eir.RenameSource.value 0, Eir.RenameDest.value 7),
       (Eir.RenameSource.block 0, Eir.RenameDest.value 7)]).isSome = true :=
  ⟨(mangler_normalize_conflict Eir.conflictFun Eir.conflictMangler 0 10 0 0
      (Eir.RenameDest.value 5) (Eir.RenameDest.value 6) rfl rfl (by decide) (by decide)).1
      (by decide),
   (mangler_normalize_conflict Eir.conflictFun Eir.conflictMangler 0 10 0 0
      (Eir.RenameDest.value 5) (Eir.RenameDest.value 6) rfl rfl (by decide) (by decide)).2
      (Eir.RenameDest.value 7)⟩

namespace Eir

/-- Declarative scope: blocks reachable from a start set along paths
that avoid blocks named as rename sources (frontier semantics). -/
inductive ReachAvoid (f : Function) (m : RenameMap) (starts : List Block) : Block → Prop
  | base (b : Block) : b ∈ starts → alistGet m (RenameSource.block b) = none →
      ReachAvoid f m starts b
  | step (a b : Block) : ReachAvoid f m starts a → b ∈ f.successors a →
      alistGet m (RenameSource.block b) = none → ReachAvoid f m starts b

theorem ReachAvoid_not_renamed (f : Function) (m : RenameMap) (starts : List Block)
    (b : Block) (h : ReachAvoid f m starts b) :
    alistGet m (RenameSource.block b) = none := by
  cases h with
  | base b h1 h2 => exact h2
  | step a b h1 h2 h3 => exact h3

theorem walkAux_sound (f : Function) (m : RenameMap) (starts : List Block) :
    ∀ (fuel : Nat) (wl scope scopeF : List Block),
      walkAux f m fuel wl scope = some scopeF →
      (∀ b ∈ wl, b ∈ starts ∨ ∃ a, ReachAvoid f m starts a ∧ b ∈ f.successors a) →
      (∀ b ∈ scope, ReachAvoid f m starts b) →
      (∀ b ∈ scopeF, ReachAvoid f m starts b) := by
  intro fuel
  induction fuel with
  | zero =>
    intro wl scope scopeF hrun hwl hscope
    cases wl with
    | nil =>
      simp only [walkAux] at hrun
      injection hrun with h
      subst h
      exact hscope
    | cons b rest => exact absurd hrun (by simp [walkAux])
  | succ n ih =>
    intro wl scope scopeF hrun hwl hscope
    cases wl with
    | nil =>
      simp only [walkAux] at hrun
      injection hrun with h
      subst h
      exact hscope
    | cons b rest =>
      rw [walkAux] at hrun
      by_cases hmem : b ∈ scope
      · rw [if_pos hmem] at hrun
        exact ih rest scope scopeF hrun (fun x hx => hwl x (List.mem_cons_of_mem _ hx)) hscope
      · rw [if_neg hmem] at hrun
        by_cases hren : (alistGet m (RenameSource.block b)).isSome = true
        · rw [if_pos hren] at hrun
          exact ih rest scope scopeF hrun (fun x hx => hwl x (List.mem_cons_of_mem _ hx)) hscope
        · rw [if_neg hren] at hrun
          have hnone : alistGet m (RenameSource.block b) = none :=
            Option.not_isSome_iff_eq_none.mp hren
          have hreach : ReachAvoid f m starts b := by
            rcases hwl b (List.mem_cons_self _ _) with h | ⟨a, ha, hsucc⟩
            · exact ReachAvoid.base b h hnone
            · exact ReachAvoid.step a b ha hsucc hnone
          apply ih _ _ _ hrun
          · intro x hx
            rcases List.mem_append.mp hx with h | h
            · exact Or.inr ⟨b, hreach, h⟩
            · exact hwl x (List.mem_cons_of_mem _ h)
          · intro x hx
            rcases List.mem_cons.mp hx with h | h
            · exact h ▸ hreach
            · exact hscope x h

theorem walkAux_spec (f : Function) (m : RenameMap) :
    ∀ (fuel : Nat) (wl scope scopeF : List Block),
      walkAux f m fuel wl scope = some scopeF →
      ((∀ b ∈ scope, b ∈ scopeF) ∧
       (∀ b ∈ wl, alistGet m (RenameSource.block b) = none → b ∈ scopeF) ∧
       (∀ a ∈ scopeF, a ∈ scope ∨
          ∀ s ∈ f.successors a, alistGet m (RenameSource.block s) = none → s ∈ scopeF)) := by
  intro fuel
  induction fuel with
  | zero =>
    intro wl scope scopeF hrun
    cases wl with
    | nil =>
      simp only [walkAux] at hrun
      injection hrun with h
      subst h
      exact ⟨fun b hb => hb, fun b hb => absurd hb (by simp), fun a ha => Or.inl ha⟩
    | cons b rest => exact absurd hrun (by simp [walkAux])
  | succ n ih =>
    intro wl scope scopeF hrun
    cases wl with
    | nil =>
      simp only [walkAux] at hrun
      injection hrun with h
      subst h
      exact ⟨fun b hb => hb, fun b hb => absurd hb (by simp), fun a ha => Or.inl ha⟩
    | cons b rest =>
      rw [walkAux] at hrun
      by_cases hmem : b ∈ scope
      · rw [if_pos hmem] at hrun
        obtain ⟨h1, h2, h3⟩ := ih rest scope scopeF hrun
        refine ⟨h1, ?_, h3⟩
        intro x hx hnone
        rcases List.mem_cons.mp hx with h | h
        · exact h1 x (h ▸ hmem)
        · exact h2 x h hnone
      · rw [if_neg hmem] at hrun
        by_cases hren : (alistGet m (RenameSource.block b)).isSome = true
        · rw [if_pos hren] at hrun
          obtain ⟨h1, h2, h3⟩ := ih rest scope scopeF hrun
          refine ⟨h1, ?_, h3⟩
          intro x hx hnone
          rcases List.mem_cons.mp hx with h | h
          · subst h
            rw [hnone] at hren
            exact absurd hren (by simp)
          · exact h2 x h hnone
        · rw [if_neg hren] at hrun
          obtain ⟨h1, h2, h3⟩ := ih _ _ _ hrun
          refine ⟨?_, ?_, ?_⟩
          · intro x hx
            exact h1 x (List.mem_cons_of_mem _ hx)
          · intro x hx hnone
            rcases List.mem_cons.mp hx with h | h
            · exact h ▸ h1 b (List.mem_cons_self _ _)
            · exact h2 x (List.mem_append.mpr (Or.inr h)) hnone
          · intro a ha
            rcases h3 a ha with h | h
            · rcases List.mem_cons.mp h with hab | hsc
              · subst hab
                refine Or.inr ?_
                intro s hs hnone
                exact h2 s (List.mem_append.mpr (Or.inl hs)) hnone
              · exact Or.inl hsc
            · exact Or.inr h

theorem walkAux_nodup (f : Function) (m : RenameMap) :
    ∀ (fuel : Nat) (wl scope scopeF : List Block),
      walkAux f m fuel wl scope = some scopeF → scope.Nodup → scopeF.Nodup := by
  intro fuel
  induction fuel with
  | zero =>
    intro wl scope scopeF hrun hnd
    cases wl with
    | nil =>
      simp only [walkAux] at hrun
      injection hrun with h
      exact h ▸ hnd
    | cons b rest => exact absurd hrun (by simp [walkAux])
  | succ n ih =>
    intro wl scope scopeF hrun hnd
    cases wl with
    | nil =>
      simp only [walkAux] at hrun
      injection hrun with h
      exact h ▸ hnd
    | cons b rest =>
      rw [walkAux] at hrun
      by_cases hmem : b ∈ scope
      · rw [if_pos hmem] at hrun
        exact ih rest scope scopeF hrun hnd
      · rw [if_neg hmem] at hrun
        by_cases hren : (alistGet m (RenameSource.block b)).isSome = true
        · rw [if_pos hren] at hrun
          exact ih rest scope scopeF hrun hnd
        · rw [if_neg hren] at hrun
          exact ih _ _ _ hrun (List.nodup_cons.mpr ⟨hmem, hnd⟩)

/-- The computed scope is exactly the set of blocks reachable from the
entry along paths avoiding renamed blocks. -/
theorem walkAux_scope_iff (f : Function) (m : RenameMap) (e : Block) (fuel : Nat)
    (scopeF : List Block) (hrun : walkAux f m fuel [e] [] = some scopeF) (b : Block) :
    b ∈ scopeF ↔ ReachAvoid f m [e] b := by
  constructor
  · intro hb
    apply walkAux_sound f m [e] fuel [e] [] scopeF hrun
    · intro x hx
      exact Or.inl hx
    · intro x hx
      exact absurd hx (by simp)
    · exact hb
  · intro hreach
    obtain ⟨h1, h2, h3⟩ := walkAux_spec f m fuel [e] [] scopeF hrun
    induction hreach with
    | base x hx hnone => exact h2 x (by simpa using hx) hnone
    | step a x ha hsucc hnone ih2 =>
      rcases h3 a ih2 with h | h
      · exact absurd h (by simp)
      · exact h x hsucc hnone

end Eir

namespace Eir

theorem block_reads_insertArgs_entry (f : Function) (n : Nat) (i : Block) :
    (insertArgsN n (f.block_insert).2 (f.block_insert).1).block_reads i = f.block_reads i := by
  have h := (insertArgsN_blockData_op n (f.block_insert).2 (f.block_insert).1 i).2.1
  unfold Function.block_reads
  rw [h]
  unfold Function.blockData
  rw [block_insert_blocks]
  by_cases hlt : i < f.blocks.length
  · rw [List.getD_append _ _ _ _ hlt]
  · rw [List.getD_eq_default f.blocks _ (Nat.le_of_not_lt hlt)]
    rw [List.getD_append_right _ _ _ _ (Nat.le_of_not_lt hlt)]
    cases hz : i - f.blocks.length with
    | zero => rfl
    | succ k => rfl

theorem block_kind_insertArgs_entry (f : Function) (n : Nat) (i : Block)
    (hlt : i < f.blocks.length) :
    (insertArgsN n (f.block_insert).2 (f.block_insert).1).block_kind i = f.block_kind i := by
  have h := (insertArgsN_blockData_op n (f.block_insert).2 (f.block_insert).1 i).1
  unfold Function.block_kind
  rw [h]
  unfold Function.blockData
  rw [block_insert_blocks, List.getD_append _ _ _ _ hlt]

theorem block_args_insertArgs_entry (f : Function) (n : Nat) (i : Block)
    (hne : i ≠ (f.block_insert).2) (hlt : i < f.blocks.length) :
    (insertArgsN n (f.block_insert).2 (f.block_insert).1).block_args i = f.block_args i := by
  unfold Function.block_args
  rw [insertArgsN_blockData_ne _ _ _ _ hne]
  unfold Function.blockData
  rw [block_insert_blocks, List.getD_append _ _ _ _ hlt]

theorem value_block_insertArgs_entry_eq (f : Function) (n : Nat) (hwf : f.wf = true)
    (v : Value) :
    (insertArgsN n (f.block_insert).2 (f.block_insert).1).value_block v = f.value_block v := by
  have hvals : (insertArgsN n (f.block_insert).2 (f.block_insert).1).values =
      f.values ++ List.replicate n (ValueType.arg (f.block_insert).2) := by
    rw [insertArgsN_values, block_insert_values]
  have hfnoal : valuesNoAlias f.values := valuesNoAlias_of_wf f hwf
  have htnoal : valuesNoAlias (insertArgsN n (f.block_insert).2 (f.block_insert).1).values := by
    rw [hvals]
    exact valuesNoAlias_append _ _ hfnoal (valuesNoAlias_replicate_arg _ _)
  unfold Function.value_block Function.value_kind
  rw [resolveAlias_of_not_alias _ _ v (valueGet_not_alias _ htnoal v),
    resolveAlias_of_not_alias _ _ v (valueGet_not_alias _ hfnoal v)]
  by_cases hlt : v < f.values.length
  · have : (insertArgsN n (f.block_insert).2 (f.block_insert).1).valueGet v = f.valueGet v := by
      unfold Function.valueGet
      rw [hvals, List.getD_append _ _ _ _ hlt]
    rw [this]
  · have hf : f.valueGet v = ValueType.const 0 := by
      unfold Function.valueGet
      rw [List.getD_eq_default _ _ (Nat.le_of_not_lt hlt)]
    have ht : (insertArgsN n (f.block_insert).2 (f.block_insert).1).valueGet v =
        (List.replicate n (ValueType.arg (f.block_insert).2)).getD (v - f.values.length)
          (ValueType.const 0) := by
      unfold Function.valueGet
      rw [hvals, List.getD_append_right _ _ _ _ (Nat.le_of_not_lt hlt)]
    rw [hf, ht]
    by_cases hrep : v - f.values.length < n
    · rw [List.getD_eq_getElem _ _ (by simpa using hrep)]
      simp
    · rw [List.getD_eq_default _ _ (by simpa using Nat.le_of_not_lt hrep)]

theorem successors_insertArgs_entry (f : Function) (n : Nat) (hwf : f.wf = true) (b : Block) :
    (insertArgsN n (f.block_insert).2 (f.block_insert).1).successors b = f.successors b := by
  unfold Function.successors
  rw [block_reads_insertArgs_entry]
  have : (insertArgsN n (f.block_insert).2 (f.block_insert).1).value_block = f.value_block :=
    funext (value_block_insertArgs_entry_eq f n hwf)
  rw [this]

theorem ReachAvoid_congr (f1 f2 : Function) (m : RenameMap) (starts : List Block)
    (hsucc : ∀ a, f1.successors a = f2.successors a) (b : Block)
    (h : ReachAvoid f1 m starts b) : ReachAvoid f2 m starts b := by
  induction h with
  | base x hx hnone => exact ReachAvoid.base x hx hnone
  | step a x ha hs hnone ih => exact ReachAvoid.step a x ih (hsucc a ▸ hs) hnone

end Eir

namespace Eir

theorem findValueIdx_getD (l : List ValueType) (k : ValueType) (i : Nat) (d : ValueType)
    (h : findValueIdx l k = some i) : l.getD i d = k := by
  induction l generalizing i with
  | nil => exact absurd h (by simp [findValueIdx])
  | cons a rest ih =>
    rw [findValueIdx] at h
    by_cases ha : a = k
    · rw [if_pos ha] at h
      injection h with h2
      subst h2
      simpa using ha
    · rw [if_neg ha] at h
      cases hr : findValueIdx rest k with
      | none => rw [hr] at h; exact absurd h (by simp)
      | some j =>
        rw [hr] at h
        injection h with h2
        subst h2
        simpa using ih j hr

/-- Extension relation over the copy phase: values are only appended
(and the appended values hold no alias), and the argument list of
every block is unchanged. -/
def StateExt (g g' : Function) : Prop :=
  (∃ l, g'.values = g.values ++ l ∧ valuesNoAlias l) ∧
  (∀ i, (g'.blockData i).arguments = (g.blockData i).arguments)

theorem StateExt.refl (g : Function) : StateExt g g :=
  ⟨⟨[], by simp, fun k hk => absurd hk (by simp)⟩, fun i => rfl⟩

theorem StateExt.trans {g1 g2 g3 : Function} (h1 : StateExt g1 g2) (h2 : StateExt g2 g3) :
    StateExt g1 g3 := by
  obtain ⟨⟨l1, hv1, hn1⟩, ha1⟩ := h1
  obtain ⟨⟨l2, hv2, hn2⟩, ha2⟩ := h2
  refine ⟨⟨l1 ++ l2, ?_, ?_⟩, fun i => (ha2 i).trans (ha1 i)⟩
  · rw [hv2, hv1, List.append_assoc]
  · exact valuesNoAlias_append l1 l2 hn1 hn2

theorem StateExt.values_le {g g' : Function} (h : StateExt g g') :
    g.values.length ≤ g'.values.length := by
  obtain ⟨⟨l, hv, _⟩, _⟩ := h
  rw [hv]
  simp

theorem StateExt.valueGet_eq {g g' : Function} (h : StateExt g g') (v : Value)
    (hv : v < g.values.length) : g'.valueGet v = g.valueGet v := by
  obtain ⟨⟨l, hl, _⟩, _⟩ := h
  unfold Function.valueGet
  rw [hl, List.getD_append _ _ _ _ hv]

theorem StateExt.noAlias {g g' : Function} (h : StateExt g g')
    (hg : valuesNoAlias g.values) : valuesNoAlias g'.values := by
  obtain ⟨⟨l, hl, hn⟩, _⟩ := h
  rw [hl]
  exact valuesNoAlias_append _ _ hg hn

theorem StateExt.value_kind_eq {g g' : Function} (h : StateExt g g')
    (hg : valuesNoAlias g.values) (v : Value) (hv : v < g.values.length) :
    g'.value_kind v = g.value_kind v := by
  unfold Function.value_kind
  rw [resolveAlias_of_not_alias _ _ v (valueGet_not_alias _ (h.noAlias hg) v),
    resolveAlias_of_not_alias _ _ v (valueGet_not_alias _ hg v)]
  exact h.valueGet_eq v hv

theorem value_kind_block_stable {g g' : Function} (h : StateExt g g')
    (hg : valuesNoAlias g.values) (w : Value) (nb : Block)
    (hk : g.value_kind w = ValueType.block nb) : g'.value_kind w = ValueType.block nb := by
  rw [value_kind_eq_valueGet g hg] at hk
  have hw : w < g.values.length := by
    by_contra hge
    unfold Function.valueGet at hk
    rw [List.getD_eq_default _ _ (Nat.le_of_not_lt hge)] at hk
    exact ValueType.noConfusion hk
  have : g'.valueGet w = ValueType.block nb := by
    rw [h.valueGet_eq w hw]
    exact hk
  unfold Function.value_kind
  rw [resolveAlias_of_not_alias _ _ w (fun u => by rw [this]; intro hh; exact ValueType.noConfusion hh)]
  exact this

/-- Specification of one mapped read with respect to the rename map,
the kind of the original read and the final destination function. -/
def destOk (g : Function) (ne : Block) (d : RenameDest) (w : Value) : Prop :=
  match d with
  | RenameDest.value v => w = v
  | RenameDest.entryArg i => (g.block_args ne)[i]? = some w
  | RenameDest.block nb => g.value_kind w = ValueType.block nb

def mappedReadOk (m : RenameMap) (g : Function) (ne : Block) (kind : ValueType)
    (orig w : Value) : Prop :=
  match kind with
  | ValueType.arg _ =>
    match alistGet m (RenameSource.value orig) with
    | some d => destOk g ne d w
    | none => w = orig
  | ValueType.const _ => w = orig
  | ValueType.block bsrc =>
    match alistGet m (RenameSource.block bsrc) with
    | some d => destOk g ne d w
    | none => False
  | ValueType.alias _ => False

theorem StateExt.block_args_eq {g g' : Function} (h : StateExt g g') (i : Block) :
    g'.block_args i = g.block_args i := h.2 i

theorem destOk_mono {g g' : Function} (ne : Block) (d : RenameDest) (w : Value)
    (hse : StateExt g g') (hg : valuesNoAlias g.values) (h : destOk g ne d w) :
    destOk g' ne d w := by
  cases d with
  | value v => exact h
  | entryArg i =>
    unfold destOk at h ⊢
    rw [hse.block_args_eq]
    exact h
  | block nb => exact value_kind_block_stable hse hg w nb h

theorem mappedReadOk_arg_eq (m : RenameMap) (g : Function) (ne : Block) (o : Block)
    (orig w : Value) :
    mappedReadOk m g ne (ValueType.arg o) orig w =
      (match alistGet m (RenameSource.value orig) with
        | some d => destOk g ne d w
        | none => w = orig) := rfl

theorem mappedReadOk_block_eq (m : RenameMap) (g : Function) (ne : Block) (bsrc : Block)
    (orig w : Value) :
    mappedReadOk m g ne (ValueType.block bsrc) orig w =
      (match alistGet m (RenameSource.block bsrc) with
        | some d => destOk g ne d w
        | none => False) := rfl

theorem mappedReadOk_mono {g g' : Function} (m : RenameMap) (ne : Block)
    (kind : ValueType) (orig w : Value) (hse : StateExt g g')
    (hg : valuesNoAlias g.values) (h : mappedReadOk m g ne kind orig w) :
    mappedReadOk m g' ne kind orig w := by
  rcases kind with o | c | bsrc | u
  · rw [mappedReadOk_arg_eq] at h ⊢
    cases hd : alistGet m (RenameSource.value orig) with
    | none => rw [hd] at h; exact h
    | some d => rw [hd] at h; exact destOk_mono ne d w hse hg h
  · exact h
  · rw [mappedReadOk_block_eq] at h ⊢
    cases hd : alistGet m (RenameSource.block bsrc) with
    | none => rw [hd] at h; exact (h : False).elim
    | some d => rw [hd] at h; exact destOk_mono ne d w hse hg h
  · exact (h : False).elim

theorem valueOfBlock_spec (g : Function) (b : Block) :
    StateExt g (g.valueOfBlock b).1 ∧
    (g.valueOfBlock b).1.valueGet (g.valueOfBlock b).2 = ValueType.block b ∧
    (g.valueOfBlock b).1.blocks = g.blocks := by
  unfold Function.valueOfBlock
  cases hf : findValueIdx g.values (ValueType.block b) with
  | some v =>
    refine ⟨StateExt.refl g, ?_, rfl⟩
    exact findValueIdx_getD g.values _ v _ hf
  | none =>
    refine ⟨⟨⟨[ValueType.block b], rfl, ?_⟩, fun i => rfl⟩, ?_, rfl⟩
    · intro k hk w
      rw [List.mem_singleton.mp hk]
      intro hh
      exact ValueType.noConfusion hh
    · show (g.values ++ [ValueType.block b]).getD g.values.length (ValueType.const 0) =
        ValueType.block b
      rw [List.getD_append_right _ _ _ _ (Nat.le_refl _)]
      simp

end Eir

namespace Eir

theorem somePairEq {α β : Type} {a c : α} {b d : β} (h : some (a, b) = some (c, d)) :
    a = c ∧ b = d := by
  injection h with h2
  exact ⟨congrArg Prod.fst h2, congrArg Prod.snd h2⟩

theorem destToValue_value_eq (g : Function) (ne : Block) (v : Value) :
    destToValue g ne (RenameDest.value v) = some (g, v) := rfl

theorem destToValue_entryArg_eq (g : Function) (ne : Block) (i : EntryArg) :
    destToValue g ne (RenameDest.entryArg i) =
      (match (g.block_args ne)[i]? with
        | some v => some (g, v)
        | none => none) := rfl

theorem destToValue_block_eq (g : Function) (ne : Block) (nb : Block) :
    destToValue g ne (RenameDest.block nb) = some (g.valueOfBlock nb) := rfl

theorem destToValue_spec (g : Function) (ne : Block) (d : RenameDest) (g1 : Function)
    (w : Value) (h : destToValue g ne d = some (g1, w)) :
    StateExt g g1 ∧ g1.blocks = g.blocks ∧ destOk g1 ne d w := by
  cases d with
  | value v =>
    rw [destToValue_value_eq] at h
    obtain ⟨hg1, hw⟩ := somePairEq h
    subst hg1
    subst hw
    exact ⟨StateExt.refl _, rfl, rfl⟩
  | entryArg i =>
    rw [destToValue_entryArg_eq] at h
    cases ha : (g.block_args ne)[i]? with
    | none => rw [ha] at h; exact absurd h (by simp)
    | some v =>
      rw [ha] at h
      obtain ⟨hg1, hw⟩ := somePairEq h
      subst hg1
      subst hw
      exact ⟨StateExt.refl _, rfl, ha⟩
  | block nb =>
    rw [destToValue_block_eq] at h
    injection h with h2
    have hg1 : (g.valueOfBlock nb).1 = g1 := congrArg Prod.fst h2
    have hw : (g.valueOfBlock nb).2 = w := congrArg Prod.snd h2
    subst hg1
    subst hw
    obtain ⟨hse, hget, hblocks⟩ := valueOfBlock_spec g nb
    refine ⟨hse, hblocks, ?_⟩
    show (g.valueOfBlock nb).1.value_kind (g.valueOfBlock nb).2 = ValueType.block nb
    unfold Function.value_kind
    rw [resolveAlias_of_not_alias _ _ _
      (fun u => by rw [hget]; intro hh; exact ValueType.noConfusion hh)]
    exact hget

theorem mapValue_single_spec (m : RenameMap) (ne : Block) (g : Function) (v : Value)
    (g1 : Function) (w : Value)
    (h : mapValue MangleMode.single m ne g v = some (g1, w)) :
    StateExt g g1 ∧ g1.blocks = g.blocks ∧ mappedReadOk m g1 ne (g.value_kind v) v w := by
  unfold mapValue at h
  simp only [modeFrom] at h
  rcases hk : g.value_kind v with o | c | bsrc | u
  · simp only [hk] at h
    rw [mappedReadOk_arg_eq]
    cases hd : alistGet m (RenameSource.value v) with
    | none =>
      rw [hd] at h
      simp only [modeMapFree] at h
      obtain ⟨hg1, hw⟩ := somePairEq h
      subst hg1
      subst hw
      exact ⟨StateExt.refl _, rfl, rfl⟩
    | some d =>
      rw [hd] at h
      exact destToValue_spec g ne d g1 w h
  · simp only [hk, modeMapConst] at h
    obtain ⟨hg1, hw⟩ := somePairEq h
    subst hg1
    subst hw
    exact ⟨StateExt.refl _, rfl, rfl⟩
  · simp only [hk] at h
    rw [mappedReadOk_block_eq]
    cases hd : alistGet m (RenameSource.block bsrc) with
    | none =>
      rw [hd] at h
      exact absurd h (by simp)
    | some d =>
      rw [hd] at h
      exact destToValue_spec g ne d g1 w h
  · simp only [hk] at h
    exact absurd h (by simp)

theorem mapReads_single_spec (m : RenameMap) (ne : Block) :
    ∀ (reads : List Value) (g g1 : Function) (ws : List Value),
      mapReads MangleMode.single m ne reads g = some (g1, ws) →
      valuesNoAlias g.values →
      (∀ r ∈ reads, r < g.values.length) →
      StateExt g g1 ∧ g1.blocks = g.blocks ∧ ws.length = reads.length ∧
      (∀ (j : Nat) (hj : j < reads.length) (hj2 : j < ws.length),
        mappedReadOk m g1 ne (g.value_kind (reads.get ⟨j, hj⟩)) (reads.get ⟨j, hj⟩)
          (ws.get ⟨j, hj2⟩)) := by
  intro reads
  induction reads with
  | nil =>
    intro g g1 ws h hnoal hrange
    unfold mapReads at h
    obtain ⟨hg1, hw⟩ := somePairEq h
    subst hg1
    subst hw
    exact ⟨StateExt.refl _, rfl, rfl, fun j hj => absurd hj (by simp)⟩
  | cons r rest ih =>
    intro g g1 ws h hnoal hrange
    unfold mapReads at h
    cases hmv : mapValue MangleMode.single m ne g r with
    | none => rw [hmv] at h; exact absurd h (by simp)
    | some p =>
      simp only [hmv] at h
      cases hmr : mapReads MangleMode.single m ne rest p.1 with
      | none => rw [hmr] at h; exact absurd h (by simp)
      | some q =>
        rw [hmr] at h
        obtain ⟨hg1, hw⟩ := somePairEq h
        subst hg1
        subst hw
        obtain ⟨hse1, hb1, hok1⟩ := mapValue_single_spec m ne g r p.1 p.2 hmv
        have hnoal1 : valuesNoAlias p.1.values := hse1.noAlias hnoal
        have hrange1 : ∀ x ∈ rest, x < p.1.values.length := fun x hx =>
          Nat.lt_of_lt_of_le (hrange x (List.mem_cons_of_mem _ hx)) hse1.values_le
        obtain ⟨hse2, hb2, hlen2, hok2⟩ := ih p.1 q.1 q.2 hmr hnoal1 hrange1
        refine ⟨hse1.trans hse2, hb2.trans hb1, by simpa using hlen2, ?_⟩
        intro j hj hj2
        cases j with
        | zero =>
          exact mappedReadOk_mono m ne _ r p.2 hse2 hnoal1 hok1
        | succ j =>
          have hjr : j < rest.length := by simpa using hj
          have hjw : j < q.2.length := by simpa using hj2
          have hfin := hok2 j hjr hjw
          rw [hse1.value_kind_eq hnoal (rest.get ⟨j, hjr⟩)
            (hrange _ (List.mem_cons_of_mem _ (rest.get_mem _ _)))] at hfin
          exact hfin

end Eir

namespace Eir

theorem setBlockBody_values (g : Function) (b : Block) (op : OpKind) (span : Nat)
    (reads : List Value) : (g.setBlockBody b op span reads).values = g.values := rfl

theorem setBlockBody_blocks_length (g : Function) (b : Block) (op : OpKind) (span : Nat)
    (reads : List Value) : (g.setBlockBody b op span reads).blocks.length = g.blocks.length := by
  unfold Function.setBlockBody
  exact listModify_length _ _ _

theorem setBlockBody_blockData_ne (g : Function) (b : Block) (op : OpKind) (span : Nat)
    (reads : List Value) (i : Block) (hne : b ≠ i) :
    (g.setBlockBody b op span reads).blockData i = g.blockData i := by
  unfold Function.setBlockBody Function.blockData
  exact listModify_getD_ne _ _ _ _ _ hne

theorem setBlockBody_blockData_self (g : Function) (b : Block) (op : OpKind) (span : Nat)
    (reads : List Value) (h : b < g.blocks.length) :
    ((g.setBlockBody b op span reads).blockData b).op = some op ∧
    ((g.setBlockBody b op span reads).blockData b).span = span ∧
    ((g.setBlockBody b op span reads).blockData b).reads = (g.blockData b).reads ++ reads ∧
    ((g.setBlockBody b op span reads).blockData b).arguments = (g.blockData b).arguments := by
  unfold Function.setBlockBody Function.blockData
  rw [listModify_getD_self _ _ _ _ h]
  exact ⟨rfl, rfl, rfl, rfl⟩

theorem setBlockBody_stateExt (g : Function) (b : Block) (op : OpKind) (span : Nat)
    (reads : List Value) : StateExt g (g.setBlockBody b op span reads) := by
  refine ⟨⟨[], by simp [setBlockBody_values], fun k hk => absurd hk (by simp)⟩, ?_⟩
  intro i
  by_cases hib : b = i
  · subst hib
    by_cases hlt : b < g.blocks.length
    · exact (setBlockBody_blockData_self g b op span reads hlt).2.2.2
    · unfold Function.setBlockBody Function.blockData
      rw [listModify_getD_oob _ _ _ (Nat.le_of_not_lt hlt)]
  · rw [setBlockBody_blockData_ne g b op span reads i hib]

theorem copyBody_single_spec (m : RenameMap) (ne src dstB : Block) (g g' : Function)
    (h : copyBody MangleMode.single m ne src dstB g = some g')
    (hnoal : valuesNoAlias g.values)
    (hreads : ∀ r ∈ g.block_reads src, r < g.values.length)
    (hdlt : dstB < g.blocks.length)
    (hdempty : (g.blockData dstB).reads = []) :
    StateExt g g' ∧ g'.blocks.length = g.blocks.length ∧
    (∀ i, i ≠ dstB → g'.blockData i = g.blockData i) ∧
    (g.block_kind src).isSome = true ∧
    g'.block_kind dstB = g.block_kind src ∧
    (g'.block_reads dstB).length = (g.block_reads src).length ∧
    (∀ (j : Nat) (hj : j < (g.block_reads src).length)
        (hj2 : j < (g'.block_reads dstB).length),
      mappedReadOk m g' ne (g.value_kind ((g.block_reads src).get ⟨j, hj⟩))
        ((g.block_reads src).get ⟨j, hj⟩) ((g'.block_reads dstB).get ⟨j, hj2⟩)) := by
  unfold copyBody at h
  simp only [modeFrom, modeMapBlockOp] at h
  cases hop : g.block_kind src with
  | none => rw [hop] at h; exact absurd h (by simp)
  | some op =>
    simp only [hop] at h
    cases hmr : mapReads MangleMode.single m ne (g.block_reads src) g with
    | none => rw [hmr] at h; exact absurd h (by simp)
    | some p =>
      rw [hmr] at h
      injection h with h2
      obtain ⟨hse1, hb1, hlen1, hok1⟩ :=
        mapReads_single_spec m ne (g.block_reads src) g p.1 p.2 hmr hnoal hreads
      have hdlt1 : dstB < p.1.blocks.length := by rw [hb1]; exact hdlt
      have hbd1 : p.1.blockData dstB = g.blockData dstB := by
        unfold Function.blockData
        rw [hb1]
      have hsete := setBlockBody_stateExt p.1 dstB op (g.block_span src) p.2
      obtain ⟨hsop, hsspan, hsreads, hsargs⟩ :=
        setBlockBody_blockData_self p.1 dstB op (g.block_span src) p.2 hdlt1
      have hread_eq : (p.1.setBlockBody dstB op (g.block_span src) p.2).block_reads dstB
          = p.2 := by
        unfold Function.block_reads
        rw [hsreads, hbd1, hdempty]
        exact List.nil_append p.2
      subst h2
      refine ⟨hse1.trans hsete, ?_, ?_, rfl, ?_, ?_, ?_⟩
      · rw [setBlockBody_blocks_length, hb1]
      · intro i hi
        rw [setBlockBody_blockData_ne _ _ _ _ _ i (fun hh => hi hh.symm)]
        unfold Function.blockData
        rw [hb1]
      · show (Function.blockData _ dstB).op = some op
        exact hsop
      · rw [hread_eq, hop] at *
        simpa using hlen1
      · intro j hj hj2
        have hj2p : j < p.2.length := by
          rw [hread_eq] at hj2
          exact hj2
        have hok := hok1 j hj hj2p
        have hget : ((p.1.setBlockBody dstB op (g.block_span src) p.2).block_reads
            dstB).get ⟨j, hj2⟩ = p.2.get ⟨j, hj2p⟩ :=
          List.get_of_eq hread_eq _
        rw [hget]
        exact mappedReadOk_mono m ne _ _ _ hsete (hse1.noAlias hnoal) hok

end Eir

namespace Eir

theorem copyScopeBlocks_single_spec (m : RenameMap) (ne : Block) (bound : Nat) :
    ∀ (scopeL : List Block) (g g' : Function),
      copyScopeBlocks MangleMode.single m ne scopeL g = some g' →
      valuesNoAlias g.values →
      scopeL.Nodup →
      (∀ b ∈ scopeL, b < bound) →
      (∀ b ∈ scopeL, ∀ r ∈ g.block_reads b, r < g.values.length) →
      (∀ b ∈ scopeL, ∃ nb, alistGet m (RenameSource.block b) = some (RenameDest.block nb) ∧
        bound ≤ nb ∧ nb < g.blocks.length ∧ (g.blockData nb).reads = []) →
      (∀ b1 ∈ scopeL, ∀ b2 ∈ scopeL, ∀ nb : Block,
        alistGet m (RenameSource.block b1) = some (RenameDest.block nb) →
        alistGet m (RenameSource.block b2) = some (RenameDest.block nb) → b1 = b2) →
      (StateExt g g' ∧ g'.blocks.length = g.blocks.length ∧
       (∀ i, (∀ b ∈ scopeL, ∀ nb : Block,
          alistGet m (RenameSource.block b) = some (RenameDest.block nb) → i ≠ nb) →
          g'.blockData i = g.blockData i) ∧
       (∀ b ∈ scopeL, ∀ nb : Block,
          alistGet m (RenameSource.block b) = some (RenameDest.block nb) →
          (g.block_kind b).isSome = true ∧
          g'.block_kind nb = g.block_kind b ∧
          (g'.block_reads nb).length = (g.block_reads b).length ∧
          (∀ (j : Nat) (hj : j < (g.block_reads b).length)
              (hj2 : j < (g'.block_reads nb).length),
            mappedReadOk m g' ne (g.value_kind ((g.block_reads b).get ⟨j, hj⟩))
              ((g.block_reads b).get ⟨j, hj⟩) ((g'.block_reads nb).get ⟨j, hj2⟩)))) := by
  intro scopeL
  induction scopeL with
  | nil =>
    intro g g' h hnoal hnd hsrc hreads hdst hinj
    unfold copyScopeBlocks at h
    injection h with h2
    subst h2
    exact ⟨StateExt.refl _, rfl, fun i _ => rfl, fun b hb => absurd hb (by simp)⟩
  | cons b rest ih =>
    intro g g' h hnoal hnd hsrc hreads hdst hinj
    obtain ⟨nb, hd, hnbge, hnblt, hnbempty⟩ := hdst b (List.mem_cons_self _ _)
    unfold copyScopeBlocks at h
    simp only [hd] at h
    cases hcb : copyBody MangleMode.single m ne b nb g with
    | none => rw [hcb] at h; exact absurd h (by simp)
    | some g1 =>
      rw [hcb] at h
      obtain ⟨hse1, hlen1, huntouch1, hops, hopeq, hrlen, hrok⟩ :=
        copyBody_single_spec m ne b nb g g1 hcb hnoal
          (hreads b (List.mem_cons_self _ _)) hnblt hnbempty
      have hbnodup := List.nodup_cons.mp hnd
      have hbne_nb : ∀ b2 ∈ rest, ∀ nb2 : Block,
          alistGet m (RenameSource.block b2) = some (RenameDest.block nb2) → nb2 ≠ nb := by
        intro b2 hb2 nb2 hd2 hh
        subst hh
        exact hbnodup.1 (hinj b2 (List.mem_cons_of_mem _ hb2) b (List.mem_cons_self _ _)
          nb2 hd2 hd ▸ hb2)
      have hsrc_ne_nb : ∀ b2 ∈ rest, b2 ≠ nb := by
        intro b2 hb2 hh
        subst hh
        exact absurd hnbge (Nat.not_le_of_lt (hsrc b2 (List.mem_cons_of_mem _ hb2)))
      have hreads1 : ∀ b2 ∈ rest, g1.block_reads b2 = g.block_reads b2 := by
        intro b2 hb2
        unfold Function.block_reads
        rw [huntouch1 b2 (hsrc_ne_nb b2 hb2)]
      have hkind1 : ∀ b2 ∈ rest, g1.block_kind b2 = g.block_kind b2 := by
        intro b2 hb2
        unfold Function.block_kind
        rw [huntouch1 b2 (hsrc_ne_nb b2 hb2)]
      obtain ⟨hse2, hlen2, huntouch2, hfacts2⟩ := ih g1 g' h (hse1.noAlias hnoal)
        hbnodup.2 (fun b2 hb2 => hsrc b2 (List.mem_cons_of_mem _ hb2))
        (by
          intro b2 hb2 r hr
          rw [hreads1 b2 hb2] at hr
          exact Nat.lt_of_lt_of_le
            (hreads b2 (List.mem_cons_of_mem _ hb2) r hr) hse1.values_le)
        (by
          intro b2 hb2
          obtain ⟨nb2, hd2, hge2, hlt2, hempty2⟩ := hdst b2 (List.mem_cons_of_mem _ hb2)
          refine ⟨nb2, hd2, hge2, by rw [hlen1]; exact hlt2, ?_⟩
          rw [huntouch1 nb2 (hbne_nb b2 hb2 nb2 hd2)]
          exact hempty2)
        (fun b1 hb1 b2 hb2 nb2 hd1 hd2 =>
          hinj b1 (List.mem_cons_of_mem _ hb1) b2 (List.mem_cons_of_mem _ hb2) nb2 hd1 hd2)
      refine ⟨hse1.trans hse2, hlen2.trans hlen1, ?_, ?_⟩
      · intro i hi
        rw [huntouch2 i (fun b2 hb2 nb2 hd2 =>
          hi b2 (List.mem_cons_of_mem _ hb2) nb2 hd2)]
        exact huntouch1 i (hi b (List.mem_cons_self _ _) nb hd)
      · intro b2 hb2 nb2 hd2
        rcases List.mem_cons.mp hb2 with hb2h | hb2t
        · subst hb2h
          rw [hd2] at hd
          simp only [Option.some.injEq, RenameDest.block.injEq] at hd
          subst hd
          have hpres : g'.blockData nb2 = g1.blockData nb2 := by
            apply huntouch2
            intro b3 hb3 nb3 hd3 hh
            exact (hbne_nb b3 hb3 nb3 hd3) hh.symm
          refine ⟨hops, ?_, ?_, ?_⟩
          · unfold Function.block_kind at hopeq ⊢
            rw [hpres]
            exact hopeq
          · unfold Function.block_reads at hrlen ⊢
            rw [hpres]
            exact hrlen
          · intro j hj hj2
            have hrex : g'.block_reads nb2 = g1.block_reads nb2 := by
              unfold Function.block_reads
              rw [hpres]
            have hj2g : j < (g1.block_reads nb2).length := by
              rw [hrex] at hj2
              exact hj2
            have hgeteq : (g'.block_reads nb2).get ⟨j, hj2⟩ =
                (g1.block_reads nb2).get ⟨j, hj2g⟩ := List.get_of_eq hrex _
            rw [hgeteq]
            exact mappedReadOk_mono m ne _ _ _ hse2 (hse1.noAlias hnoal) (hrok j hj hj2g)
        · obtain ⟨hops2, hopeq2, hrlen2, hrok2⟩ := hfacts2 b2 hb2t nb2 hd2
          have hre := hreads1 b2 hb2t
          have hke := hkind1 b2 hb2t
          refine ⟨?_, ?_, ?_, ?_⟩
          · rw [hke] at hops2; exact hops2
          · rw [hke] at hopeq2; exact hopeq2
          · rw [hre] at hrlen2; exact hrlen2
          · intro j hj hj2
            have hj1 : j < (g1.block_reads b2).length := by rw [hre]; exact hj
            have hok := hrok2 j hj1 hj2
            have hgeteq : (g1.block_reads b2).get ⟨j, hj1⟩ =
                (g.block_reads b2).get ⟨j, hj⟩ := List.get_of_eq hre _
            rw [hgeteq] at hok
            rw [hse1.value_kind_eq hnoal _
              (hreads b2 (List.mem_cons_of_mem _ hb2t) _ (List.get_mem _ _ _))] at hok
            exact hok

end Eir

namespace Eir

theorem blockData_block_arg_insert_ne (g : Function) (nb i : Block) (h : nb ≠ i) :
    (g.block_arg_insert nb).1.blockData i = g.blockData i := by
  unfold Function.blockData
  rw [block_arg_insert_blocks]
  exact listModify_getD_ne _ _ _ _ _ h

theorem allocArgs_struct : ∀ (args : List Value) (nb : Block) (m : RenameMap) (g : Function),
    (allocArgs args nb m g).2.blocks.length = g.blocks.length ∧
    (∃ nv, (allocArgs args nb m g).2.values = g.values ++ nv ∧ valuesNoAlias nv ∧
      nv.length = args.length) ∧
    (∀ i, i ≠ nb → (allocArgs args nb m g).2.blockData i = g.blockData i) ∧
    ((allocArgs args nb m g).2.blockData nb).op = (g.blockData nb).op ∧
    ((allocArgs args nb m g).2.blockData nb).reads = (g.blockData nb).reads ∧
    ((allocArgs args nb m g).2.blockData nb).span = (g.blockData nb).span := by
  intro args
  induction args with
  | nil =>
    intro nb m g
    exact ⟨rfl, ⟨[], by simp [allocArgs], fun k hk => absurd hk (by simp), by simp [allocArgs]⟩,
      fun i _ => rfl, rfl, rfl, rfl⟩
  | cons a rest ih =>
    intro nb m g
    have hred : allocArgs (a :: rest) nb m g =
        allocArgs rest nb
          (if (alistGet m (RenameSource.value a)).isSome then m
            else alistInsert m (RenameSource.value a)
              (RenameDest.value (g.block_arg_insert nb).2))
          (g.block_arg_insert nb).1 := rfl
    rw [hred]
    obtain ⟨h1, ⟨nv, hv, hvnoal, hvlen⟩, h3, h4, h5, h6⟩ :=
      ih nb (if (alistGet m (RenameSource.value a)).isSome then m
        else alistInsert m (RenameSource.value a)
          (RenameDest.value (g.block_arg_insert nb).2))
        (g.block_arg_insert nb).1
    refine ⟨?_, ⟨ValueType.arg nb :: nv, ?_, ?_, ?_⟩, ?_, ?_, ?_, ?_⟩
    · rw [h1, block_arg_insert_blocks, listModify_length]
    · rw [hv, block_arg_insert_values, List.append_assoc]
      rfl
    · intro k hk w
      rcases List.mem_cons.mp hk with h | h
      · subst h
        intro hh
        exact ValueType.noConfusion hh
      · exact hvnoal k h w
    · simp [hvlen]
    · intro i hi
      rw [h3 i hi, blockData_block_arg_insert_ne g nb i (fun hh => hi hh.symm)]
    · rw [h4, (block_arg_insert_blockData_op g nb nb).1]
    · rw [h5, (block_arg_insert_blockData_op g nb nb).2.1]
    · rw [h6, (block_arg_insert_blockData_op g nb nb).2.2]

end Eir

namespace Eir

theorem allocArgs_map : ∀ (args : List Value) (nb : Block) (m : RenameMap) (g : Function),
    (∀ B, alistGet (allocArgs args nb m g).1 (RenameSource.block B) =
      alistGet m (RenameSource.block B)) ∧
    (∀ x, x ∉ args → alistGet (allocArgs args nb m g).1 (RenameSource.value x) =
      alistGet m (RenameSource.value x)) ∧
    (∀ x dx, alistGet m (RenameSource.value x) = some dx →
      alistGet (allocArgs args nb m g).1 (RenameSource.value x) = some dx) := by
  intro args
  induction args with
  | nil => exact fun nb m g => ⟨fun B => rfl, fun x _ => rfl, fun x dx h => h⟩
  | cons a rest ih =>
    intro nb m g
    have hred : allocArgs (a :: rest) nb m g =
        allocArgs rest nb
          (if (alistGet m (RenameSource.value a)).isSome then m
            else alistInsert m (RenameSource.value a)
              (RenameDest.value (g.block_arg_insert nb).2))
          (g.block_arg_insert nb).1 := rfl
    rw [hred]
    obtain ⟨ih1, ih2, ih3⟩ := ih nb
      (if (alistGet m (RenameSource.value a)).isSome then m
        else alistInsert m (RenameSource.value a)
          (RenameDest.value (g.block_arg_insert nb).2))
      (g.block_arg_insert nb).1
    have hm1block : ∀ B, alistGet
        (if (alistGet m (RenameSource.value a)).isSome then m
          else alistInsert m (RenameSource.value a)
            (RenameDest.value (g.block_arg_insert nb).2)) (RenameSource.block B) =
        alistGet m (RenameSource.block B) := by
      intro B
      by_cases hc : (alistGet m (RenameSource.value a)).isSome
      · rw [if_pos hc]
      · rw [if_neg hc, alistGet_insert_ne]
        intro hh
        exact RenameSource.noConfusion hh
    have hm1ne : ∀ x, x ≠ a → alistGet
        (if (alistGet m (RenameSource.value a)).isSome then m
          else alistInsert m (RenameSource.value a)
            (RenameDest.value (g.block_arg_insert nb).2)) (RenameSource.value x) =
        alistGet m (RenameSource.value x) := by
      intro x hx
      by_cases hc : (alistGet m (RenameSource.value a)).isSome
      · rw [if_pos hc]
      · rw [if_neg hc, alistGet_insert_ne]
        intro hh
        injection hh with hh2
        exact hx hh2.symm
    refine ⟨fun B => (ih1 B).trans (hm1block B), ?_, ?_⟩
    · intro x hx
      have hxa : x ≠ a := fun hh => hx (hh ▸ List.mem_cons_self _ _)
      have hxr : x ∉ rest := fun hh => hx (List.mem_cons_of_mem _ hh)
      exact (ih2 x hxr).trans (hm1ne x hxa)
    · intro x dx hdx
      apply ih3
      by_cases hxa : x = a
      · subst hxa
        rw [if_pos (by rw [hdx]; rfl)]
        exact hdx
      · rw [hm1ne x hxa]
        exact hdx

theorem range_map_add_succ (c n : Nat) :
    (List.range (n + 1)).map (fun k => c + k) = c :: (List.range n).map (fun k => c + 1 + k) := by
  rw [List.range_succ_eq_map, List.map_cons, List.map_map]
  have hc : ((fun k => c + k) ∘ Nat.succ) = fun k => c + 1 + k :=
    funext (fun k => show c + Nat.succ k = c + 1 + k by omega)
  rw [hc]
  norm_num

theorem allocArgs_fresh : ∀ (args : List Value) (nb : Block) (m : RenameMap) (g : Function),
    args.Nodup → (∀ a ∈ args, alistGet m (RenameSource.value a) = none) →
    nb < g.blocks.length →
    ((∀ (j : Nat) (hj : j < args.length),
       alistGet (allocArgs args nb m g).1 (RenameSource.value (args.get ⟨j, hj⟩)) =
         some (RenameDest.value (g.values.length + j))) ∧
     ((allocArgs args nb m g).2.blockData nb).arguments =
       (g.blockData nb).arguments ++ (List.range args.length).map (fun k => g.values.length + k)) := by
  intro args
  induction args with
  | nil =>
    intro nb m g hnd hfresh hnb
    exact ⟨fun j hj => absurd hj (by simp), by simp [allocArgs]⟩
  | cons a rest ih =>
    intro nb m g hnd hfresh hnb
    have hnone : alistGet m (RenameSource.value a) = none :=
      hfresh a (List.mem_cons_self _ _)
    have hred : allocArgs (a :: rest) nb m g =
        allocArgs rest nb
          (alistInsert m (RenameSource.value a)
            (RenameDest.value (g.block_arg_insert nb).2))
          (g.block_arg_insert nb).1 := by
      show (let p := g.block_arg_insert nb;
        allocArgs rest nb
          (if (alistGet m (RenameSource.value a)).isSome then m
            else alistInsert m (RenameSource.value a) (RenameDest.value p.2)) p.1) = _
      rw [hnone]
      rfl
    rw [hred]
    have hndr := List.nodup_cons.mp hnd
    have hfreshr : ∀ x ∈ rest, alistGet
        (alistInsert m (RenameSource.value a)
          (RenameDest.value (g.block_arg_insert nb).2)) (RenameSource.value x) = none := by
      intro x hx
      rw [alistGet_insert_ne]
      · exact hfresh x (List.mem_cons_of_mem _ hx)
      · intro hh
        injection hh with hh2
        exact hndr.1 (hh2 ▸ hx)
    have hnb1 : nb < (g.block_arg_insert nb).1.blocks.length := by
      rw [block_arg_insert_blocks, listModify_length]
      exact hnb
    obtain ⟨ihr, iha⟩ := ih nb
      (alistInsert m (RenameSource.value a)
        (RenameDest.value (g.block_arg_insert nb).2))
      (g.block_arg_insert nb).1 hndr.2 hfreshr hnb1
    constructor
    · intro j hj
      cases j with
      | zero =>
        obtain ⟨_, _, hsome⟩ := allocArgs_map rest nb
          (alistInsert m (RenameSource.value a)
            (RenameDest.value (g.block_arg_insert nb).2))
          (g.block_arg_insert nb).1
        show alistGet _ (RenameSource.value a) = some (RenameDest.value (g.values.length + 0))
        rw [Nat.add_zero]
        apply hsome
        rw [alistGet_insert_self]
        rfl
      | succ j =>
        have hjr : j < rest.length := by simpa using hj
        have := ihr j hjr
        rw [block_arg_insert_values] at this
        show alistGet _ (RenameSource.value (rest.get ⟨j, hjr⟩)) =
          some (RenameDest.value (g.values.length + (j + 1)))
        rw [this]
        have harith : (g.values ++ [ValueType.arg nb]).length + j =
            g.values.length + (j + 1) := by
          simp
          omega
        rw [harith]
    · rw [iha, block_arg_insert_values]
      have hbd : ((g.block_arg_insert nb).1.blockData nb).arguments =
          (g.blockData nb).arguments ++ [g.values.length] := by
        unfold Function.blockData
        rw [block_arg_insert_blocks, listModify_getD_self _ _ _ _ hnb]
      rw [hbd]
      simp only [List.length_cons, List.length_append, List.length_singleton]
      rw [List.append_assoc]
      congr 1
      rw [range_map_add_succ]
      rfl

end Eir

namespace Eir

theorem blockData_oob (g : Function) (i : Block) (h : g.blocks.length ≤ i) :
    g.blockData i = emptyBlockData := by
  unfold Function.blockData
  exact List.getD_eq_default _ _ h

theorem blockData_block_insert_lt (g : Function) (i : Block) (h : i < g.blocks.length) :
    (g.block_insert).1.blockData i = g.blockData i := by
  unfold Function.blockData
  rw [block_insert_blocks]
  exact List.getD_append _ _ _ _ h

theorem blockData_block_insert_self (g : Function) :
    (g.block_insert).1.blockData g.blocks.length = emptyBlockData := by
  unfold Function.blockData
  rw [block_insert_blocks, List.getD_append_right _ _ _ _ (Nat.le_refl _)]
  simp

theorem blockData_block_insert_ne (g : Function) (i : Block) (h : i ≠ g.blocks.length) :
    (g.block_insert).1.blockData i = g.blockData i := by
  by_cases hlt : i < g.blocks.length
  · exact blockData_block_insert_lt g i hlt
  · have hgt : g.blocks.length < i :=
      Nat.lt_of_le_of_ne (Nat.le_of_not_lt hlt) (fun hh => h hh.symm)
    rw [blockData_oob g i (Nat.le_of_lt hgt)]
    unfold Function.blockData
    rw [block_insert_blocks]
    apply List.getD_eq_default
    rw [List.length_append]
    simp only [List.length_singleton]
    exact hgt

theorem allocBlocks_struct :
    ∀ (scopeL : List Block) (m : RenameMap) (g : Function) (m' : RenameMap) (g' : Function),
      allocBlocks MangleMode.single scopeL m g = some (m', g') →
      g'.blocks.length = g.blocks.length + scopeL.length ∧
      (∃ nv, g'.values = g.values ++ nv ∧ valuesNoAlias nv) ∧
      (∀ i, i < g.blocks.length → g'.blockData i = g.blockData i) ∧
      (∀ i, (g'.blockData i).op = (g.blockData i).op ∧
            (g'.blockData i).reads = (g.blockData i).reads ∧
            (g'.blockData i).span = (g.blockData i).span) := by
  intro scopeL
  induction scopeL with
  | nil =>
    intro m g m' g' h
    unfold allocBlocks at h
    obtain ⟨hm, hg⟩ := somePairEq h
    subst hm
    subst hg
    exact ⟨by simp, ⟨[], by simp, fun k hk => absurd hk (by simp)⟩,
      fun i _ => rfl, fun i => ⟨rfl, rfl, rfl⟩⟩
  | cons b rest ih =>
    intro m g m' g' h
    unfold allocBlocks at h
    by_cases hguard : (alistGet m (RenameSource.block b)).isSome = true
    · rw [if_pos hguard] at h
      exact absurd h (by simp)
    · rw [if_neg hguard] at h
      simp only [modeFrom] at h
      obtain ⟨hlen1, ⟨nv1, hv1, hnoal1, hnvlen1⟩, huntouch1, hop1, hreads1, hspan1⟩ :=
        allocArgs_struct ((g.block_insert).1.block_args b) (g.block_insert).2
          (alistInsert m (RenameSource.block b) (RenameDest.block (g.block_insert).2))
          (g.block_insert).1
      obtain ⟨hlen2, ⟨nv2, hv2, hnoal2⟩, huntouch2, hops2⟩ := ih _ _ _ _ h
      have hq2len : (allocArgs ((g.block_insert).1.block_args b) (g.block_insert).2
          (alistInsert m (RenameSource.block b) (RenameDest.block (g.block_insert).2))
          (g.block_insert).1).2.blocks.length = g.blocks.length + 1 := by
        rw [hlen1, block_insert_blocks]
        simp
      refine ⟨?_, ?_, ?_, ?_⟩
      · rw [hlen2, hq2len, List.length_cons]
        omega
      · refine ⟨nv1 ++ nv2, ?_, valuesNoAlias_append _ _ hnoal1 hnoal2⟩
        rw [hv2, hv1, block_insert_values, List.append_assoc]
      · intro i hi
        rw [huntouch2 i (by rw [hq2len]; exact Nat.lt_succ_of_lt hi),
          huntouch1 i (by rw [block_insert_idx]; exact Nat.ne_of_lt hi),
          blockData_block_insert_lt g i hi]
      · intro i
        obtain ⟨ho2, hr2, hs2⟩ := hops2 i
        by_cases hieq : i = (g.block_insert).2
        · subst hieq
          rw [ho2, hr2, hs2, hop1, hreads1, hspan1, block_insert_idx,
            blockData_block_insert_self, blockData_oob g g.blocks.length (Nat.le_refl _)]
          exact ⟨rfl, rfl, rfl⟩
        · rw [ho2, hr2, hs2, huntouch1 i hieq, blockData_block_insert_ne g i
            (by rw [block_insert_idx] at hieq; exact hieq)]
          exact ⟨rfl, rfl, rfl⟩

end Eir

namespace Eir

theorem allocBlocks_map :
    ∀ (scopeL : List Block) (m : RenameMap) (g : Function) (m' : RenameMap) (g' : Function),
      allocBlocks MangleMode.single scopeL m g = some (m', g') →
      (∀ B dB, alistGet m (RenameSource.block B) = some dB →
        alistGet m' (RenameSource.block B) = some dB) ∧
      (∀ B, B ∉ scopeL → alistGet m (RenameSource.block B) = none →
        alistGet m' (RenameSource.block B) = none) ∧
      (∀ x dx, alistGet m (RenameSource.value x) = some dx →
        alistGet m' (RenameSource.value x) = some dx) ∧
      (∀ (i : Nat) (hi : i < scopeL.length),
        alistGet m' (RenameSource.block (scopeL.get ⟨i, hi⟩)) =
          some (RenameDest.block (g.blocks.length + i))) := by
  intro scopeL
  induction scopeL with
  | nil =>
    intro m g m' g' h
    unfold allocBlocks at h
    obtain ⟨hm, hg⟩ := somePairEq h
    subst hm
    subst hg
    exact ⟨fun B dB hd => hd, fun B _ hn => hn, fun x dx hd => hd,
      fun i hi => absurd hi (by simp)⟩
  | cons b rest ih =>
    intro m g m' g' h
    unfold allocBlocks at h
    by_cases hguard : (alistGet m (RenameSource.block b)).isSome = true
    · rw [if_pos hguard] at h
      exact absurd h (by simp)
    · rw [if_neg hguard] at h
      simp only [modeFrom] at h
      have hbnone : alistGet m (RenameSource.block b) = none :=
        Option.not_isSome_iff_eq_none.mp hguard
      obtain ⟨haablock, haane, haasome⟩ := allocArgs_map
        ((g.block_insert).1.block_args b) (g.block_insert).2
        (alistInsert m (RenameSource.block b) (RenameDest.block (g.block_insert).2))
        (g.block_insert).1
      obtain ⟨ihsome, ihnone, ihval, ihpos⟩ := ih _ _ _ _ h
      have hq1block : ∀ B, B ≠ b → alistGet (allocArgs ((g.block_insert).1.block_args b)
          (g.block_insert).2
          (alistInsert m (RenameSource.block b) (RenameDest.block (g.block_insert).2))
          (g.block_insert).1).1 (RenameSource.block B) =
          alistGet m (RenameSource.block B) := by
        intro B hB
        rw [haablock B, alistGet_insert_ne]
        intro hh
        injection hh with hh2
        exact hB hh2.symm
      refine ⟨?_, ?_, ?_, ?_⟩
      · intro B dB hd
        have hBb : B ≠ b := by
          intro hh
          rw [hh, hbnone] at hd
          exact Option.noConfusion hd
        apply ihsome
        rw [hq1block B hBb]
        exact hd
      · intro B hB hn
        have hBb : B ≠ b := fun hh => hB (hh ▸ List.mem_cons_self _ _)
        apply ihnone B (fun hh => hB (List.mem_cons_of_mem _ hh))
        rw [hq1block B hBb]
        exact hn
      · intro x dx hd
        apply ihval
        apply haasome
        rw [alistGet_insert_ne]
        · exact hd
        · intro hh
          exact RenameSource.noConfusion hh
      · intro i hi
        cases i with
        | zero =>
          show alistGet m' (RenameSource.block b) = some (RenameDest.block (g.blocks.length + 0))
          rw [Nat.add_zero]
          apply ihsome
          rw [haablock b, block_insert_idx, alistGet_insert_self]
        | succ i =>
          have hir : i < rest.length := by simpa using hi
          have hpos := ihpos i hir
          have hq2len : (allocArgs ((g.block_insert).1.block_args b) (g.block_insert).2
              (alistInsert m (RenameSource.block b) (RenameDest.block (g.block_insert).2))
              (g.block_insert).1).2.blocks.length = g.blocks.length + 1 := by
            rw [(allocArgs_struct _ _ _ _).1, block_insert_blocks, List.length_append]
            simp
          rw [hq2len] at hpos
          show alistGet m' (RenameSource.block (rest.get ⟨i, hir⟩)) =
            some (RenameDest.block (g.blocks.length + (i + 1)))
          rw [hpos]
          have : g.blocks.length + 1 + i = g.blocks.length + (i + 1) := by omega
          rw [this]

end Eir

namespace Eir

theorem runInner_single_decomp (mg : Mangler) (f : Function) (e : Block) (fuel : Nat)
    (res : RunResult) (hentry : mg.entry = some e)
    (hrun : mg.runInner MangleMode.single fuel f = some res) :
    ∃ (m1 : RenameMap) (scope : List Block) (q : RenameMap × Function)
      (to4 to5 : Function),
      normalizeSources (insertArgsN mg.num_args (f.block_insert).2 (f.block_insert).1)
        mg.map = some m1 ∧
      walkAux (insertArgsN mg.num_args (f.block_insert).2 (f.block_insert).1) m1 fuel
        [e] [] = some scope ∧
      allocBlocks MangleMode.single scope m1
        (insertArgsN mg.num_args (f.block_insert).2 (f.block_insert).1) = some q ∧
      copyBody MangleMode.single q.1 (f.block_insert).2 e (f.block_insert).2 q.2 = some to4 ∧
      copyScopeBlocks MangleMode.single q.1 (f.block_insert).2 scope to4 = some to5 ∧
      res = ⟨to5, (f.block_insert).2, m1, scope, q.1⟩ := by
  unfold Mangler.runInner at hrun
  rw [hentry] at hrun
  simp only [Option.some_bind, modeFrom] at hrun
  rcases Option.bind_eq_some.mp hrun with ⟨m1, hnorm, hrun2⟩
  rcases Option.bind_eq_some.mp hrun2 with ⟨scope, hwalk, hrun3⟩
  rcases Option.bind_eq_some.mp hrun3 with ⟨q, halloc, hrun4⟩
  rcases Option.bind_eq_some.mp hrun4 with ⟨to4, hcopyE, hrun5⟩
  rcases Option.map_eq_some'.mp hrun5 with ⟨to5, hcopyS, hres⟩
  exact ⟨m1, scope, q, to4, to5, hnorm, hwalk, halloc, hcopyE, hcopyS, hres.symm⟩

theorem valuesNoAlias_insertArgs_entry (f : Function) (n : Nat) (hwf : f.wf = true) :
    valuesNoAlias (insertArgsN n (f.block_insert).2 (f.block_insert).1).values := by
  rw [insertArgsN_values, block_insert_values]
  exact valuesNoAlias_append _ _ (valuesNoAlias_of_wf f hwf) (valuesNoAlias_replicate_arg _ _)

theorem value_kind_insertArgs_entry_eq (f : Function) (n : Nat) (hwf : f.wf = true)
    (r : Value) (hr : r < f.values.length) :
    (insertArgsN n (f.block_insert).2 (f.block_insert).1).value_kind r = f.value_kind r := by
  rw [value_kind_eq_valueGet _ (valuesNoAlias_insertArgs_entry f n hwf),
    value_kind_eq_valueGet _ (valuesNoAlias_of_wf f hwf)]
  unfold Function.valueGet
  rw [insertArgsN_values, block_insert_values, List.getD_append _ _ _ _ hr]

theorem wf_reads_lt (f : Function) (hwf : f.wf = true) (b : Block)
    (r : Value) (hr : r ∈ f.block_reads b) : r < f.values.length := by
  unfold Function.wf at hwf
  have h2 := ((Bool.and_eq_true _ _).mp hwf).2
  unfold Function.block_reads at hr
  by_cases hb : b < f.blocks.length
  · have hmem : f.blockData b ∈ f.blocks := by
      unfold Function.blockData
      rw [List.getD_eq_getElem _ _ hb]
      exact List.getElem_mem hb
    have h3 := (List.all_eq_true.mp h2) _ hmem
    have h4 := ((Bool.and_eq_true _ _).mp h3).1
    have h5 := (List.all_eq_true.mp h4) r hr
    simpa using h5
  · rw [blockData_oob f b (Nat.le_of_not_lt hb)] at hr
    simp [emptyBlockData] at hr

theorem successors_mem_lt (f : Function) (hwf : f.wf = true) (a b : Block)
    (h : b ∈ f.successors a) : b < f.blocks.length := by
  unfold Function.successors at h
  rcases List.mem_filterMap.mp h with ⟨r, hr, hvb⟩
  unfold Function.value_block at hvb
  rw [value_kind_eq_valueGet f (valuesNoAlias_of_wf f hwf)] at hvb
  rcases hk : f.valueGet r with o | c | bt | u
  · simp only [hk] at hvb
    exact absurd hvb (by simp)
  · simp only [hk] at hvb
    exact absurd hvb (by simp)
  · simp only [hk] at hvb
    have hbt : bt = b := by injection hvb
    subst hbt
    have hrlt : r < f.values.length := by
      by_contra hge
      unfold Function.valueGet at hk
      rw [List.getD_eq_default _ _ (Nat.le_of_not_lt hge)] at hk
      exact ValueType.noConfusion hk
    have hmem : f.valueGet r ∈ f.values := by
      unfold Function.valueGet
      rw [List.getD_eq_getElem _ _ hrlt]
      exact List.getElem_mem hrlt
    unfold Function.wf at hwf
    have h1 := ((Bool.and_eq_true _ _).mp hwf).1
    have h3 := (List.all_eq_true.mp h1) _ hmem
    rw [hk] at h3
    simpa [ValueType.wfIn] using h3
  · simp only [hk] at hvb
    exact absurd hvb (by simp)

theorem ReachAvoid_lt (f : Function) (hwf : f.wf = true) (m : RenameMap) (e : Block)
    (helt : e < f.blocks.length) (b : Block) (h : ReachAvoid f m [e] b) :
    b < f.blocks.length := by
  induction h with
  | base x hx hnone =>
    rw [List.mem_singleton.mp hx]
    exact helt
  | step a x ha hs hnone ih => exact successors_mem_lt f hwf a x hs

end Eir

/-- C1 (amended: the rename map must not name the entry block itself as
a source, since the new entry block always receives a copy of the entry
body): after Mangler::run, the computed scope is exactly the set of
source blocks reachable from the entry along paths that avoid renamed
blocks; a block named as a rename source is not in the scope and is not
the entry, so it is never copied; the destination grows by exactly one
fresh block per scoped block plus the new entry; each scoped block has
a fresh copy with the same op kind and the same number of reads, and
every read operand whose kind is a renamed block B is replaced by the
rename destination recorded for B, as expressed by mappedReadOk; the
new entry body is copied from the entry under the same read mapping. -/
theorem mangler_run_scope_frontier
    (mg : Eir.Mangler) (f : Eir.Function) (e : Eir.Block) (fuel : Nat) (res : Eir.RunResult)
    (hwf : f.wf = true)
    (helt : e < f.blocks.length)
    (hentry : mg.entry = some e)
    (hrun : mg.runInner Eir.MangleMode.single fuel f = some res)
    (hner : alistGet res.normMap (Eir.RenameSource.block e) = none) :
    (∀ b, b ∈ res.scope ↔ Eir.ReachAvoid f res.normMap [e] b) ∧
    (∀ B, (alistGet res.normMap (Eir.RenameSource.block B)).isSome = true →
      B ∉ res.scope ∧ B ≠ e) ∧
    res.newEntry = f.blocks.length ∧
    res.fn.blocks.length = f.blocks.length + 1 + res.scope.length ∧
    (∀ B dB, alistGet res.normMap (Eir.RenameSource.block B) = some dB →
      alistGet res.finalMap (Eir.RenameSource.block B) = some dB) ∧
    (∀ b ∈ res.scope, ∃ nb, alistGet res.finalMap (Eir.RenameSource.block b) =
        some (Eir.RenameDest.block nb) ∧ f.blocks.length < nb ∧
      res.fn.block_kind nb = f.block_kind b ∧
      (res.fn.block_reads nb).length = (f.block_reads b).length ∧
      (∀ (j : Nat) (hj : j < (f.block_reads b).length)
          (hj2 : j < (res.fn.block_reads nb).length),
        Eir.mappedReadOk res.finalMap res.fn res.newEntry
          (f.value_kind ((f.block_reads b).get ⟨j, hj⟩))
          ((f.block_reads b).get ⟨j, hj⟩) ((res.fn.block_reads nb).get ⟨j, hj2⟩))) ∧
    (res.fn.block_kind res.newEntry = f.block_kind e ∧
      (res.fn.block_reads res.newEntry).length = (f.block_reads e).length ∧
      (∀ (j : Nat) (hj : j < (f.block_reads e).length)
          (hj2 : j < (res.fn.block_reads res.newEntry).length),
        Eir.mappedReadOk res.finalMap res.fn res.newEntry
          (f.value_kind ((f.block_reads e).get ⟨j, hj⟩))
          ((f.block_reads e).get ⟨j, hj⟩)
          ((res.fn.block_reads res.newEntry).get ⟨j, hj2⟩))) := by
  obtain ⟨m1, scope, q, to4, to5, hnorm, hwalk, halloc, hcopyE, hcopyS, hres⟩ :=
    Eir.runInner_single_decomp mg f e fuel res hentry hrun
  subst hres
  simp only [] at hner ⊢
  have hfnoal : Eir.valuesNoAlias f.values := Eir.valuesNoAlias_of_wf f hwf
  have hneidx : (f.block_insert).2 = f.blocks.length := Eir.block_insert_idx f
  have hT2len : (Eir.insertArgsN mg.num_args (f.block_insert).2
      (f.block_insert).1).blocks.length = f.blocks.length + 1 := by
    rw [Eir.insertArgsN_blocks_length, Eir.block_insert_blocks, List.length_append]
    simp
  have hT2noal := Eir.valuesNoAlias_insertArgs_entry f mg.num_args hwf
  have hT2succ : ∀ a, (Eir.insertArgsN mg.num_args (f.block_insert).2
      (f.block_insert).1).successors a = f.successors a :=
    Eir.successors_insertArgs_entry f mg.num_args hwf
  have hT2reads : ∀ i, (Eir.insertArgsN mg.num_args (f.block_insert).2
      (f.block_insert).1).block_reads i = f.block_reads i :=
    Eir.block_reads_insertArgs_entry f mg.num_args
  have hT2kind : ∀ i, i < f.blocks.length → (Eir.insertArgsN mg.num_args (f.block_insert).2
      (f.block_insert).1).block_kind i = f.block_kind i :=
    fun i hi => Eir.block_kind_insertArgs_entry f mg.num_args i hi
  have hT2vals : (Eir.insertArgsN mg.num_args (f.block_insert).2
      (f.block_insert).1).values = f.values ++ List.replicate mg.num_args
        (Eir.ValueType.arg (f.block_insert).2) := by
    rw [Eir.insertArgsN_values, Eir.block_insert_values]
  have hT2ne_reads : ((Eir.insertArgsN mg.num_args (f.block_insert).2
      (f.block_insert).1).blockData (f.block_insert).2).reads = [] := by
    rw [(Eir.insertArgsN_blockData_op mg.num_args (f.block_insert).2
      (f.block_insert).1 (f.block_insert).2).2.1]
    rw [hneidx, Eir.blockData_block_insert_self]
    rfl
  have hscope_iff : ∀ b, b ∈ scope ↔ Eir.ReachAvoid f m1 [e] b := by
    intro b
    rw [Eir.walkAux_scope_iff _ m1 e fuel scope hwalk b]
    constructor
    · intro h
      exact Eir.ReachAvoid_congr _ f m1 [e] hT2succ b h
    · intro h
      exact Eir.ReachAvoid_congr f _ m1 [e] (fun a => (hT2succ a).symm) b h
  have hnds : scope.Nodup :=
    Eir.walkAux_nodup _ m1 fuel [e] [] scope hwalk (by simp)
  have hslt : ∀ b ∈ scope, b < f.blocks.length :=
    fun b hb => Eir.ReachAvoid_lt f hwf m1 e helt b ((hscope_iff b).mp hb)
  obtain ⟨hAlen, ⟨nvA, hAv, hAnoal⟩, hAuntouch, hAops⟩ := Eir.allocBlocks_struct
    scope m1 _ q.1 q.2 (by rw [← Prod.mk.eta (p := q)] at halloc; exact halloc)
  obtain ⟨hAsome, hAnone, hAvalsome, hApos⟩ := Eir.allocBlocks_map
    scope m1 _ q.1 q.2 (by rw [← Prod.mk.eta (p := q)] at halloc; exact halloc)
  have hq2len : q.2.blocks.length = f.blocks.length + 1 + scope.length := by
    rw [hAlen, hT2len]
  have hq2noal : Eir.valuesNoAlias q.2.values := by
    rw [hAv]
    exact Eir.valuesNoAlias_append _ _ hT2noal hAnoal
  have hq2vals : ∃ L, q.2.values = f.values ++ L := by
    refine ⟨List.replicate mg.num_args (Eir.ValueType.arg (f.block_insert).2) ++ nvA, ?_⟩
    rw [hAv, hT2vals, List.append_assoc]
  have hvk_of : ∀ (g : Eir.Function), Eir.valuesNoAlias g.values →
      (∃ L, g.values = f.values ++ L) → ∀ r, r < f.values.length →
      g.value_kind r = f.value_kind r := by
    intro g hg ⟨L, hL⟩ r hr
    rw [Eir.value_kind_eq_valueGet g hg, Eir.value_kind_eq_valueGet f hfnoal]
    unfold Eir.Function.valueGet
    rw [hL, List.getD_append _ _ _ _ hr]
  have hq2reads : ∀ i, q.2.block_reads i = f.block_reads i := by
    intro i
    show (q.2.blockData i).reads = _
    rw [(hAops i).2.1]
    exact hT2reads i
  have hq2kind : ∀ i, i < f.blocks.length → q.2.block_kind i = f.block_kind i := by
    intro i hi
    show (q.2.blockData i).op = _
    rw [(hAops i).1]
    exact hT2kind i hi
  have hq2ne_reads : (q.2.blockData (f.block_insert).2).reads = [] := by
    rw [(hAops (f.block_insert).2).2.1]
    exact hT2ne_reads
  have hq2new_reads : ∀ nb, f.blocks.length + 1 ≤ nb → (q.2.blockData nb).reads = [] := by
    intro nb hnb
    rw [(hAops nb).2.1, Eir.blockData_oob _ nb (by rw [hT2len]; exact hnb)]
    rfl
  have hposf : ∀ (i : Nat) (hi : i < scope.length),
      alistGet q.1 (Eir.RenameSource.block (scope.get ⟨i, hi⟩)) =
        some (Eir.RenameDest.block (f.blocks.length + 1 + i)) := by
    intro i hi
    rw [hApos i hi, hT2len]
  have hlookup_mem : ∀ b ∈ scope, ∀ nb, alistGet q.1 (Eir.RenameSource.block b) =
      some (Eir.RenameDest.block nb) → f.blocks.length + 1 ≤ nb ∧ nb < q.2.blocks.length := by
    intro b hb nb hl
    obtain ⟨⟨i, hi⟩, hgi⟩ := List.mem_iff_get.mp hb
    rw [← hgi, hposf i hi] at hl
    injection hl with hl2
    have hnb : nb = f.blocks.length + 1 + i := by injection hl2 with h3; exact h3.symm
    subst hnb
    constructor
    · exact Nat.le_add_right _ _
    · rw [hq2len]
      exact Nat.add_lt_add_left hi _
  have hinj : ∀ b1 ∈ scope, ∀ b2 ∈ scope, ∀ nb : Eir.Block,
      alistGet q.1 (Eir.RenameSource.block b1) = some (Eir.RenameDest.block nb) →
      alistGet q.1 (Eir.RenameSource.block b2) = some (Eir.RenameDest.block nb) →
      b1 = b2 := by
    intro b1 hb1 b2 hb2 nb hl1 hl2
    obtain ⟨⟨i, hi⟩, hgi⟩ := List.mem_iff_get.mp hb1
    obtain ⟨⟨j, hj⟩, hgj⟩ := List.mem_iff_get.mp hb2
    rw [← hgi, hposf i hi] at hl1
    rw [← hgj, hposf j hj] at hl2
    injection hl1 with hl1b
    injection hl2 with hl2b
    have hij : f.blocks.length + 1 + i = f.blocks.length + 1 + j := by
      have h1 : f.blocks.length + 1 + i = nb := by injection hl1b
      have h2 : f.blocks.length + 1 + j = nb := by injection hl2b
      rw [h1, h2]
    have hij2 : i = j := Nat.add_left_cancel hij
    rw [← hgi, ← hgj]
    congr 1
    exact Fin.ext hij2
  obtain ⟨hE_se, hE_len, hE_untouch, hE_issome, hE_kind, hE_rlen, hE_rok⟩ :=
    Eir.copyBody_single_spec q.1 (f.block_insert).2 e (f.block_insert).2 q.2 to4 hcopyE
      hq2noal
      (by
        intro r hr
        rw [hq2reads e] at hr
        obtain ⟨L, hL⟩ := hq2vals
        have h9 := Eir.wf_reads_lt f hwf e r hr
        rw [hL, List.length_append]
        exact Nat.lt_of_lt_of_le h9 (Nat.le_add_right _ _))
      (by
        rw [hneidx, hq2len]
        exact Nat.lt_of_lt_of_le (Nat.lt_succ_self _) (Nat.le_add_right _ _))
      hq2ne_reads
  have hto4noal : Eir.valuesNoAlias to4.values := hE_se.noAlias hq2noal
  have hto4vals : ∃ L, to4.values = f.values ++ L := by
    obtain ⟨L1, hL1⟩ := hq2vals
    obtain ⟨⟨L2, hL2, _⟩, _⟩ := hE_se
    exact ⟨L1 ++ L2, by rw [hL2, hL1, List.append_assoc]⟩
  have hsrc_ne : ∀ b ∈ scope, b ≠ (f.block_insert).2 := by
    intro b hb
    rw [hneidx]
    exact Nat.ne_of_lt (hslt b hb)
  have hto4reads : ∀ b ∈ scope, to4.block_reads b = f.block_reads b := by
    intro b hb
    show (to4.blockData b).reads = _
    rw [hE_untouch b (hsrc_ne b hb)]
    exact hq2reads b
  have hto4kind : ∀ b ∈ scope, to4.block_kind b = f.block_kind b := by
    intro b hb
    show (to4.blockData b).op = _
    rw [hE_untouch b (hsrc_ne b hb)]
    exact hq2kind b (hslt b hb)
  obtain ⟨hS_se, hS_len, hS_untouch, hS_facts⟩ :=
    Eir.copyScopeBlocks_single_spec q.1 (f.block_insert).2 (f.blocks.length + 1)
      scope to4 to5 hcopyS hto4noal hnds
      (fun b hb => Nat.lt_succ_of_lt (hslt b hb))
      (by
        intro b hb r hr
        rw [hto4reads b hb] at hr
        obtain ⟨L, hL⟩ := hto4vals
        have h9 := Eir.wf_reads_lt f hwf b r hr
        rw [hL, List.length_append]
        exact Nat.lt_of_lt_of_le h9 (Nat.le_add_right _ _))
      (by
        intro b hb
        obtain ⟨⟨i, hi⟩, hgi⟩ := List.mem_iff_get.mp hb
        refine ⟨f.blocks.length + 1 + i, by rw [← hgi]; exact hposf i hi,
          Nat.le_add_right _ _, ?_, ?_⟩
        · rw [hE_len, hq2len]
          exact Nat.add_lt_add_left hi _
        · rw [hE_untouch _ (by rw [hneidx]; exact Nat.ne_of_gt (Nat.lt_of_lt_of_le (Nat.lt_succ_self _) (Nat.le_add_right _ _)))]
          exact hq2new_reads _ (Nat.le_add_right _ _))
      hinj
  have hto5_ne_data : to5.blockData (f.block_insert).2 = to4.blockData (f.block_insert).2 := by
    apply hS_untouch
    intro b hb nb hl
    obtain ⟨hge, _⟩ := hlookup_mem b hb nb hl
    rw [hneidx]
    exact Nat.ne_of_lt (Nat.lt_of_lt_of_le (Nat.lt_succ_self _) hge)
  refine ⟨?_, ?_, hneidx, ?_, ?_, ?_, ?_, ?_, ?_⟩
  · exact hscope_iff
  · intro B hB
    constructor
    · intro hmem
      have := Eir.ReachAvoid_not_renamed f m1 [e] B ((hscope_iff B).mp hmem)
      rw [this] at hB
      exact absurd hB (by simp)
    · intro hh
      subst hh
      rw [hner] at hB
      exact absurd hB (by simp)
  · show to5.blocks.length = _
    rw [hS_len, hE_len, hq2len]
  · exact hAsome
  · intro b hb
    obtain ⟨⟨i, hi⟩, hgi⟩ := List.mem_iff_get.mp hb
    have hl : alistGet q.1 (Eir.RenameSource.block b) =
        some (Eir.RenameDest.block (f.blocks.length + 1 + i)) := by
      rw [← hgi]
      exact hposf i hi
    obtain ⟨hops4, hkind5, hrlen5, hrok5⟩ := hS_facts b hb (f.blocks.length + 1 + i) hl
    refine ⟨f.blocks.length + 1 + i, hl,
      Nat.lt_of_lt_of_le (Nat.lt_succ_self _) (Nat.le_add_right _ _), ?_, ?_, ?_⟩
    · rw [hkind5, hto4kind b hb]
    · rw [hrlen5, hto4reads b hb]
    · intro j hj hj2
      have hj4 : j < (to4.block_reads b).length := by rw [hto4reads b hb]; exact hj
      have hok := hrok5 j hj4 hj2
      have hget4 : (to4.block_reads b).get ⟨j, hj4⟩ = (f.block_reads b).get ⟨j, hj⟩ :=
        List.get_of_eq (hto4reads b hb) _
      rw [hget4] at hok
      have hrf : (f.block_reads b).get ⟨j, hj⟩ < f.values.length :=
        Eir.wf_reads_lt f hwf b _ (List.get_mem _ _ _)
      rw [hvk_of to4 hto4noal hto4vals _ hrf] at hok
      exact hok
  · show to5.block_kind (f.block_insert).2 = _
    unfold Eir.Function.block_kind
    rw [hto5_ne_data]
    have : (to4.blockData (f.block_insert).2).op = f.block_kind e := by
      show to4.block_kind (f.block_insert).2 = _
      rw [hE_kind]
      exact hq2kind e helt
    rw [this]
    rfl
  · show (to5.block_reads (f.block_insert).2).length = _
    unfold Eir.Function.block_reads
    rw [hto5_ne_data]
    have : (to4.blockData (f.block_insert).2).reads.length = (f.block_reads e).length := by
      show (to4.block_reads (f.block_insert).2).length = _
      rw [hE_rlen, hq2reads e]
    rw [this]
    rfl
  · intro j hj hj2
    have hreads_eq : to5.block_reads (f.block_insert).2 = to4.block_reads (f.block_insert).2 := by
      unfold Eir.Function.block_reads
      rw [hto5_ne_data]
    have hjq : j < (q.2.block_reads e).length := by rw [hq2reads e]; exact hj
    have hj4 : j < (to4.block_reads (f.block_insert).2).length := by
      rw [hreads_eq] at hj2
      exact hj2
    have hok := hE_rok j hjq hj4
    have hgetq : (q.2.block_reads e).get ⟨j, hjq⟩ = (f.block_reads e).get ⟨j, hj⟩ :=
      List.get_of_eq (hq2reads e) _
    rw [hgetq] at hok
    have hrf : (f.block_reads e).get ⟨j, hj⟩ < f.values.length :=
      Eir.wf_reads_lt f hwf e _ (List.get_mem _ _ _)
    rw [hvk_of q.2 hq2noal hq2vals _ hrf] at hok
    have hget5 : (to5.block_reads (f.block_insert).2).get ⟨j, hj2⟩ =
        (to4.block_reads (f.block_insert).2).get ⟨j, hj4⟩ :=
      List.get_of_eq hreads_eq _
    rw [hget5]
    exact Eir.mappedReadOk_mono q.1 (f.block_insert).2 _ _ _ hS_se hto4noal hok

namespace Eir

/-- Concrete one-block function whose single block carries op kind
other 7, used to show that a renamed entry block is still copied. -/
def c1exFun : Function :=
  ⟨⟨⟨0, 0⟩, ⟨0, 0⟩, 0⟩, 0, [⟨[], some (OpKind.other 7), [], 0⟩], [], some 0⟩

/-- Concrete mangler started on block 0 whose rename map names the
entry block 0 itself as a rename source. -/
def c1exMangler : Mangler :=
  ⟨some 0, 0, [(RenameSource.block 0, RenameDest.value 0)]⟩

/-- The concrete successful result of running c1exMangler on c1exFun. -/
def c1exPair : Function × Block :=
  (c1exMangler.run 10 c1exFun).getD (c1exFun, 0)

/-- Concrete two-block function: the entry block 0 calls the value of
block 1; block 1 carries op kind other 3.  Well-formed. -/
def c1wFun : Function :=
  ⟨⟨⟨0, 0⟩, ⟨0, 0⟩, 0⟩, 0,
    [⟨[], some OpKind.call, [1], 0⟩, ⟨[], some (OpKind.other 3), [], 0⟩],
    [ValueType.block 0, ValueType.block 1], some 0⟩

/-- Concrete mangler started on block 0 renaming block 1 (a successor
of the entry) to value 0. -/
def c1wMangler : Mangler :=
  ⟨some 0, 0, [(RenameSource.block 1, RenameDest.value 0)]⟩

/-- The concrete successful result of running c1wMangler on c1wFun. -/
def c1wRes : RunResult :=
  (c1wMangler.runInner MangleMode.single 10 c1wFun).getD ⟨c1wFun, 0, [], [], []⟩

end Eir

/-- C1 counterexample: the claim says a block named as a rename source
is never copied, but when the rename map names the entry block itself
the run still succeeds and the new entry receives a copy of the
renamed entry body (copy_body is invoked on the entry unconditionally):
block 0 is a rename source, yet the returned new entry carries a copy
of block 0's op. -/
theorem mangler_renamed_entry_copied :
    alistGet Eir.c1exMangler.map (Eir.RenameSource.block 0) =
      some (Eir.RenameDest.value 0) ∧
    Eir.c1exMangler.entry = some 0 ∧
    Eir.c1exFun.block_kind 0 = some (Eir.OpKind.other 7) ∧
    Eir.c1exMangler.run 10 Eir.c1exFun = some Eir.c1exPair ∧
    Eir.c1exPair.1.block_kind Eir.c1exPair.2 = some (Eir.OpKind.other 7) :=
  ⟨rfl, rfl, rfl, rfl, rfl⟩

/-- C1 witness: the frontier theorem instantiated on the concrete
two-block function c1wFun with block 1 renamed: all hypotheses hold
and the full conclusion follows by applying the theorem. -/
theorem mangler_run_scope_frontier_witness :
    Eir.c1wFun.wf = true ∧
    Eir.c1wMangler.runInner Eir.MangleMode.single 10 Eir.c1wFun = some Eir.c1wRes ∧
    alistGet Eir.c1wRes.normMap (Eir.RenameSource.block 0) = none ∧
    ((∀ b, b ∈ Eir.c1wRes.scope ↔ Eir.ReachAvoid Eir.c1wFun Eir.c1wRes.normMap [0] b) ∧
    (∀ B, (alistGet Eir.c1wRes.normMap (Eir.RenameSource.block B)).isSome = true →
      B ∉ Eir.c1wRes.scope ∧ B ≠ 0) ∧
    Eir.c1wRes.newEntry = Eir.c1wFun.blocks.length ∧
    Eir.c1wRes.fn.blocks.length = Eir.c1wFun.blocks.length + 1 + Eir.c1wRes.scope.length ∧
    (∀ B dB, alistGet Eir.c1wRes.normMap (Eir.RenameSource.block B) = some dB →
      alistGet Eir.c1wRes.finalMap (Eir.RenameSource.block B) = some dB) ∧
    (∀ b ∈ Eir.c1wRes.scope, ∃ nb, alistGet Eir.c1wRes.finalMap (Eir.RenameSource.block b) =
        some (Eir.RenameDest.block nb) ∧ Eir.c1wFun.blocks.length < nb ∧
      Eir.c1wRes.fn.block_kind nb = Eir.c1wFun.block_kind b ∧
      (Eir.c1wRes.fn.block_reads nb).length = (Eir.c1wFun.block_reads b).length ∧
      (∀ (j : Nat) (hj : j < (Eir.c1wFun.block_reads b).length)
          (hj2 : j < (Eir.c1wRes.fn.block_reads nb).length),
        Eir.mappedReadOk Eir.c1wRes.finalMap Eir.c1wRes.fn Eir.c1wRes.newEntry
          (Eir.c1wFun.value_kind ((Eir.c1wFun.block_reads b).get ⟨j, hj⟩))
          ((Eir.c1wFun.block_reads b).get ⟨j, hj⟩)
          ((Eir.c1wRes.fn.block_reads nb).get ⟨j, hj2⟩))) ∧
    (Eir.c1wRes.fn.block_kind Eir.c1wRes.newEntry = Eir.c1wFun.block_kind 0 ∧
      (Eir.c1wRes.fn.block_reads Eir.c1wRes.newEntry).length =
        (Eir.c1wFun.block_reads 0).length ∧
      (∀ (j : Nat) (hj : j < (Eir.c1wFun.block_reads 0).length)
          (hj2 : j < (Eir.c1wRes.fn.block_reads Eir.c1wRes.newEntry).length),
        Eir.mappedReadOk Eir.c1wRes.finalMap Eir.c1wRes.fn Eir.c1wRes.newEntry
          (Eir.c1wFun.value_kind ((Eir.c1wFun.block_reads 0).get ⟨j, hj⟩))
          ((Eir.c1wFun.block_reads 0).get ⟨j, hj⟩)
          ((Eir.c1wRes.fn.block_reads Eir.c1wRes.newEntry).get ⟨j, hj2⟩)))) :=
  ⟨rfl, rfl, rfl,
    mangler_run_scope_frontier Eir.c1wMangler Eir.c1wFun 0 10 Eir.c1wRes
      rfl (by decide) rfl rfl rfl⟩

namespace Eir

/-- allocArgs appends exactly one fresh argument value per source
argument, all owned by the destination block. -/
theorem allocArgs_values : ∀ (args : List Value) (nb : Block) (m : RenameMap) (g : Function),
    (allocArgs args nb m g).2.values =
      g.values ++ List.replicate args.length (ValueType.arg nb) := by
  intro args
  induction args with
  | nil =>
    intro nb m g
    simp [allocArgs]
  | cons a rest ih =>
    intro nb m g
    have hred : allocArgs (a :: rest) nb m g =
        allocArgs rest nb
          (if (alistGet m (RenameSource.value a)).isSome then m
            else alistInsert m (RenameSource.value a)
              (RenameDest.value (g.block_arg_insert nb).2))
          (g.block_arg_insert nb).1 := rfl
    rw [hred, ih, block_arg_insert_values, List.append_assoc]
    congr 1

/-- A value-keyed rename present after allocArgs but absent before is
one of the processed arguments, renamed to its positional fresh
argument. -/
theorem allocArgs_added (args : List Value) (nb : Block) (m : RenameMap) (g : Function)
    (hnd : args.Nodup)
    (hfresh : ∀ a ∈ args, alistGet m (RenameSource.value a) = none)
    (hnb : nb < g.blocks.length)
    (x : Value) (d : RenameDest)
    (hxm : alistGet m (RenameSource.value x) = none)
    (hx : alistGet (allocArgs args nb m g).1 (RenameSource.value x) = some d) :
    ∃ (j : Nat) (hj : j < args.length), x = args.get ⟨j, hj⟩ ∧
      d = RenameDest.value (g.values.length + j) := by
  by_cases hmem : x ∈ args
  · obtain ⟨⟨j, hj⟩, hgj⟩ := List.mem_iff_get.mp hmem
    refine ⟨j, hj, hgj.symm, ?_⟩
    have hpos := (allocArgs_fresh args nb m g hnd hfresh hnb).1 j hj
    rw [hgj] at hpos
    rw [hpos] at hx
    exact (Option.some.inj hx).symm
  · rw [(allocArgs_map args nb m g).2.1 x hmem, hxm] at hx
    exact Option.noConfusion hx

end Eir

namespace Eir

/-- Destination allocation details for the arguments: each scoped block
gets a copy block whose argument list has the same length, the j-th
source argument is renamed to the j-th copy argument (an arg-kind value
owned by the copy block), and every value-keyed rename added by the
allocation is a fresh arg-kind value. -/
theorem allocBlocks_fresh :
    ∀ (scopeL : List Block) (m : RenameMap) (g : Function) (m' : RenameMap) (g' : Function),
      allocBlocks MangleMode.single scopeL m g = some (m', g') →
      scopeL.Nodup →
      (∀ b ∈ scopeL, ∀ a ∈ g.block_args b, alistGet m (RenameSource.value a) = none) →
      (∀ b ∈ scopeL, (g.block_args b).Nodup) →
      (∀ b1 ∈ scopeL, ∀ b2 ∈ scopeL, b1 ≠ b2 → ∀ a ∈ g.block_args b1, a ∉ g.block_args b2) →
      (∀ b ∈ scopeL, b < g.blocks.length) →
      ((∀ (i : Nat) (hi : i < scopeL.length),
        (g'.block_args (g.blocks.length + i)).length =
          (g.block_args (scopeL.get ⟨i, hi⟩)).length ∧
        (∀ (j : Nat) (hj : j < (g.block_args (scopeL.get ⟨i, hi⟩)).length)
            (hj2 : j < (g'.block_args (g.blocks.length + i)).length),
          alistGet m' (RenameSource.value
              ((g.block_args (scopeL.get ⟨i, hi⟩)).get ⟨j, hj⟩)) =
            some (RenameDest.value ((g'.block_args (g.blocks.length + i)).get ⟨j, hj2⟩)) ∧
          g'.valueGet ((g'.block_args (g.blocks.length + i)).get ⟨j, hj2⟩) =
            ValueType.arg (g.blocks.length + i))) ∧
      (∀ x d, alistGet m (RenameSource.value x) = none →
        alistGet m' (RenameSource.value x) = some d →
        ∃ w, d = RenameDest.value w ∧ w < g'.values.length ∧
          ∃ nb, g'.valueGet w = ValueType.arg nb)) := by
  intro scopeL
  induction scopeL with
  | nil =>
    intro m g m' g' h hnd hfresh hand hdisj hlt
    unfold allocBlocks at h
    obtain ⟨hm, hg⟩ := somePairEq h
    subst hm
    subst hg
    refine ⟨fun i hi => absurd hi (by simp), ?_⟩
    intro x d hxm hx
    rw [hxm] at hx
    exact Option.noConfusion hx
  | cons b rest ih =>
    intro m g m' g' h hnd hfresh hand hdisj hlt
    unfold allocBlocks at h
    by_cases hguard : (alistGet m (RenameSource.block b)).isSome = true
    · rw [if_pos hguard] at h
      exact absurd h (by simp)
    · rw [if_neg hguard] at h
      simp only [modeFrom] at h
      have hbL : b < g.blocks.length := hlt b (List.mem_cons_self _ _)
      have hargsb : (g.block_insert).1.block_args b = g.block_args b := by
        show ((g.block_insert).1.blockData b).arguments = _
        rw [blockData_block_insert_lt g b hbL]
        rfl
      have hm1val : ∀ x, alistGet
          (alistInsert m (RenameSource.block b) (RenameDest.block (g.block_insert).2))
          (RenameSource.value x) = alistGet m (RenameSource.value x) := by
        intro x
        rw [alistGet_insert_ne]
        intro hh
        exact RenameSource.noConfusion hh
      have hfreshA : ∀ a ∈ (g.block_insert).1.block_args b, alistGet
          (alistInsert m (RenameSource.block b) (RenameDest.block (g.block_insert).2))
          (RenameSource.value a) = none := by
        intro a ha
        rw [hm1val a]
        rw [hargsb] at ha
        exact hfresh b (List.mem_cons_self _ _) a ha
      have hndA : ((g.block_insert).1.block_args b).Nodup := by
        rw [hargsb]
        exact hand b (List.mem_cons_self _ _)
      have hnbL : (g.block_insert).2 < (g.block_insert).1.blocks.length := by
        rw [block_insert_idx, block_insert_blocks, List.length_append]
        simp
      have hstv : (allocArgs ((g.block_insert).1.block_args b) (g.block_insert).2
          (alistInsert m (RenameSource.block b) (RenameDest.block (g.block_insert).2))
          (g.block_insert).1).2.values =
          g.values ++ List.replicate ((g.block_insert).1.block_args b).length
            (ValueType.arg (g.block_insert).2) := by
        rw [allocArgs_values, block_insert_values]
      have hstargs : (allocArgs ((g.block_insert).1.block_args b) (g.block_insert).2
          (alistInsert m (RenameSource.block b) (RenameDest.block (g.block_insert).2))
          (g.block_insert).1).2.block_args (g.block_insert).2 =
          (List.range ((g.block_insert).1.block_args b).length).map
            (fun k => g.values.length + k) := by
        show ((allocArgs _ _ _ _).2.blockData (g.block_insert).2).arguments = _
        rw [(allocArgs_fresh ((g.block_insert).1.block_args b) (g.block_insert).2
          (alistInsert m (RenameSource.block b) (RenameDest.block (g.block_insert).2))
          (g.block_insert).1 hndA hfreshA hnbL).2]
        rw [block_insert_idx, blockData_block_insert_self, block_insert_values]
        rfl
      have hstlen : (allocArgs ((g.block_insert).1.block_args b) (g.block_insert).2
          (alistInsert m (RenameSource.block b) (RenameDest.block (g.block_insert).2))
          (g.block_insert).1).2.blocks.length = g.blocks.length + 1 := by
        rw [(allocArgs_struct _ _ _ _).1, block_insert_blocks, List.length_append]
        simp
      have hstuntouch : ∀ i, i < g.blocks.length →
          (allocArgs ((g.block_insert).1.block_args b) (g.block_insert).2
            (alistInsert m (RenameSource.block b) (RenameDest.block (g.block_insert).2))
            (g.block_insert).1).2.blockData i = g.blockData i := by
        intro i hi
        rw [(allocArgs_struct _ _ _ _).2.2.1 i
          (by rw [block_insert_idx]; exact Nat.ne_of_lt hi)]
        exact blockData_block_insert_lt g i hi
      have hstargs_other : ∀ b2, b2 < g.blocks.length →
          (allocArgs ((g.block_insert).1.block_args b) (g.block_insert).2
            (alistInsert m (RenameSource.block b) (RenameDest.block (g.block_insert).2))
            (g.block_insert).1).2.block_args b2 = g.block_args b2 := by
        intro b2 hb2
        show ((allocArgs _ _ _ _).2.blockData b2).arguments = _
        rw [hstuntouch b2 hb2]
        rfl
      have hstval_none : ∀ b2 ∈ rest, ∀ a ∈ g.block_args b2, alistGet
          (allocArgs ((g.block_insert).1.block_args b) (g.block_insert).2
            (alistInsert m (RenameSource.block b) (RenameDest.block (g.block_insert).2))
            (g.block_insert).1).1 (RenameSource.value a) = none := by
        intro b2 hb2 a ha
        have hbne : b ≠ b2 := fun hh => (List.nodup_cons.mp hnd).1 (hh ▸ hb2)
        have hnotin : a ∉ (g.block_insert).1.block_args b := by
          rw [hargsb]
          intro hmem
          exact hdisj b2 (List.mem_cons_of_mem _ hb2) b (List.mem_cons_self _ _)
            (fun hh => hbne hh.symm) a ha hmem
        rw [(allocArgs_map _ _ _ _).2.1 a hnotin, hm1val a]
        exact hfresh b2 (List.mem_cons_of_mem _ hb2) a ha
      obtain ⟨ih1, ih2⟩ := ih _ _ _ _ h (List.nodup_cons.mp hnd).2
        (by
          intro b2 hb2 a ha
          rw [hstargs_other b2 (hlt b2 (List.mem_cons_of_mem _ hb2))] at ha
          exact hstval_none b2 hb2 a ha)
        (by
          intro b2 hb2
          rw [hstargs_other b2 (hlt b2 (List.mem_cons_of_mem _ hb2))]
          exact hand b2 (List.mem_cons_of_mem _ hb2))
        (by
          intro b1 hb1 b2 hb2 hne a ha
          rw [hstargs_other b1 (hlt b1 (List.mem_cons_of_mem _ hb1))] at ha
          rw [hstargs_other b2 (hlt b2 (List.mem_cons_of_mem _ hb2))]
          exact hdisj b1 (List.mem_cons_of_mem _ hb1) b2 (List.mem_cons_of_mem _ hb2) hne a ha)
        (by
          intro b2 hb2
          rw [hstlen]
          exact Nat.lt_succ_of_lt (hlt b2 (List.mem_cons_of_mem _ hb2)))
      obtain ⟨hrA, ⟨nvr, hrv, _⟩, hruntouch, _⟩ := allocBlocks_struct rest _ _ _ _ h
      obtain ⟨_, _, hrval, _⟩ := allocBlocks_map rest _ _ _ _ h
      have hglen : ∀ L (hL : (allocArgs ((g.block_insert).1.block_args b) (g.block_insert).2
          (alistInsert m (RenameSource.block b) (RenameDest.block (g.block_insert).2))
          (g.block_insert).1).2.values = L), True := fun _ _ => trivial
      have hstvlen : (allocArgs ((g.block_insert).1.block_args b) (g.block_insert).2
          (alistInsert m (RenameSource.block b) (RenameDest.block (g.block_insert).2))
          (g.block_insert).1).2.values.length =
          g.values.length + ((g.block_insert).1.block_args b).length := by
        rw [hstv, List.length_append, List.length_replicate]
      have hvget_stable : ∀ w, w < (allocArgs ((g.block_insert).1.block_args b)
          (g.block_insert).2
          (alistInsert m (RenameSource.block b) (RenameDest.block (g.block_insert).2))
          (g.block_insert).1).2.values.length →
          g'.valueGet w = (allocArgs ((g.block_insert).1.block_args b) (g.block_insert).2
            (alistInsert m (RenameSource.block b) (RenameDest.block (g.block_insert).2))
            (g.block_insert).1).2.valueGet w := by
        intro w hw
        unfold Function.valueGet
        rw [hrv, List.getD_append _ _ _ _ hw]
      have hstvget : ∀ j, j < ((g.block_insert).1.block_args b).length →
          (allocArgs ((g.block_insert).1.block_args b) (g.block_insert).2
            (alistInsert m (RenameSource.block b) (RenameDest.block (g.block_insert).2))
            (g.block_insert).1).2.valueGet (g.values.length + j) =
            ValueType.arg (g.block_insert).2 := by
        intro j hjl
        unfold Function.valueGet
        rw [hstv, List.getD_append_right _ _ _ _ (Nat.le_add_right _ _)]
        have hsub : g.values.length + j - g.values.length = j := by omega
        rw [hsub]
        rw [List.getD_eq_getElem _ _ (by simpa using hjl)]
        simp
      refine ⟨?_, ?_⟩
      · intro i hi
        cases i with
        | zero =>
          have hargs0 : g'.block_args (g.blocks.length + 0) =
              (List.range ((g.block_insert).1.block_args b).length).map
                (fun k => g.values.length + k) := by
            show (g'.blockData (g.blocks.length + 0)).arguments = _
            rw [Nat.add_zero]
            have hlt2 : g.blocks.length < (allocArgs ((g.block_insert).1.block_args b)
                (g.block_insert).2
                (alistInsert m (RenameSource.block b) (RenameDest.block (g.block_insert).2))
                (g.block_insert).1).2.blocks.length := by
              rw [hstlen]
              exact Nat.lt_succ_self _
            rw [hruntouch g.blocks.length hlt2]
            have := hstargs
            rw [block_insert_idx] at this
            exact this
          constructor
          · rw [hargs0, List.length_map, List.length_range]
            show ((g.block_insert).1.block_args b).length =
              (g.block_args ((b :: rest).get ⟨0, hi⟩)).length
            rw [hargsb]
            rfl
          · intro j hj hj2
            have hjA : j < ((g.block_insert).1.block_args b).length := by
              rw [hargsb]
              exact hj
            have hget2 : (g'.block_args (g.blocks.length + 0)).get ⟨j, hj2⟩ =
                g.values.length + j := by
              have hj3 : j < ((List.range ((g.block_insert).1.block_args b).length).map
                  (fun k => g.values.length + k)).length := by
                rw [List.length_map, List.length_range]
                exact hjA
              rw [List.get_of_eq hargs0 ⟨j, hj2⟩]
              simp
            constructor
            · have hpos := (allocArgs_fresh ((g.block_insert).1.block_args b)
                (g.block_insert).2
                (alistInsert m (RenameSource.block b) (RenameDest.block (g.block_insert).2))
                (g.block_insert).1 hndA hfreshA hnbL).1 j hjA
              rw [block_insert_values] at hpos
              have hgetA : ((g.block_insert).1.block_args b).get ⟨j, hjA⟩ =
                  (g.block_args ((b :: rest).get ⟨0, hi⟩)).get ⟨j, hj⟩ := by
                show _ = (g.block_args b).get ⟨j, hj⟩
                exact List.get_of_eq hargsb _
              rw [hgetA] at hpos
              have := hrval _ _ hpos
              rw [this, hget2]
            · rw [hget2, hvget_stable (g.values.length + j)
                (by rw [hstvlen]; exact Nat.add_lt_add_left hjA _),
                hstvget j hjA, block_insert_idx, Nat.add_zero]
        | succ i =>
          have hir : i < rest.length := by simpa using hi
          obtain ⟨ihlen, ihget⟩ := ih1 i hir
          have harith : (allocArgs ((g.block_insert).1.block_args b) (g.block_insert).2
              (alistInsert m (RenameSource.block b) (RenameDest.block (g.block_insert).2))
              (g.block_insert).1).2.blocks.length + i = g.blocks.length + (i + 1) := by
            rw [hstlen]
            omega
          have hblt : rest.get ⟨i, hir⟩ < g.blocks.length :=
            hlt _ (List.mem_cons_of_mem _ (List.get_mem _ _ _))
          have hargseq : (allocArgs ((g.block_insert).1.block_args b) (g.block_insert).2
              (alistInsert m (RenameSource.block b) (RenameDest.block (g.block_insert).2))
              (g.block_insert).1).2.block_args (rest.get ⟨i, hir⟩) =
              g.block_args (rest.get ⟨i, hir⟩) := hstargs_other _ hblt
          rw [harith] at ihlen ihget
          show (g'.block_args (g.blocks.length + (i + 1))).length =
              (g.block_args (rest.get ⟨i, hir⟩)).length ∧ _
          constructor
          · rw [ihlen, hargseq]
          · intro j hj hj2
            have hjA : j < ((allocArgs ((g.block_insert).1.block_args b) (g.block_insert).2
                (alistInsert m (RenameSource.block b) (RenameDest.block (g.block_insert).2))
                (g.block_insert).1).2.block_args (rest.get ⟨i, hir⟩)).length := by
              rw [hargseq]
              exact hj
            obtain ⟨hmap2, hkind2⟩ := ihget j hjA hj2
            have hgeteq : ((allocArgs ((g.block_insert).1.block_args b) (g.block_insert).2
                (alistInsert m (RenameSource.block b) (RenameDest.block (g.block_insert).2))
                (g.block_insert).1).2.block_args (rest.get ⟨i, hir⟩)).get ⟨j, hjA⟩ =
                (g.block_args (rest.get ⟨i, hir⟩)).get ⟨j, hj⟩ :=
              List.get_of_eq hargseq _
            rw [hgeteq] at hmap2
            exact ⟨hmap2, hkind2⟩
      · intro x d hxm hx
        cases hms : alistGet (allocArgs ((g.block_insert).1.block_args b) (g.block_insert).2
            (alistInsert m (RenameSource.block b) (RenameDest.block (g.block_insert).2))
            (g.block_insert).1).1 (RenameSource.value x) with
        | some d0 =>
          have hpres := hrval _ _ hms
          rw [hx] at hpres
          have hdd : d = d0 := Option.some.inj hpres
          subst hdd
          have hm1x : alistGet
              (alistInsert m (RenameSource.block b) (RenameDest.block (g.block_insert).2))
              (RenameSource.value x) = none := by
            rw [hm1val x]
            exact hxm
          obtain ⟨j, hj, hxe, hde⟩ := allocArgs_added ((g.block_insert).1.block_args b)
            (g.block_insert).2
            (alistInsert m (RenameSource.block b) (RenameDest.block (g.block_insert).2))
            (g.block_insert).1 hndA hfreshA hnbL x d hm1x hms
          rw [block_insert_values] at hde
          refine ⟨g.values.length + j, hde, ?_, (g.block_insert).2, ?_⟩
          · have h1 : g.values.length + j < (allocArgs ((g.block_insert).1.block_args b)
                (g.block_insert).2
                (alistInsert m (RenameSource.block b) (RenameDest.block (g.block_insert).2))
                (g.block_insert).1).2.values.length := by
              rw [hstvlen]
              exact Nat.add_lt_add_left hj _
            have h2 : (allocArgs ((g.block_insert).1.block_args b) (g.block_insert).2
                (alistInsert m (RenameSource.block b) (RenameDest.block (g.block_insert).2))
                (g.block_insert).1).2.values.length ≤ g'.values.length := by
              rw [hrv, List.length_append]
              exact Nat.le_add_right _ _
            exact Nat.lt_of_lt_of_le h1 h2
          · rw [hvget_stable (g.values.length + j)
              (by rw [hstvlen]; exact Nat.add_lt_add_left hj _)]
            exact hstvget j hj
        | none => exact ih2 x d hms hx

end Eir

namespace Eir

/-- Pointwise correspondence of filterMaps: when the j-th element of
the copied list answers exactly the mapped answer of the j-th source
element, the whole filterMaps correspond by map. -/
theorem filterMap_pointwise {α β : Type} (p q : α → Option β) (ψ : β → β) :
    ∀ (L L2 : List α), L2.length = L.length →
      (∀ (j : Nat) (hj : j < L.length) (hj2 : j < L2.length),
        q (L2.get ⟨j, hj2⟩) = (p (L.get ⟨j, hj⟩)).map ψ) →
      L2.filterMap q = (L.filterMap p).map ψ := by
  intro L
  induction L with
  | nil =>
    intro L2 hlen hpt
    rw [List.length_nil, List.length_eq_zero] at hlen
    subst hlen
    rfl
  | cons a rest ih =>
    intro L2 hlen hpt
    cases L2 with
    | nil => exact absurd hlen (by simp)
    | cons c rest2 =>
      have hlen2 : rest2.length = rest.length := by
        simpa using hlen
      have h0 := hpt 0 (by simp) (by simp)
      have htail : ∀ (j : Nat) (hj : j < rest.length) (hj2 : j < rest2.length),
          q (rest2.get ⟨j, hj2⟩) = (p (rest.get ⟨j, hj⟩)).map ψ := by
        intro j hj hj2
        exact hpt (j + 1) (by simpa using hj) (by simpa using hj2)
      have hrest := ih rest2 hlen2 htail
      have h0c : q c = Option.map ψ (p a) := h0
      cases hpa : p a with
      | none =>
        have h0n : q c = none := by
          rw [hpa] at h0c
          exact h0c
        rw [List.filterMap_cons_none h0n, List.filterMap_cons_none hpa]
        exact hrest
      | some b0 =>
        have h0s : q c = some (ψ b0) := by
          rw [hpa] at h0c
          exact h0c
        rw [List.filterMap_cons_some h0s, List.filterMap_cons_some hpa,
          hrest, List.map_cons]

theorem value_block_of_kind_block (f : Function) (v : Value) (b : Block)
    (h : f.value_kind v = ValueType.block b) : f.value_block v = some b := by
  unfold Function.value_block
  simp only [h]

theorem value_block_of_kind_arg (f : Function) (v : Value) (o : Block)
    (h : f.value_kind v = ValueType.arg o) : f.value_block v = none := by
  unfold Function.value_block
  simp only [h]

theorem value_block_of_kind_const (f : Function) (v : Value) (c : Nat)
    (h : f.value_kind v = ValueType.const c) : f.value_block v = none := by
  unfold Function.value_block
  simp only [h]

/-- The destination block recorded for a renamed block, as read from a
rename map. -/
def blockDestOf (m : RenameMap) (b : Block) : Block :=
  match alistGet m (RenameSource.block b) with
  | some (RenameDest.block nb) => nb
  | _ => 0

theorem blockDestOf_eq (m : RenameMap) (b nb : Block)
    (h : alistGet m (RenameSource.block b) = some (RenameDest.block nb)) :
    blockDestOf m b = nb := by
  unfold blockDestOf
  simp only [h]

end Eir

namespace Eir

/-- Facts about a single-container run with an empty rename map and no
pre-allocated entry arguments: the scope is plain reachability, each
scoped block gets a fresh copy (position recorded in the final map)
with equal op kind, argument count and read count, reads are related by
mappedReadOk, the copy assignment is injective, argument renames are
positional, every value rename points at a fresh arg-kind value, and
old value kinds are stable. -/
theorem runInner_empty_map_facts
    (mg : Mangler) (f : Function) (e : Block) (fuel : Nat) (res : RunResult)
    (hwf : f.wf = true)
    (helt : e < f.blocks.length)
    (hentry : mg.entry = some e)
    (hmap : mg.map = [])
    (hargs0 : mg.num_args = 0)
    (hargnd : ∀ b, b < f.blocks.length → (f.block_args b).Nodup)
    (howned : ∀ b, b < f.blocks.length → ∀ a ∈ f.block_args b,
      f.valueGet a = ValueType.arg b)
    (hrun : mg.runInner MangleMode.single fuel f = some res) :
    res.normMap = [] ∧
    res.newEntry = f.blocks.length ∧
    (∀ b, b ∈ res.scope ↔ ReachAvoid f [] [e] b) ∧
    valuesNoAlias res.fn.values ∧
    (∀ r, r < f.values.length → res.fn.value_kind r = f.value_kind r) ∧
    (∀ b ∈ res.scope,
      alistGet res.finalMap (RenameSource.block b) =
        some (RenameDest.block (blockDestOf res.finalMap b)) ∧
      f.blocks.length < blockDestOf res.finalMap b ∧
      res.fn.block_kind (blockDestOf res.finalMap b) = f.block_kind b ∧
      (res.fn.block_args (blockDestOf res.finalMap b)).length = (f.block_args b).length ∧
      (res.fn.block_reads (blockDestOf res.finalMap b)).length = (f.block_reads b).length ∧
      (∀ (j : Nat) (hj : j < (f.block_reads b).length)
          (hj2 : j < (res.fn.block_reads (blockDestOf res.finalMap b)).length),
        mappedReadOk res.finalMap res.fn res.newEntry
          (f.value_kind ((f.block_reads b).get ⟨j, hj⟩))
          ((f.block_reads b).get ⟨j, hj⟩)
          ((res.fn.block_reads (blockDestOf res.finalMap b)).get ⟨j, hj2⟩))) ∧
    (∀ b1 ∈ res.scope, ∀ b2 ∈ res.scope,
      blockDestOf res.finalMap b1 = blockDestOf res.finalMap b2 → b1 = b2) ∧
    ((res.fn.block_args res.newEntry).length = 0 ∧
      res.fn.block_kind res.newEntry = f.block_kind e ∧
      (res.fn.block_reads res.newEntry).length = (f.block_reads e).length ∧
      (∀ (j : Nat) (hj : j < (f.block_reads e).length)
          (hj2 : j < (res.fn.block_reads res.newEntry).length),
        mappedReadOk res.finalMap res.fn res.newEntry
          (f.value_kind ((f.block_reads e).get ⟨j, hj⟩))
          ((f.block_reads e).get ⟨j, hj⟩)
          ((res.fn.block_reads res.newEntry).get ⟨j, hj2⟩))) ∧
    (∀ b ∈ res.scope, ∀ (k : Nat) (hk : k < (f.block_args b).length)
        (hk2 : k < (res.fn.block_args (blockDestOf res.finalMap b)).length),
      alistGet res.finalMap (RenameSource.value ((f.block_args b).get ⟨k, hk⟩)) =
        some (RenameDest.value
          ((res.fn.block_args (blockDestOf res.finalMap b)).get ⟨k, hk2⟩)) ∧
      res.fn.value_kind ((res.fn.block_args (blockDestOf res.finalMap b)).get ⟨k, hk2⟩) =
        ValueType.arg (blockDestOf res.finalMap b)) ∧
    (∀ x d, alistGet res.finalMap (RenameSource.value x) = some d →
      ∃ w, d = RenameDest.value w ∧
        ∃ nb, res.fn.value_kind w = ValueType.arg nb) := by
  obtain ⟨m1, scope, q, to4, to5, hnorm, hwalk, halloc, hcopyE, hcopyS, hres⟩ :=
    runInner_single_decomp mg f e fuel res hentry hrun
  subst hres
  simp only [hargs0, insertArgsN, hmap] at hnorm hwalk halloc hcopyE hcopyS
  have hm1 : ([] : RenameMap) = m1 := Option.some.inj hnorm
  subst hm1
  have hfnoal : valuesNoAlias f.values := valuesNoAlias_of_wf f hwf
  have hneidx : (f.block_insert).2 = f.blocks.length := block_insert_idx f
  have hT2len : (f.block_insert).1.blocks.length = f.blocks.length + 1 := by
    rw [block_insert_blocks, List.length_append]
    simp
  have hT2vals : (f.block_insert).1.values = f.values := block_insert_values f
  have hT2noal : valuesNoAlias (f.block_insert).1.values := by
    rw [hT2vals]
    exact hfnoal
  have hT2succ : ∀ a, (f.block_insert).1.successors a = f.successors a :=
    fun a => successors_insertArgs_entry f 0 hwf a
  have hT2reads : ∀ i, (f.block_insert).1.block_reads i = f.block_reads i :=
    fun i => block_reads_insertArgs_entry f 0 i
  have hT2kind : ∀ i, i < f.blocks.length →
      (f.block_insert).1.block_kind i = f.block_kind i :=
    fun i hi => block_kind_insertArgs_entry f 0 i hi
  have hT2args : ∀ i, i < f.blocks.length →
      (f.block_insert).1.block_args i = f.block_args i := by
    intro i hi
    show ((f.block_insert).1.blockData i).arguments = _
    rw [blockData_block_insert_lt f i hi]
    rfl
  have hT2ne_data : (f.block_insert).1.blockData (f.block_insert).2 = emptyBlockData := by
    rw [hneidx]
    exact blockData_block_insert_self f
  have hscope_iff : ∀ b, b ∈ scope ↔ ReachAvoid f [] [e] b := by
    intro b
    rw [walkAux_scope_iff _ [] e fuel scope hwalk b]
    constructor
    · intro h
      exact ReachAvoid_congr _ f [] [e] hT2succ b h
    · intro h
      exact ReachAvoid_congr f _ [] [e] (fun a => (hT2succ a).symm) b h
  have hnds : scope.Nodup :=
    walkAux_nodup _ [] fuel [e] [] scope hwalk (by simp)
  have hslt : ∀ b ∈ scope, b < f.blocks.length :=
    fun b hb => ReachAvoid_lt f hwf [] e helt b ((hscope_iff b).mp hb)
  obtain ⟨hAlen, ⟨nvA, hAv, hAnoal⟩, hAuntouch, hAops⟩ := allocBlocks_struct
    scope [] _ q.1 q.2 (by rw [← Prod.mk.eta (p := q)] at halloc; exact halloc)
  obtain ⟨hAsome, hAnone, hAvalsome, hApos⟩ := allocBlocks_map
    scope [] _ q.1 q.2 (by rw [← Prod.mk.eta (p := q)] at halloc; exact halloc)
  obtain ⟨hAF1, hAF2⟩ := allocBlocks_fresh scope [] _ q.1 q.2
    (by rw [← Prod.mk.eta (p := q)] at halloc; exact halloc)
    hnds
    (fun b _ a _ => rfl)
    (by
      intro b hb
      rw [hT2args b (hslt b hb)]
      exact hargnd b (hslt b hb))
    (by
      intro b1 hb1 b2 hb2 hne a ha
      rw [hT2args b1 (hslt b1 hb1)] at ha
      rw [hT2args b2 (hslt b2 hb2)]
      intro ha2
      have h1 := howned b1 (hslt b1 hb1) a ha
      have h2 := howned b2 (hslt b2 hb2) a ha2
      rw [h1] at h2
      injection h2 with h3
      exact hne h3)
    (fun b hb => by rw [hT2len]; exact Nat.lt_succ_of_lt (hslt b hb))
  have hq2len : q.2.blocks.length = f.blocks.length + 1 + scope.length := by
    rw [hAlen, hT2len]
  have hq2noal : valuesNoAlias q.2.values := by
    rw [hAv]
    exact valuesNoAlias_append _ _ hT2noal hAnoal
  have hq2vals : ∃ L, q.2.values = f.values ++ L := by
    refine ⟨nvA, ?_⟩
    rw [hAv, hT2vals]
  have hvk_of : ∀ (g : Function), valuesNoAlias g.values →
      (∃ L, g.values = f.values ++ L) → ∀ r, r < f.values.length →
      g.value_kind r = f.value_kind r := by
    intro g hg ⟨L, hL⟩ r hr
    rw [value_kind_eq_valueGet g hg, value_kind_eq_valueGet f hfnoal]
    unfold Function.valueGet
    rw [hL, List.getD_append _ _ _ _ hr]
  have hq2reads : ∀ i, q.2.block_reads i = f.block_reads i := by
    intro i
    show (q.2.blockData i).reads = _
    rw [(hAops i).2.1]
    exact hT2reads i
  have hq2kind : ∀ i, i < f.blocks.length → q.2.block_kind i = f.block_kind i := by
    intro i hi
    show (q.2.blockData i).op = _
    rw [(hAops i).1]
    exact hT2kind i hi
  have hq2ne_reads : (q.2.blockData (f.block_insert).2).reads = [] := by
    rw [(hAops (f.block_insert).2).2.1, hT2ne_data]
    rfl
  have hq2ne_args : (q.2.blockData (f.block_insert).2).arguments = [] := by
    rw [hAuntouch (f.block_insert).2 (by rw [hneidx, hT2len]; exact Nat.lt_succ_self _),
      hT2ne_data]
    rfl
  have hq2new_reads : ∀ nb, f.blocks.length + 1 ≤ nb → (q.2.blockData nb).reads = [] := by
    intro nb hnb
    rw [(hAops nb).2.1, blockData_oob _ nb (by rw [hT2len]; exact hnb)]
    rfl
  have hposf : ∀ (i : Nat) (hi : i < scope.length),
      alistGet q.1 (RenameSource.block (scope.get ⟨i, hi⟩)) =
        some (RenameDest.block (f.blocks.length + 1 + i)) := by
    intro i hi
    rw [hApos i hi, hT2len]
  have hlookup_mem : ∀ b ∈ scope, ∀ nb, alistGet q.1 (RenameSource.block b) =
      some (RenameDest.block nb) → f.blocks.length + 1 ≤ nb ∧ nb < q.2.blocks.length := by
    intro b hb nb hl
    obtain ⟨⟨i, hi⟩, hgi⟩ := List.mem_iff_get.mp hb
    rw [← hgi, hposf i hi] at hl
    injection hl with hl2
    have hnb : nb = f.blocks.length + 1 + i := by injection hl2 with h3; exact h3.symm
    subst hnb
    constructor
    · exact Nat.le_add_right _ _
    · rw [hq2len]
      exact Nat.add_lt_add_left hi _
  have hinj : ∀ b1 ∈ scope, ∀ b2 ∈ scope, ∀ nb : Block,
      alistGet q.1 (RenameSource.block b1) = some (RenameDest.block nb) →
      alistGet q.1 (RenameSource.block b2) = some (RenameDest.block nb) →
      b1 = b2 := by
    intro b1 hb1 b2 hb2 nb hl1 hl2
    obtain ⟨⟨i, hi⟩, hgi⟩ := List.mem_iff_get.mp hb1
    obtain ⟨⟨j, hj⟩, hgj⟩ := List.mem_iff_get.mp hb2
    rw [← hgi, hposf i hi] at hl1
    rw [← hgj, hposf j hj] at hl2
    injection hl1 with hl1b
    injection hl2 with hl2b
    have hij : f.blocks.length + 1 + i = f.blocks.length + 1 + j := by
      have h1 : f.blocks.length + 1 + i = nb := by injection hl1b
      have h2 : f.blocks.length + 1 + j = nb := by injection hl2b
      rw [h1, h2]
    have hij2 : i = j := Nat.add_left_cancel hij
    rw [← hgi, ← hgj]
    congr 1
    exact Fin.ext hij2
  obtain ⟨hE_se, hE_len, hE_untouch, hE_issome, hE_kind, hE_rlen, hE_rok⟩ :=
    copyBody_single_spec q.1 (f.block_insert).2 e (f.block_insert).2 q.2 to4 hcopyE
      hq2noal
      (by
        intro r hr
        rw [hq2reads e] at hr
        obtain ⟨L, hL⟩ := hq2vals
        have h9 := wf_reads_lt f hwf e r hr
        rw [hL, List.length_append]
        exact Nat.lt_of_lt_of_le h9 (Nat.le_add_right _ _))
      (by
        rw [hneidx, hq2len]
        exact Nat.lt_of_lt_of_le (Nat.lt_succ_self _) (Nat.le_add_right _ _))
      hq2ne_reads
  have hto4noal : valuesNoAlias to4.values := hE_se.noAlias hq2noal
  have hto4vals : ∃ L, to4.values = f.values ++ L := by
    obtain ⟨L1, hL1⟩ := hq2vals
    obtain ⟨⟨L2, hL2, _⟩, _⟩ := hE_se
    exact ⟨L1 ++ L2, by rw [hL2, hL1, List.append_assoc]⟩
  have hsrc_ne : ∀ b ∈ scope, b ≠ (f.block_insert).2 := by
    intro b hb
    rw [hneidx]
    exact Nat.ne_of_lt (hslt b hb)
  have hto4reads : ∀ b ∈ scope, to4.block_reads b = f.block_reads b := by
    intro b hb
    show (to4.blockData b).reads = _
    rw [hE_untouch b (hsrc_ne b hb)]
    exact hq2reads b
  have hto4kind : ∀ b ∈ scope, to4.block_kind b = f.block_kind b := by
    intro b hb
    show (to4.blockData b).op = _
    rw [hE_untouch b (hsrc_ne b hb)]
    exact hq2kind b (hslt b hb)
  obtain ⟨hS_se, hS_len, hS_untouch, hS_facts⟩ :=
    copyScopeBlocks_single_spec q.1 (f.block_insert).2 (f.blocks.length + 1)
      scope to4 to5 hcopyS hto4noal hnds
      (fun b hb => Nat.lt_succ_of_lt (hslt b hb))
      (by
        intro b hb r hr
        rw [hto4reads b hb] at hr
        obtain ⟨L, hL⟩ := hto4vals
        have h9 := wf_reads_lt f hwf b r hr
        rw [hL, List.length_append]
        exact Nat.lt_of_lt_of_le h9 (Nat.le_add_right _ _))
      (by
        intro b hb
        obtain ⟨⟨i, hi⟩, hgi⟩ := List.mem_iff_get.mp hb
        refine ⟨f.blocks.length + 1 + i, by rw [← hgi]; exact hposf i hi,
          Nat.le_add_right _ _, ?_, ?_⟩
        · rw [hE_len, hq2len]
          exact Nat.add_lt_add_left hi _
        · have hne9 : f.blocks.length + 1 + i ≠ (f.block_insert).2 := by
            rw [hneidx]
            exact Nat.ne_of_gt (Nat.lt_of_lt_of_le (Nat.lt_succ_self _) (Nat.le_add_right _ _))
          rw [hE_untouch _ hne9]
          exact hq2new_reads _ (Nat.le_add_right _ _))
      hinj
  have hto5noal : valuesNoAlias to5.values := hS_se.noAlias hto4noal
  have hto5vals : ∃ L, to5.values = f.values ++ L := by
    obtain ⟨L1, hL1⟩ := hto4vals
    obtain ⟨⟨L2, hL2, _⟩, _⟩ := hS_se
    exact ⟨L1 ++ L2, by rw [hL2, hL1, List.append_assoc]⟩
  have hto5_ne_data : to5.blockData (f.block_insert).2 = to4.blockData (f.block_insert).2 := by
    apply hS_untouch
    intro b hb nb hl
    obtain ⟨hge, _⟩ := hlookup_mem b hb nb hl
    rw [hneidx]
    exact Nat.ne_of_lt (Nat.lt_of_lt_of_le (Nat.lt_succ_self _) hge)
  have hargs_eq_q2 : ∀ i, to5.block_args i = q.2.block_args i := by
    intro i
    show (to5.blockData i).arguments = (q.2.blockData i).arguments
    rw [hS_se.2 i, hE_se.2 i]
  have hdest_spec : ∀ b ∈ scope,
      alistGet q.1 (RenameSource.block b) =
        some (RenameDest.block (blockDestOf q.1 b)) ∧
      ∃ (i : Nat) (hi : i < scope.length), scope.get ⟨i, hi⟩ = b ∧
        blockDestOf q.1 b = f.blocks.length + 1 + i := by
    intro b hb
    obtain ⟨⟨i, hi⟩, hgi⟩ := List.mem_iff_get.mp hb
    have hl : alistGet q.1 (RenameSource.block b) =
        some (RenameDest.block (f.blocks.length + 1 + i)) := by
      rw [← hgi]
      exact hposf i hi
    have hbd := blockDestOf_eq q.1 b _ hl
    exact ⟨by rw [hbd]; exact hl, i, hi, hgi, hbd⟩
  refine ⟨rfl, hneidx, hscope_iff, hto5noal, ?_, ?_, ?_, ?_, ?_, ?_⟩
  · intro r hr
    exact hvk_of to5 hto5noal hto5vals r hr
  · intro b hb
    obtain ⟨hlook, i, hi, hgi, hbd⟩ := hdest_spec b hb
    obtain ⟨hops4, hkind5, hrlen5, hrok5⟩ := hS_facts b hb _ hlook
    refine ⟨hlook, ?_, ?_, ?_, ?_, ?_⟩
    · rw [hbd]
      exact Nat.lt_of_lt_of_le (Nat.lt_succ_self _) (Nat.le_add_right _ _)
    · rw [hkind5, hto4kind b hb]
    · rw [hargs_eq_q2]
      have hAF1i := (hAF1 i hi).1
      rw [hT2len, hgi, hT2args b (hslt b hb)] at hAF1i
      rw [hbd]
      exact hAF1i
    · rw [hrlen5, hto4reads b hb]
    · intro j hj hj2
      have hj4 : j < (to4.block_reads b).length := by rw [hto4reads b hb]; exact hj
      have hok := hrok5 j hj4 hj2
      have hget4 : (to4.block_reads b).get ⟨j, hj4⟩ = (f.block_reads b).get ⟨j, hj⟩ :=
        List.get_of_eq (hto4reads b hb) _
      rw [hget4] at hok
      have hrf : (f.block_reads b).get ⟨j, hj⟩ < f.values.length :=
        wf_reads_lt f hwf b _ (List.get_mem _ _ _)
      rw [hvk_of to4 hto4noal hto4vals _ hrf] at hok
      exact hok
  · intro b1 hb1 b2 hb2 heq
    obtain ⟨hl1, _, _, _, _⟩ := hdest_spec b1 hb1
    obtain ⟨hl2, _, _, _, _⟩ := hdest_spec b2 hb2
    rw [heq] at hl1
    exact hinj b1 hb1 b2 hb2 _ hl1 hl2
  · refine ⟨?_, ?_, ?_, ?_⟩
    · have : to5.block_args (f.block_insert).2 = [] := by
        rw [hargs_eq_q2]
        exact hq2ne_args
      rw [this]
      rfl
    · show to5.block_kind (f.block_insert).2 = _
      unfold Function.block_kind
      rw [hto5_ne_data]
      have : (to4.blockData (f.block_insert).2).op = f.block_kind e := by
        show to4.block_kind (f.block_insert).2 = _
        rw [hE_kind]
        exact hq2kind e helt
      rw [this]
      rfl
    · show (to5.block_reads (f.block_insert).2).length = _
      unfold Function.block_reads
      rw [hto5_ne_data]
      have : (to4.blockData (f.block_insert).2).reads.length = (f.block_reads e).length := by
        show (to4.block_reads (f.block_insert).2).length = _
        rw [hE_rlen, hq2reads e]
      rw [this]
      rfl
    · intro j hj hj2
      have hreads_eq : to5.block_reads (f.block_insert).2 =
          to4.block_reads (f.block_insert).2 := by
        unfold Function.block_reads
        rw [hto5_ne_data]
      have hjq : j < (q.2.block_reads e).length := by rw [hq2reads e]; exact hj
      have hj4 : j < (to4.block_reads (f.block_insert).2).length := by
        rw [hreads_eq] at hj2
        exact hj2
      have hok := hE_rok j hjq hj4
      have hgetq : (q.2.block_reads e).get ⟨j, hjq⟩ = (f.block_reads e).get ⟨j, hj⟩ :=
        List.get_of_eq (hq2reads e) _
      rw [hgetq] at hok
      have hrf : (f.block_reads e).get ⟨j, hj⟩ < f.values.length :=
        wf_reads_lt f hwf e _ (List.get_mem _ _ _)
      rw [hvk_of q.2 hq2noal hq2vals _ hrf] at hok
      have hget5 : (to5.block_reads (f.block_insert).2).get ⟨j, hj2⟩ =
          (to4.block_reads (f.block_insert).2).get ⟨j, hj4⟩ :=
        List.get_of_eq hreads_eq _
      rw [hget5]
      exact mappedReadOk_mono q.1 (f.block_insert).2 _ _ _ hS_se hto4noal hok
  · intro b hb k hk hk2
    obtain ⟨hlook, i, hi, hgi, hbd⟩ := hdest_spec b hb
    obtain ⟨hAFlen, hAFget⟩ := hAF1 i hi
    rw [hT2len, hgi, hT2args b (hslt b hb)] at hAFlen hAFget
    have hk2q : k < (q.2.block_args (f.blocks.length + 1 + i)).length := by
      rw [hAFlen]
      exact hk
    obtain ⟨hmapk, hkindk⟩ := hAFget k hk hk2q
    have hgetq : (to5.block_args (blockDestOf q.1 b)).get ⟨k, hk2⟩ =
        (q.2.block_args (f.blocks.length + 1 + i)).get ⟨k, hk2q⟩ := by
      have hbeq : to5.block_args (blockDestOf q.1 b) =
          q.2.block_args (f.blocks.length + 1 + i) := by
        rw [hbd, hargs_eq_q2]
      exact List.get_of_eq hbeq _
    constructor
    · rw [hgetq]
      exact hmapk
    · rw [hgetq]
      have hwlt : (q.2.block_args (f.blocks.length + 1 + i)).get ⟨k, hk2q⟩ <
          q.2.values.length := by
        by_contra hge
        have : q.2.valueGet ((q.2.block_args (f.blocks.length + 1 + i)).get ⟨k, hk2q⟩) =
            ValueType.const 0 := by
          unfold Function.valueGet
          rw [List.getD_eq_default _ _ (Nat.le_of_not_lt hge)]
        rw [this] at hkindk
        exact ValueType.noConfusion hkindk
      have hvgstable : to5.valueGet ((q.2.block_args (f.blocks.length + 1 + i)).get
          ⟨k, hk2q⟩) = q.2.valueGet ((q.2.block_args (f.blocks.length + 1 + i)).get
          ⟨k, hk2q⟩) := by
        rw [hS_se.valueGet_eq _ (Nat.lt_of_lt_of_le hwlt hE_se.values_le),
          hE_se.valueGet_eq _ hwlt]
      rw [value_kind_eq_valueGet to5 hto5noal, hvgstable, hkindk, hbd]
  · intro x d hxd
    obtain ⟨w, hdw, hwlt, nb, hkw⟩ := hAF2 x d rfl hxd
    refine ⟨w, hdw, nb, ?_⟩
    have hvgstable : to5.valueGet w = q.2.valueGet w := by
      rw [hS_se.valueGet_eq _ (Nat.lt_of_lt_of_le hwlt hE_se.values_le),
        hE_se.valueGet_eq _ hwlt]
    rw [value_kind_eq_valueGet to5 hto5noal, hvgstable, hkw]


end Eir

/-- C2 (amended: requires that the entry block has no arguments and
does not lie on a cycle reachable from itself, since the new entry is
created with zero arguments and the entry body is additionally copied
into a separate scope block): with an empty rename map the returned new
entry heads a subgraph isomorphic to the subgraph reachable from the
original entry: an injective correspondence sending the entry to the
new entry, mapping the reachable set onto the newly reachable set,
preserving op kinds, argument counts and read counts, mapping
successors through the correspondence, and mapping each read through
the block and argument bijection. -/
theorem mangler_empty_map_iso
    (mg : Eir.Mangler) (f : Eir.Function) (e : Eir.Block) (fuel : Nat) (res : Eir.RunResult)
    (hwf : f.wf = true)
    (helt : e < f.blocks.length)
    (hentry : mg.entry = some e)
    (hmap : mg.map = [])
    (hargs0 : mg.num_args = 0)
    (hea : f.block_args e = [])
    (hargnd : ∀ b, b < f.blocks.length → (f.block_args b).Nodup)
    (howned : ∀ b, b < f.blocks.length → ∀ a ∈ f.block_args b,
      f.valueGet a = Eir.ValueType.arg b)
    (hrun : mg.runInner Eir.MangleMode.single fuel f = some res)
    (hnoc : ∀ b ∈ res.scope, e ∉ f.successors b)
    (hscoped : ∀ b ∈ res.scope, ∀ r ∈ f.block_reads b,
      match f.value_kind r with
      | Eir.ValueType.arg o => o ∈ res.scope ∧ r ∈ f.block_args o
      | _ => True) :
    ∃ ψ : Eir.Block → Eir.Block,
      ψ e = res.newEntry ∧
      (∀ b1, Eir.ReachAvoid f [] [e] b1 → ∀ b2, Eir.ReachAvoid f [] [e] b2 →
        ψ b1 = ψ b2 → b1 = b2) ∧
      (∀ b, Eir.ReachAvoid f [] [e] b →
        Eir.ReachAvoid res.fn [] [res.newEntry] (ψ b)) ∧
      (∀ c, Eir.ReachAvoid res.fn [] [res.newEntry] c →
        ∃ b, Eir.ReachAvoid f [] [e] b ∧ ψ b = c) ∧
      (∀ b, Eir.ReachAvoid f [] [e] b →
        res.fn.block_kind (ψ b) = f.block_kind b ∧
        (res.fn.block_args (ψ b)).length = (f.block_args b).length ∧
        (res.fn.block_reads (ψ b)).length = (f.block_reads b).length ∧
        res.fn.successors (ψ b) = (f.successors b).map ψ ∧
        (∀ (j : Nat) (hj : j < (f.block_reads b).length)
            (hj2 : j < (res.fn.block_reads (ψ b)).length),
          (∀ b2, f.value_kind ((f.block_reads b).get ⟨j, hj⟩) =
              Eir.ValueType.block b2 →
            res.fn.value_kind ((res.fn.block_reads (ψ b)).get ⟨j, hj2⟩) =
              Eir.ValueType.block (ψ b2)) ∧
          (∀ c, f.value_kind ((f.block_reads b).get ⟨j, hj⟩) =
              Eir.ValueType.const c →
            res.fn.value_kind ((res.fn.block_reads (ψ b)).get ⟨j, hj2⟩) =
              Eir.ValueType.const c) ∧
          (∀ o (k : Nat) (hk : k < (f.block_args o).length),
            f.value_kind ((f.block_reads b).get ⟨j, hj⟩) = Eir.ValueType.arg o →
            (f.block_reads b).get ⟨j, hj⟩ = (f.block_args o).get ⟨k, hk⟩ →
            ∃ hk2 : k < (res.fn.block_args (ψ o)).length,
              (res.fn.block_reads (ψ b)).get ⟨j, hj2⟩ =
                (res.fn.block_args (ψ o)).get ⟨k, hk2⟩))) := by
  obtain ⟨hnm, hne, hscope_iff, hnoal, hvk, hscopeF, hinjD, hentryF, hargpos, hvaldest⟩ :=
    Eir.runInner_empty_map_facts mg f e fuel res hwf helt hentry hmap hargs0
      hargnd howned hrun
  have hfnoal : Eir.valuesNoAlias f.values := Eir.valuesNoAlias_of_wf f hwf
  have hmemscope : ∀ b, Eir.ReachAvoid f [] [e] b → b ∈ res.scope :=
    fun b h => (hscope_iff b).mpr h
  have hsuccmem : ∀ b ∈ res.scope, ∀ b2 ∈ f.successors b, b2 ∈ res.scope :=
    fun b hb b2 hs => (hscope_iff b2).mpr
      (Eir.ReachAvoid.step b b2 ((hscope_iff b).mp hb) hs rfl)
  have hsuccne : ∀ b ∈ res.scope, ∀ b2 ∈ f.successors b, b2 ≠ e := by
    intro b hb b2 hs he
    subst he
    exact hnoc b hb hs
  have hcopy : ∀ b, Eir.ReachAvoid f [] [e] b →
      res.fn.block_kind (if b = e then res.newEntry else
        Eir.blockDestOf res.finalMap b) = f.block_kind b ∧
      (res.fn.block_args (if b = e then res.newEntry else
        Eir.blockDestOf res.finalMap b)).length = (f.block_args b).length ∧
      (res.fn.block_reads (if b = e then res.newEntry else
        Eir.blockDestOf res.finalMap b)).length = (f.block_reads b).length ∧
      (∀ (j : Nat) (hj : j < (f.block_reads b).length)
          (hj2 : j < (res.fn.block_reads (if b = e then res.newEntry else
            Eir.blockDestOf res.finalMap b)).length),
        Eir.mappedReadOk res.finalMap res.fn res.newEntry
          (f.value_kind ((f.block_reads b).get ⟨j, hj⟩))
          ((f.block_reads b).get ⟨j, hj⟩)
          ((res.fn.block_reads (if b = e then res.newEntry else
            Eir.blockDestOf res.finalMap b)).get ⟨j, hj2⟩)) := by
    intro b hbRA
    by_cases hbe : b = e
    · rw [if_pos hbe]
      subst hbe
      obtain ⟨hargs0F, hkindF, hrlenF, hrokF⟩ := hentryF
      exact ⟨hkindF, by rw [hargs0F, hea]; rfl, hrlenF, hrokF⟩
    · rw [if_neg hbe]
      have hbS : b ∈ res.scope := hmemscope b hbRA
      obtain ⟨_, _, hkindF, halenF, hrlenF, hrokF⟩ := hscopeF b hbS
      exact ⟨hkindF, halenF, hrlenF, hrokF⟩
  have hvb : ∀ b, Eir.ReachAvoid f [] [e] b →
      ∀ (j : Nat) (hj : j < (f.block_reads b).length)
        (hj2 : j < (res.fn.block_reads (if b = e then res.newEntry else
          Eir.blockDestOf res.finalMap b)).length),
      res.fn.value_block ((res.fn.block_reads (if b = e then res.newEntry else
        Eir.blockDestOf res.finalMap b)).get ⟨j, hj2⟩) =
        (f.value_block ((f.block_reads b).get ⟨j, hj⟩)).map
          (fun b => if b = e then res.newEntry else Eir.blockDestOf res.finalMap b) := by
    intro b hbRA j hj hj2
    have hbS : b ∈ res.scope := hmemscope b hbRA
    have hrmem : (f.block_reads b).get ⟨j, hj⟩ ∈ f.block_reads b :=
      List.get_mem _ _ _
    have hrlt : (f.block_reads b).get ⟨j, hj⟩ < f.values.length :=
      Eir.wf_reads_lt f hwf b _ hrmem
    have hok := (hcopy b hbRA).2.2.2 j hj hj2
    rcases hk : f.value_kind ((f.block_reads b).get ⟨j, hj⟩) with o | c | b2 | w2
    · rw [hk, Eir.mappedReadOk_arg_eq] at hok
      cases hlook : alistGet res.finalMap
          (Eir.RenameSource.value ((f.block_reads b).get ⟨j, hj⟩)) with
      | some d =>
        simp only [hlook] at hok
        obtain ⟨w0, hd0, nb0, hkw0⟩ := hvaldest _ _ hlook
        subst hd0
        have hww : (res.fn.block_reads (if b = e then res.newEntry else
            Eir.blockDestOf res.finalMap b)).get ⟨j, hj2⟩ = w0 := hok
        rw [Eir.value_block_of_kind_arg f _ o hk, hww,
          Eir.value_block_of_kind_arg res.fn _ nb0 hkw0]
        rfl
      | none =>
        simp only [hlook] at hok
        have hwr : (res.fn.block_reads (if b = e then res.newEntry else
            Eir.blockDestOf res.finalMap b)).get ⟨j, hj2⟩ =
            (f.block_reads b).get ⟨j, hj⟩ := hok
        have hkr : res.fn.value_kind ((f.block_reads b).get ⟨j, hj⟩) =
            Eir.ValueType.arg o := by
          rw [hvk _ hrlt]
          exact hk
        rw [Eir.value_block_of_kind_arg f _ o hk, hwr,
          Eir.value_block_of_kind_arg res.fn _ o hkr]
        rfl
    · rw [hk] at hok
      have hwr : (res.fn.block_reads (if b = e then res.newEntry else
          Eir.blockDestOf res.finalMap b)).get ⟨j, hj2⟩ =
          (f.block_reads b).get ⟨j, hj⟩ := hok
      have hkr : res.fn.value_kind ((f.block_reads b).get ⟨j, hj⟩) =
          Eir.ValueType.const c := by
        rw [hvk _ hrlt]
        exact hk
      rw [Eir.value_block_of_kind_const f _ c hk, hwr,
        Eir.value_block_of_kind_const res.fn _ c hkr]
      rfl
    · have hb2succ : b2 ∈ f.successors b := by
        unfold Eir.Function.successors
        exact List.mem_filterMap.mpr ⟨_, hrmem,
          Eir.value_block_of_kind_block f _ b2 hk⟩
      have hb2S : b2 ∈ res.scope := hsuccmem b hbS b2 hb2succ
      have hb2ne : b2 ≠ e := hsuccne b hbS b2 hb2succ
      have hlook := (hscopeF b2 hb2S).1
      rw [hk, Eir.mappedReadOk_block_eq] at hok
      simp only [hlook] at hok
      have hok2 : res.fn.value_kind ((res.fn.block_reads
          (if b = e then res.newEntry else
            Eir.blockDestOf res.finalMap b)).get ⟨j, hj2⟩) =
          Eir.ValueType.block (Eir.blockDestOf res.finalMap b2) := hok
      rw [Eir.value_block_of_kind_block res.fn _ _ hok2,
        Eir.value_block_of_kind_block f _ b2 hk]
      show some _ = some ((fun b => if b = e then res.newEntry else
        Eir.blockDestOf res.finalMap b) b2)
      beta_reduce
      rw [if_neg hb2ne]
    · rw [Eir.value_kind_eq_valueGet f hfnoal] at hk
      exact absurd hk (Eir.valueGet_not_alias f hfnoal _ w2)
  have hsucc_char : ∀ b, Eir.ReachAvoid f [] [e] b →
      res.fn.successors (if b = e then res.newEntry else
        Eir.blockDestOf res.finalMap b) =
      (f.successors b).map (fun b => if b = e then res.newEntry else
        Eir.blockDestOf res.finalMap b) := by
    intro b hbRA
    show (res.fn.block_reads _).filterMap res.fn.value_block = _
    exact Eir.filterMap_pointwise f.value_block res.fn.value_block
      (fun b => if b = e then res.newEntry else Eir.blockDestOf res.finalMap b)
      (f.block_reads b)
      (res.fn.block_reads (if b = e then res.newEntry else
        Eir.blockDestOf res.finalMap b))
      ((hcopy b hbRA).2.2.1)
      (fun j hj hj2 => hvb b hbRA j hj hj2)
  refine ⟨fun b => if b = e then res.newEntry else Eir.blockDestOf res.finalMap b,
    ?_, ?_, ?_, ?_, ?_⟩
  · beta_reduce
    rw [if_pos rfl]
  · intro b1 h1 b2 h2 heq
    beta_reduce at heq
    by_cases he1 : b1 = e
    · by_cases he2 : b2 = e
      · rw [he1, he2]
      · rw [if_pos he1, if_neg he2] at heq
        have hb2S : b2 ∈ res.scope := hmemscope b2 h2
        have hgt := (hscopeF b2 hb2S).2.1
        rw [← heq, hne] at hgt
        exact absurd hgt (Nat.lt_irrefl _)
    · by_cases he2 : b2 = e
      · rw [if_neg he1, if_pos he2] at heq
        have hb1S : b1 ∈ res.scope := hmemscope b1 h1
        have hgt := (hscopeF b1 hb1S).2.1
        rw [heq, hne] at hgt
        exact absurd hgt (Nat.lt_irrefl _)
      · rw [if_neg he1, if_neg he2] at heq
        exact hinjD b1 (hmemscope b1 h1) b2 (hmemscope b2 h2) heq
  · intro b hbRA
    beta_reduce
    induction hbRA with
    | base x hx hnone =>
      rw [List.mem_singleton.mp hx, if_pos rfl]
      exact Eir.ReachAvoid.base _ (List.mem_singleton.mpr rfl) rfl
    | step a x ha hs hnone ih =>
      apply Eir.ReachAvoid.step _ _ ih _ rfl
      rw [hsucc_char a ha]
      exact List.mem_map_of_mem _ hs
  · intro c hc
    induction hc with
    | base x hx hnone =>
      refine ⟨e, Eir.ReachAvoid.base e (List.mem_singleton.mpr rfl) rfl, ?_⟩
      beta_reduce
      rw [if_pos rfl, List.mem_singleton.mp hx]
    | step d x hd hs hnone ih =>
      obtain ⟨b, hbRA, hψb⟩ := ih
      beta_reduce at hψb
      rw [← hψb, hsucc_char b hbRA] at hs
      obtain ⟨b2, hb2succ, hψ2⟩ := List.mem_map.mp hs
      refine ⟨b2, Eir.ReachAvoid.step b b2 hbRA hb2succ rfl, ?_⟩
      beta_reduce
      exact hψ2
  · intro b hbRA
    beta_reduce
    obtain ⟨hkindF, halenF, hrlenF, hrokF⟩ := hcopy b hbRA
    refine ⟨hkindF, halenF, hrlenF, hsucc_char b hbRA, ?_⟩
    intro j hj hj2
    have hbS : b ∈ res.scope := hmemscope b hbRA
    have hrmem : (f.block_reads b).get ⟨j, hj⟩ ∈ f.block_reads b :=
      List.get_mem _ _ _
    have hrlt : (f.block_reads b).get ⟨j, hj⟩ < f.values.length :=
      Eir.wf_reads_lt f hwf b _ hrmem
    have hok := hrokF j hj hj2
    refine ⟨?_, ?_, ?_⟩
    · intro b2 hk
      have hb2succ : b2 ∈ f.successors b := by
        unfold Eir.Function.successors
        exact List.mem_filterMap.mpr ⟨_, hrmem, Eir.value_block_of_kind_block f _ b2 hk⟩
      have hb2S : b2 ∈ res.scope := hsuccmem b hbS b2 hb2succ
      have hb2ne : b2 ≠ e := hsuccne b hbS b2 hb2succ
      have hlook := (hscopeF b2 hb2S).1
      rw [hk, Eir.mappedReadOk_block_eq] at hok
      simp only [hlook] at hok
      have hok2 : res.fn.value_kind ((res.fn.block_reads
          (if b = e then res.newEntry else
            Eir.blockDestOf res.finalMap b)).get ⟨j, hj2⟩) =
          Eir.ValueType.block (Eir.blockDestOf res.finalMap b2) := hok
      rw [hok2, if_neg hb2ne]
    · intro c hk
      rw [hk] at hok
      have hwr : (res.fn.block_reads (if b = e then res.newEntry else
          Eir.blockDestOf res.finalMap b)).get ⟨j, hj2⟩ =
          (f.block_reads b).get ⟨j, hj⟩ := hok
      rw [hwr, hvk _ hrlt]
      exact hk
    · intro o k hk hkind hrk
      have hsc := hscoped b hbS _ hrmem
      rw [hkind] at hsc
      obtain ⟨hoS, hro⟩ := hsc
      have hone : o ≠ e := by
        intro hh
        subst hh
        rw [hea] at hro
        exact absurd hro (List.not_mem_nil _)
      have halen2 := (hscopeF o hoS).2.2.2.1
      have hk2 : k < (res.fn.block_args (Eir.blockDestOf res.finalMap o)).length := by
        rw [halen2]
        exact hk
      obtain ⟨hlookk, _⟩ := hargpos o hoS k hk hk2
      rw [← hrk] at hlookk
      rw [hkind, Eir.mappedReadOk_arg_eq] at hok
      simp only [hlookk] at hok
      have hww : (res.fn.block_reads (if b = e then res.newEntry else
          Eir.blockDestOf res.finalMap b)).get ⟨j, hj2⟩ =
          (res.fn.block_args (Eir.blockDestOf res.finalMap o)).get ⟨k, hk2⟩ := hok
      have hlisteq : (res.fn.block_args (if o = e then res.newEntry else
          Eir.blockDestOf res.finalMap o)) =
          res.fn.block_args (Eir.blockDestOf res.finalMap o) := by
        rw [if_neg hone]
      have hk2b : k < (res.fn.block_args (if o = e then res.newEntry else
          Eir.blockDestOf res.finalMap o)).length := by
        rw [hlisteq]
        exact hk2
      refine ⟨hk2b, ?_⟩
      rw [hww]
      exact (List.get_of_eq hlisteq ⟨k, hk2b⟩).symm

namespace Eir

/-- Concrete one-block function whose entry block has one argument. -/
def c2exFun : Function :=
  ⟨⟨⟨0, 0⟩, ⟨0, 0⟩, 0⟩, 0, [⟨[0], some (OpKind.other 5), [], 0⟩],
    [ValueType.arg 0], some 0⟩

/-- Mangler with an empty rename map started on block 0 of c2exFun. -/
def c2exMangler : Mangler :=
  ⟨some 0, 0, []⟩

/-- The concrete successful empty-map run on c2exFun. -/
def c2exRes : RunResult :=
  (c2exMangler.runInner MangleMode.single 10 c2exFun).getD ⟨c2exFun, 0, [], [], []⟩

/-- Concrete one-block function with no arguments and no reads. -/
def c2wFun : Function :=
  ⟨⟨⟨0, 0⟩, ⟨0, 0⟩, 0⟩, 0, [⟨[], some (OpKind.other 9), [], 0⟩], [], some 0⟩

/-- Mangler with an empty rename map started on block 0 of c2wFun. -/
def c2wMangler : Mangler :=
  ⟨some 0, 0, []⟩

/-- The concrete successful empty-map run on c2wFun. -/
def c2wRes : RunResult :=
  (c2wMangler.runInner MangleMode.single 10 c2wFun).getD ⟨c2wFun, 0, [], [], []⟩

end Eir

/-- C2 counterexample: with an empty rename map on an entry block that
has one argument the run succeeds, but the returned new entry has zero
arguments, so no correspondence sending the entry to the returned new
entry preserves argument counts and the claimed isomorphism fails. -/
theorem mangler_empty_map_entry_args_lost :
    Eir.c2exMangler.map = [] ∧
    (Eir.c2exFun.block_args 0).length = 1 ∧
    Eir.c2exMangler.runInner Eir.MangleMode.single 10 Eir.c2exFun = some Eir.c2exRes ∧
    ∀ ψ : Eir.Block → Eir.Block, ψ 0 = Eir.c2exRes.newEntry →
      (Eir.c2exRes.fn.block_args (ψ 0)).length ≠ (Eir.c2exFun.block_args 0).length :=
  ⟨rfl, rfl, rfl, fun ψ h => by rw [h]; decide⟩

/-- C2 witness: the amended isomorphism theorem instantiated on the
concrete one-block function c2wFun with the empty rename map. -/
theorem mangler_empty_map_iso_witness :
    Eir.c2wFun.wf = true ∧
    Eir.c2wMangler.map = [] ∧
    Eir.c2wMangler.num_args = 0 ∧
    Eir.c2wFun.block_args 0 = [] ∧
    Eir.c2wMangler.runInner Eir.MangleMode.single 10 Eir.c2wFun = some Eir.c2wRes ∧
    (∃ ψ : Eir.Block → Eir.Block,
      ψ 0 = Eir.c2wRes.newEntry ∧
      (∀ b1, Eir.ReachAvoid Eir.c2wFun [] [0] b1 →
        ∀ b2, Eir.ReachAvoid Eir.c2wFun [] [0] b2 → ψ b1 = ψ b2 → b1 = b2) ∧
      (∀ b, Eir.ReachAvoid Eir.c2wFun [] [0] b →
        Eir.ReachAvoid Eir.c2wRes.fn [] [Eir.c2wRes.newEntry] (ψ b)) ∧
      (∀ c, Eir.ReachAvoid Eir.c2wRes.fn [] [Eir.c2wRes.newEntry] c →
        ∃ b, Eir.ReachAvoid Eir.c2wFun [] [0] b ∧ ψ b = c) ∧
      (∀ b, Eir.ReachAvoid Eir.c2wFun [] [0] b →
        Eir.c2wRes.fn.block_kind (ψ b) = Eir.c2wFun.block_kind b ∧
        (Eir.c2wRes.fn.block_args (ψ b)).length = (Eir.c2wFun.block_args b).length ∧
        (Eir.c2wRes.fn.block_reads (ψ b)).length = (Eir.c2wFun.block_reads b).length ∧
        Eir.c2wRes.fn.successors (ψ b) = (Eir.c2wFun.successors b).map ψ ∧
        (∀ (j : Nat) (hj : j < (Eir.c2wFun.block_reads b).length)
            (hj2 : j < (Eir.c2wRes.fn.block_reads (ψ b)).length),
          (∀ b2, Eir.c2wFun.value_kind ((Eir.c2wFun.block_reads b).get ⟨j, hj⟩) =
              Eir.ValueType.block b2 →
            Eir.c2wRes.fn.value_kind ((Eir.c2wRes.fn.block_reads (ψ b)).get ⟨j, hj2⟩) =
              Eir.ValueType.block (ψ b2)) ∧
          (∀ c, Eir.c2wFun.value_kind ((Eir.c2wFun.block_reads b).get ⟨j, hj⟩) =
              Eir.ValueType.const c →
            Eir.c2wRes.fn.value_kind ((Eir.c2wRes.fn.block_reads (ψ b)).get ⟨j, hj2⟩) =
              Eir.ValueType.const c) ∧
          (∀ o (k : Nat) (hk : k < (Eir.c2wFun.block_args o).length),
            Eir.c2wFun.value_kind ((Eir.c2wFun.block_reads b).get ⟨j, hj⟩) =
              Eir.ValueType.arg o →
            (Eir.c2wFun.block_reads b).get ⟨j, hj⟩ =
              (Eir.c2wFun.block_args o).get ⟨k, hk⟩ →
            ∃ hk2 : k < (Eir.c2wRes.fn.block_args (ψ o)).length,
              (Eir.c2wRes.fn.block_reads (ψ b)).get ⟨j, hj2⟩ =
                (Eir.c2wRes.fn.block_args (ψ o)).get ⟨k, hk2⟩)))) :=
  ⟨rfl, rfl, rfl, rfl, rfl,
    mangler_empty_map_iso Eir.c2wMangler Eir.c2wFun 0 10 Eir.c2wRes
      rfl (by decide) rfl rfl rfl rfl
      (by decide)
      (by decide)
      rfl
      (by
        intro b hb
        have hb0 : b = 0 := List.mem_singleton.mp hb
        subst hb0
        decide)
      (by
        intro b hb r hr
        have hb0 : b = 0 := List.mem_singleton.mp hb
        subst hb0
        exact absurd hr (List.not_mem_nil r))⟩

namespace ErlLower

/-- Interned symbol, value handle and pattern-value handle. -/
abbrev Symbol := Nat
abbrev IrValue := Nat
abbrev PatternValue := Nat
abbrev ScopeToken := Nat

/-- Modelled from the spec: the scope stack owned by the lowering
context is a stack of frames of name bindings; push opens a fresh frame
and returns a token (the depth before the push), bind adds to the top
frame, and pop with a token discards every frame pushed since that
token. -/
structure Scope where
  frames : List (List (Symbol × IrValue))
deriving DecidableEq

def Scope.push (s : Scope) : Scope × ScopeToken :=
  (⟨[] :: s.frames⟩, s.frames.length)

def Scope.pop (s : Scope) (t : ScopeToken) : Scope :=
  ⟨s.frames.drop (s.frames.length - t)⟩

def Scope.bind (s : Scope) (name : Symbol) (v : IrValue) : Scope :=
  match s.frames with
  | [] => ⟨[[(name, v)]]⟩
  | fr :: rest => ⟨((name, v) :: fr) :: rest⟩

def framesResolve : List (List (Symbol × IrValue)) → Symbol → Option IrValue
  | [], _ => none
  | fr :: rest, name =>
    match alistGet fr name with
    | some v => some v
    | none => framesResolve rest name

/-- Name lookup walks frames from the innermost outwards. -/
def Scope.resolve (s : Scope) (name : Symbol) : Option IrValue :=
  framesResolve s.frames name

/-- Modelled from the spec: the per-function pattern container tracks,
per clause, how many PatternValue slots have been allocated;
clause_value allocates the next slot of a clause. -/
structure PatternContainer where
  clauses : List Nat
deriving DecidableEq

def PatternContainer.clause_start (p : PatternContainer) : PatternContainer × Nat :=
  (⟨p.clauses ++ [0]⟩, p.clauses.length)

def PatternContainer.clause_value (p : PatternContainer) (cl : Nat) :
    PatternContainer × PatternValue :=
  (⟨listModify p.clauses cl (fun n => n + 1)⟩, p.clauses.getD cl 0)

/-- Modelled from the spec: the function builder pairs the function
under construction with its pattern container. -/
structure Builder where
  fn : Eir.Function
  pat : PatternContainer
deriving DecidableEq

/-- Auxiliary equality guards, from pattern/mod.rs. -/
inductive EqGuard
  | eqValue (pos : Nat) (v : IrValue)
  | eqBind (l r : Nat)
deriving DecidableEq

/-- The clause lowering context, translated from ClauseLowerCtx in
pattern/mod.rs. -/
structure ClauseLowerCtx where
  pat_clause : Nat
  pre_case : Eir.Block
  binds : List (Option Symbol)
  values : List IrValue
  eq_guards : List EqGuard
  value_dedup : List (IrValue × PatternValue)
deriving DecidableEq

/-- Translated from ClauseLowerCtx::clause_value: a value already in
value_dedup reuses its slot; otherwise the value is pushed onto the
clause value list and a fresh PatternValue slot is allocated.  Note
that the map is consulted but never written. -/
def ClauseLowerCtx.clause_value (cx : ClauseLowerCtx) (b : Builder) (val : IrValue) :
    ClauseLowerCtx × Builder × PatternValue :=
  match alistGet cx.value_dedup val with
  | some pv => (cx, b, pv)
  | none =>
    let p := b.pat.clause_value cx.pat_clause
    ({ cx with values := cx.values ++ [val] },
     { b with pat := p.1 }, p.2)

/-- Modelled from the spec: the processed pattern tree records whether
the clause is provably unmatchable, the variable names mentioned by the
patterns, the binds in stable left-to-right order and the values the
tree registers with the clause. -/
structure Tree where
  unmatchable : Bool
  varNames : List Symbol
  binds : List (Option Symbol)
  treeValues : List IrValue
deriving DecidableEq

/-- The lowering context carrying the scope stack. -/
structure LowerCtx where
  scope : Scope
deriving DecidableEq

/-- Modelled from the spec: on failure every variable name mentioned in
the pattern is bound to a fresh sentinel value in the current scope. -/
def pseudo_bind (b : Builder) (cx : LowerCtx) (names : List Symbol) :
    Builder × LowerCtx :=
  names.foldl (fun (p : Builder × LowerCtx) name =>
    ({ p.1 with fn := { p.1.fn with
        values := p.1.fn.values ++ [Eir.ValueType.const 0] } },
     { p.2 with scope := p.2.scope.bind name p.1.fn.values.length })) (b, cx)

/-- Modelled from the spec: tree lowering registers every tree value
with the clause and collects the binds. -/
def treeLower (tree : Tree) (cx : ClauseLowerCtx) (b : Builder) :
    ClauseLowerCtx × Builder :=
  let p := tree.treeValues.foldl (fun (q : ClauseLowerCtx × Builder) v =>
    let r := q.1.clause_value q.2 v
    (r.1, r.2.1)) (cx, b)
  ({ p.1 with binds := tree.binds }, p.2)

/-- Modelled from the spec: the guard lambda is a fresh block with one
return-continuation argument plus one argument per bind, built under a
scope frame that is popped before returning. -/
def buildGuardLambda (cx : ClauseLowerCtx) (ctx : LowerCtx) (b : Builder) :
    Builder × LowerCtx × Eir.Block :=
  let p1 := b.fn.block_insert
  let p2 := p1.1.block_arg_insert p1.2
  let p3 := ctx.scope.push
  let fn3 := cx.binds.foldl (fun fn _ => (fn.block_arg_insert p1.2).1) p2.1
  ({ b with fn := fn3 }, { ctx with scope := p3.1.pop p3.2 }, p1.2)

/-- The successful result of lower_clause, from pattern/mod.rs. -/
structure LoweredClause where
  clause : Nat
  body : Eir.Block
  guard : IrValue
  scope_token : ScopeToken
  values : List IrValue
deriving DecidableEq

/-- The failure result of lower_clause, from pattern/mod.rs. -/
structure LoweredClauseFail where
  scope_token : ScopeToken
deriving DecidableEq

/-- Translated from lower_clause in pattern/mod.rs (tree construction,
tree processing and the guard/body internals are modelled from the
spec): assert that pre_case is incomplete, start the clause, and on an
unmatchable tree push a scope frame, issue the pseudo-binds and return
the failure carrying the token; otherwise lower the tree, build the
guard lambda, push the body scope frame, insert the body block with one
argument per bind (binding named ones) and return the lowered clause. -/
def lower_clause (ctx : LowerCtx) (b : Builder) (pre_case : Eir.Block) (tree : Tree)
    (_guard : Option (List Nat)) :
    Option ((LoweredClause ⊕ LoweredClauseFail) × LowerCtx × Builder) :=
  if (b.fn.block_kind pre_case).isSome then none
  else
    let p0 := b.pat.clause_start
    let b1 : Builder := { b with pat := p0.1 }
    if tree.unmatchable then
      let p1 := ctx.scope.push
      let p2 := pseudo_bind b1 { ctx with scope := p1.1 } tree.varNames
      some (Sum.inr ⟨p1.2⟩, p2.2, p2.1)
    else
      let cx0 : ClauseLowerCtx := ⟨p0.2, pre_case, [], [], [], []⟩
      let p3 := treeLower tree cx0 b1
      let p4 := buildGuardLambda p3.1 ctx p3.2
      let gv := p4.1.fn.valueOfBlock p4.2.2
      let b4 : Builder := { p4.1 with fn := gv.1 }
      let p5 := p4.2.1.scope.push
      let p6 := b4.fn.block_insert
      let step := p3.1.binds.foldl (fun (q : Eir.Function × Scope) ob =>
        ((q.1.block_arg_insert p6.2).1,
          match ob with
          | some name => q.2.bind name (q.1.block_arg_insert p6.2).2
          | none => q.2)) (p6.1, p5.1)
      some (Sum.inl ⟨p3.1.pat_clause, p6.2, gv.2, p5.2, p3.1.values⟩,
        { p4.2.1 with scope := step.2 }, { b4 with fn := step.1 })

end ErlLower

namespace ErlLower

/-- After pseudo_bind on a scope whose frame stack is fr :: rest, the
stack is fr2 :: rest where fr2 extends fr with one binding per name:
existing bindings stay resolvable and every processed name resolves. -/
theorem pseudo_bind_frames : ∀ (names : List Symbol) (b : Builder) (cx : LowerCtx)
    (fr : List (Symbol × IrValue)) (rest : List (List (Symbol × IrValue))),
    cx.scope.frames = fr :: rest →
    ∃ fr2, (pseudo_bind b cx names).2.scope.frames = fr2 :: rest ∧
      (∀ name, (alistGet fr name).isSome = true → (alistGet fr2 name).isSome = true) ∧
      (∀ name ∈ names, (alistGet fr2 name).isSome = true) := by
  intro names
  induction names with
  | nil =>
    intro b cx fr rest hfr
    exact ⟨fr, hfr, fun name h => h, fun name h => absurd h (List.not_mem_nil _)⟩
  | cons n rest2 ih =>
    intro b cx fr rest hfr
    have hred : pseudo_bind b cx (n :: rest2) =
        pseudo_bind
          { b with fn := { b.fn with values := b.fn.values ++ [Eir.ValueType.const 0] } }
          { cx with scope := cx.scope.bind n b.fn.values.length } rest2 := rfl
    rw [hred]
    have hbind : ({ cx with scope := cx.scope.bind n b.fn.values.length } :
        LowerCtx).scope.frames = ((n, b.fn.values.length) :: fr) :: rest := by
      show (cx.scope.bind n b.fn.values.length).frames = _
      unfold Scope.bind
      rw [hfr]
    obtain ⟨fr2, hfr2, hpres, hmem⟩ := ih _ _ _ _ hbind
    refine ⟨fr2, hfr2, ?_, ?_⟩
    · intro name h
      apply hpres
      show (alistGet ((n, b.fn.values.length) :: fr) name).isSome = true
      unfold alistGet
      by_cases hn : n = name
      · rw [if_pos hn]
        rfl
      · rw [if_neg hn]
        exact h
    · intro name hname
      rcases List.mem_cons.mp hname with h | h
      · subst h
        apply hpres
        show (alistGet ((name, b.fn.values.length) :: fr) name).isSome = true
        unfold alistGet
        rw [if_pos rfl]
        rfl
      · exact hmem name h

end ErlLower

/-- C6: on an unmatchable pattern tree (and an incomplete pre_case
block, so the entry assertion passes), lower_clause returns the failure
result whose scope token was pushed before any clause-local binding,
pseudo-binds make every variable name mentioned in the pattern
resolvable in the returned scope, and popping the returned token
restores exactly the scope that existed before the call. -/
theorem lower_clause_unmatchable
    (ctx : ErlLower.LowerCtx) (b : ErlLower.Builder) (pre_case : Eir.Block)
    (tree : ErlLower.Tree) (guardSeq : Option (List Nat))
    (hpc : b.fn.block_kind pre_case = none)
    (hun : tree.unmatchable = true) :
    ∃ (fail : ErlLower.LoweredClauseFail) (ctx2 : ErlLower.LowerCtx)
      (b2 : ErlLower.Builder),
      ErlLower.lower_clause ctx b pre_case tree guardSeq =
        some (Sum.inr fail, ctx2, b2) ∧
      fail.scope_token = ctx.scope.frames.length ∧
      (∀ name ∈ tree.varNames, (ctx2.scope.resolve name).isSome = true) ∧
      ctx2.scope.pop fail.scope_token = ctx.scope := by
  have hpush : (({ ctx with scope := (ctx.scope.push).1 } : ErlLower.LowerCtx)).scope.frames =
      [] :: ctx.scope.frames := rfl
  obtain ⟨fr2, hfr2, hpres, hmem⟩ := ErlLower.pseudo_bind_frames tree.varNames
    { b with pat := (b.pat.clause_start).1 }
    { ctx with scope := (ctx.scope.push).1 } [] ctx.scope.frames hpush
  refine ⟨⟨(ctx.scope.push).2⟩,
    (ErlLower.pseudo_bind { b with pat := (b.pat.clause_start).1 }
      { ctx with scope := (ctx.scope.push).1 } tree.varNames).2,
    (ErlLower.pseudo_bind { b with pat := (b.pat.clause_start).1 }
      { ctx with scope := (ctx.scope.push).1 } tree.varNames).1, ?_, rfl, ?_, ?_⟩
  · unfold ErlLower.lower_clause
    rw [hpc]
    rw [if_neg (by simp : ¬ ((none : Option Eir.OpKind).isSome = true))]
    rw [hun]
    rfl
  · intro name hname
    unfold ErlLower.Scope.resolve
    rw [hfr2]
    unfold ErlLower.framesResolve
    cases hlook : alistGet fr2 name with
    | some v => rfl
    | none =>
      have := hmem name hname
      rw [hlook] at this
      exact absurd this (by simp)
  · unfold ErlLower.Scope.pop
    rw [hfr2]
    show (⟨List.drop ((fr2 :: ctx.scope.frames).length - ctx.scope.frames.length)
      (fr2 :: ctx.scope.frames)⟩ : ErlLower.Scope) = ctx.scope
    have hlen : (fr2 :: ctx.scope.frames).length - ctx.scope.frames.length = 1 := by
      rw [List.length_cons]
      omega
    rw [hlen]
    rfl

namespace ErlLower

/-- Concrete function with a single incomplete block, used as the
builder state for the clause lowering examples. -/
def c6fn : Eir.Function :=
  ⟨⟨⟨0, 0⟩, ⟨0, 0⟩, 0⟩, 0, [⟨[], none, [], 0⟩], [], none⟩

/-- Concrete builder over c6fn with one empty clause container. -/
def c6builder : Builder := ⟨c6fn, ⟨[]⟩⟩

/-- Concrete lowering context with one outer scope frame binding
name 5 to value 55. -/
def c6ctx : LowerCtx := ⟨⟨[[(5, 55)]]⟩⟩

/-- Concrete unmatchable tree mentioning variable names 3 and 4. -/
def c6tree : Tree := ⟨true, [3, 4], [], []⟩

end ErlLower

/-- C6 witness: the unmatchable-clause theorem instantiated on the
concrete context, builder and tree. -/
theorem lower_clause_unmatchable_witness :
    ErlLower.c6builder.fn.block_kind 0 = none ∧
    ErlLower.c6tree.unmatchable = true ∧
    ∃ (fail : ErlLower.LoweredClauseFail) (ctx2 : ErlLower.LowerCtx)
      (b2 : ErlLower.Builder),
      ErlLower.lower_clause ErlLower.c6ctx ErlLower.c6builder 0 ErlLower.c6tree none =
        some (Sum.inr fail, ctx2, b2) ∧
      fail.scope_token = ErlLower.c6ctx.scope.frames.length ∧
      (∀ name ∈ ErlLower.c6tree.varNames, (ctx2.scope.resolve name).isSome = true) ∧
      ctx2.scope.pop fail.scope_token = ErlLower.c6ctx.scope :=
  ⟨rfl, rfl, lower_clause_unmatchable ErlLower.c6ctx ErlLower.c6builder 0
    ErlLower.c6tree none rfl rfl⟩

/-- C9: lower_clause aborts exactly when the pre_case block passed to
it is already complete: the entry assertion block_kind(pre_case)
is_none fires before any other work, and under the precondition that
pre_case is incomplete every execution path returns a result. -/
theorem lower_clause_assert_incomplete
    (ctx : ErlLower.LowerCtx) (b : ErlLower.Builder) (pre_case : Eir.Block)
    (tree : ErlLower.Tree) (guardSeq : Option (List Nat)) :
    ErlLower.lower_clause ctx b pre_case tree guardSeq = none ↔
      (b.fn.block_kind pre_case).isSome = true := by
  unfold ErlLower.lower_clause
  by_cases h : (b.fn.block_kind pre_case).isSome = true
  · rw [if_pos h]
    exact ⟨fun _ => h, fun _ => rfl⟩
  · rw [if_neg h]
    constructor
    · intro hcontra
      by_cases hm : tree.unmatchable = true
      · rw [if_pos hm] at hcontra
        exact Option.noConfusion hcontra
      · rw [if_neg hm] at hcontra
        exact Option.noConfusion hcontra
    · intro hcontra
      exact absurd hcontra h

namespace ErlLower

/-- Fresh clause context as lower_clause initializes it: empty binds,
values, guards and value_dedup, on clause 0. -/
def c3ctx : ClauseLowerCtx := ⟨0, 0, [], [], [], []⟩

/-- Builder whose pattern container has one started clause. -/
def c3builder : Builder := ⟨c6fn, ⟨[0]⟩⟩

/-- First registration of value 7. -/
def c3r1 : ClauseLowerCtx × Builder × PatternValue :=
  c3ctx.clause_value c3builder 7

/-- Second registration of the same value 7. -/
def c3r2 : ClauseLowerCtx × Builder × PatternValue :=
  c3r1.1.clause_value c3r1.2.1 7

end ErlLower

/-- C3: registering the same IR value twice yields two distinct
PatternValue slots and two occurrences in the clause value list, and
value_dedup stays empty, because clause_value reads the dedup map but
never inserts into it. -/
theorem clause_value_dedup_ignored :
    ErlLower.c3r1.2.2 = 0 ∧
    ErlLower.c3r2.2.2 = 1 ∧
    ErlLower.c3r1.2.2 ≠ ErlLower.c3r2.2.2 ∧
    ErlLower.c3r2.1.values = [7, 7] ∧
    ErlLower.c3r2.1.value_dedup = [] :=
  ⟨rfl, rfl, by decide, rfl, rfl⟩
